import Mathlib

/-!
# Verification of the `threshold` event-set / clock library

Shallow embedding of the Rust crate `threshold` (event sets, clocks and
the threshold-union engine) together with proofs and refutations of the
specification claims.

Events are `u64` in the source; we model them as `ℕ`.  The only places
where `u64` arithmetic can wrap are the two unguarded subtractions
`total_pos - neg` inside `TClock::<A, BelowExSet>::threshold_union`; these
are modelled by `u64sub` below, which agrees with wrapping subtraction on
all arguments `< 2^64`.

Rust's `HashSet<u64>` / `BTreeSet<u64>` are modelled as `Finset ℕ`
(their `Eq` instances compare as sets).  `HashMap` / `BTreeMap` are
modelled as key-sorted association lists (canonical representatives of
the map; `Eq` on the Rust maps compares as maps, and sorted association
lists are canonical for that equality).
-/

namespace Threshold

/-- Wrapping `u64` subtraction, as `ℕ`: agrees with `a.wrapping_sub(b)`
whenever `a b < 2^64`. -/
def u64sub (a b : ℕ) : ℕ :=
  if b ≤ a then a - b else a + 2 ^ 64 - b

/-! ### An executable ascending sort for `Finset ℕ`

`Finset.sort` is implemented with well-founded recursion and does not
reduce inside the kernel, so we use a structurally recursive insertion
sort, lifted to the multiset quotient. -/

/-- Insert into an ascending list. -/
def insAsc (x : ℕ) : List ℕ → List ℕ
  | [] => [x]
  | y :: rest => if x ≤ y then x :: y :: rest else y :: insAsc x rest

/-- Insertion sort (ascending). -/
def isort : List ℕ → List ℕ
  | [] => []
  | x :: rest => insAsc x (isort rest)

theorem insAsc_perm (x : ℕ) (l : List ℕ) : List.Perm (insAsc x l) (x :: l) := by
  induction l with
  | nil => simp [insAsc]
  | cons y rest ih =>
    by_cases h : x ≤ y
    · simp [insAsc, h]
    · simp only [insAsc, h, if_false]
      exact ((ih.cons y).trans (List.Perm.swap x y rest))

theorem isort_perm (l : List ℕ) : List.Perm (isort l) l := by
  induction l with
  | nil => simp [isort]
  | cons x rest ih => exact (insAsc_perm x (isort rest)).trans (ih.cons x)

theorem insAsc_sorted {x : ℕ} {l : List ℕ} (h : l.Sorted (· ≤ ·)) :
    (insAsc x l).Sorted (· ≤ ·) := by
  induction l with
  | nil => simp [insAsc]
  | cons y rest ih =>
    by_cases hxy : x ≤ y
    · simp only [insAsc, hxy, if_true]
      refine List.sorted_cons.2 ⟨?_, h⟩
      intro b hb
      rcases List.mem_cons.1 hb with rfl | hb
      · exact hxy
      · exact hxy.trans ((List.sorted_cons.1 h).1 b hb)
    · simp only [insAsc, hxy, if_false]
      refine List.sorted_cons.2 ⟨?_, ih (List.sorted_cons.1 h).2⟩
      intro b hb
      have hb2 := (insAsc_perm x rest).mem_iff.1 hb
      rcases List.mem_cons.1 hb2 with rfl | hb2
      · exact le_of_not_le hxy
      · exact (List.sorted_cons.1 h).1 b hb2

theorem isort_sorted (l : List ℕ) : (isort l).Sorted (· ≤ ·) := by
  induction l with
  | nil => simp [isort]
  | cons x rest ih => exact insAsc_sorted ih

theorem isort_eq_of_perm {l₁ l₂ : List ℕ} (h : List.Perm l₁ l₂) :
    isort l₁ = isort l₂ :=
  List.eq_of_perm_of_sorted
    (((isort_perm l₁).trans h).trans (isort_perm l₂).symm)
    (isort_sorted l₁) (isort_sorted l₂)

/-- Ascending sort of a `Finset ℕ`, evaluable by the kernel. -/
def sortAsc (s : Finset ℕ) : List ℕ :=
  Quot.liftOn s.1 isort (fun _ _ h => isort_eq_of_perm h)

theorem sortAsc_eq_sort (s : Finset ℕ) : sortAsc s = s.sort (· ≤ ·) := by
  rcases s with ⟨m, hm⟩
  induction m using Quot.ind with
  | mk l =>
    have hperm :
        List.Perm (Finset.sort (· ≤ ·) (⟨Quot.mk _ l, hm⟩ : Finset ℕ)) l :=
      Multiset.coe_eq_coe.1 (Finset.sort_eq (· ≤ ·) ⟨Quot.mk _ l, hm⟩)
    exact List.eq_of_perm_of_sorted ((isort_perm l).trans hperm.symm)
      (isort_sorted l) (Finset.sort_sorted _ _)

theorem mem_sortAsc {s : Finset ℕ} {x : ℕ} : x ∈ sortAsc s ↔ x ∈ s := by
  rw [sortAsc_eq_sort]; exact Finset.mem_sort _

theorem sortAsc_sorted (s : Finset ℕ) : (sortAsc s).Sorted (· ≤ ·) := by
  rw [sortAsc_eq_sort]; exact Finset.sort_sorted _ _

theorem sortAsc_nodup (s : Finset ℕ) : (sortAsc s).Nodup := by
  rw [sortAsc_eq_sort]; exact Finset.sort_nodup _ _

theorem sortAsc_sorted_lt (s : Finset ℕ) : (sortAsc s).Sorted (· < ·) := by
  rw [sortAsc_eq_sort]; exact Finset.sort_sorted_lt _

/-! ## MaxSet (`src/set/max.rs`) -/

/-- `MaxSet { max: u64 }`: the set `{1, …, max}`. -/
structure MaxSet where
  max : ℕ
deriving DecidableEq, Repr

namespace MaxSet

/-- `MaxSet::new` -/
def new : MaxSet := ⟨0⟩

/-- `MaxSet::next_event` (returns the new state and the generated event). -/
def next_event (s : MaxSet) : MaxSet × ℕ :=
  (⟨s.max + 1⟩, s.max + 1)

/-- `MaxSet::add_event` (returns the new state and the `bool` result). -/
def add_event (s : MaxSet) (event : ℕ) : MaxSet × Bool :=
  if event ≤ s.max then (s, false) else (⟨event⟩, true)

/-- `MaxSet::add_event_range` -/
def add_event_range (s : MaxSet) (_start finish : ℕ) : MaxSet × Bool :=
  s.add_event finish

/-- `MaxSet::is_event` -/
def is_event (s : MaxSet) (event : ℕ) : Bool :=
  event ≤ s.max

/-- `MaxSet::events` -/
def events (s : MaxSet) : ℕ × List ℕ :=
  (s.max, [])

/-- `MaxSet::frontier` -/
def frontier (s : MaxSet) : ℕ :=
  s.max

/-- `MaxSet::join` -/
def join (s other : MaxSet) : MaxSet :=
  ⟨Max.max s.max other.max⟩

/-- `MaxSet::meet` -/
def meet (s other : MaxSet) : MaxSet :=
  ⟨Min.min s.max other.max⟩

/-- `MaxSet::event_iter`: all events from lowest to highest. -/
def event_iter (s : MaxSet) : List ℕ :=
  List.range' 1 s.max

/-- Trait default `EventSet::from_event` (`new` + `add_event`). -/
def from_event (event : ℕ) : MaxSet :=
  (new.add_event event).1

/-- Trait default `EventSet::from_events` (fold of `add_event`). -/
def from_events (es : List ℕ) : MaxSet :=
  es.foldl (fun s e => (s.add_event e).1) new

end MaxSet

/-! ## BelowExSet (`src/below_exset.rs`) -/

/-- `BelowExSet { max: u64, exs: HashSet<u64> }`: the set
`{1, …, max} \ exs`. -/
structure BelowExSet where
  max : ℕ
  exs : Finset ℕ

/- The derived `DecidableEq` gets stuck in kernel reduction on `Eq.rec`
(its `isTrue` proofs for `Finset` fields are not `rfl`), so we give a
directly reducing instance. -/
instance : DecidableEq BelowExSet := fun a b =>
  decidable_of_iff (a.max = b.max ∧ a.exs = b.exs)
    (by cases a; cases b; simp)

namespace BelowExSet

/-- `BelowExSet::new` -/
def new : BelowExSet := ⟨0, ∅⟩

/-- `BelowExSet::next_event` -/
def next_event (s : BelowExSet) : BelowExSet × ℕ :=
  (⟨s.max + 1, s.exs⟩, s.max + 1)

/-- `BelowExSet::add_event`: mirrors the `match event.cmp(&self.max)`. -/
def add_event (s : BelowExSet) (event : ℕ) : BelowExSet × Bool :=
  if event < s.max then
    -- Ordering::Less: remove from exceptions, result is the remove result
    (⟨s.max, s.exs.erase event⟩, decide (event ∈ s.exs))
  else if s.max < event then
    -- Ordering::Greater: events max+1 .. event-1 become exceptions
    (⟨event, s.exs ∪ Finset.Ico (s.max + 1) event⟩, true)
  else
    -- Ordering::Equal
    (s, false)

/-- `BelowExSet::is_event` -/
def is_event (s : BelowExSet) (event : ℕ) : Bool :=
  event ≤ s.max && decide (event ∉ s.exs)

/-- `BelowExSet::events` (the exception list is returned in no specific
order by the source; we return it sorted). -/
def events (s : BelowExSet) : ℕ × List ℕ :=
  (s.max, sortAsc s.exs)

/-- `BelowExSet::frontier`: smallest exception minus one, else `max`. -/
def frontier (s : BelowExSet) : ℕ :=
  match s.exs.min with
  | none => s.max
  | some m => m - 1

/-- `BelowExSet::join`: keep local exceptions that are not remote events,
add remote exceptions that are not local events, take the max of maxes. -/
def join (s other : BelowExSet) : BelowExSet :=
  ⟨Max.max s.max other.max,
    s.exs.filter (fun ex => ¬ other.is_event ex) ∪
      other.exs.filter (fun ex => ¬ s.is_event ex)⟩

/-- `BelowExSet::event_iter`: `1..=max` skipping exceptions, ascending. -/
def event_iter (s : BelowExSet) : List ℕ :=
  (List.range' 1 s.max).filter (fun e => e ∉ s.exs)

/-- `BelowExSet::from(max, exs)` -/
def from' (max : ℕ) (exs : List ℕ) : BelowExSet :=
  ⟨max, exs.toFinset⟩

/-- Trait default `EventSet::from_event`. -/
def from_event (event : ℕ) : BelowExSet :=
  (new.add_event event).1

/-- Trait default `EventSet::from_events`. -/
def from_events (es : List ℕ) : BelowExSet :=
  es.foldl (fun s e => (s.add_event e).1) new

/-- Trait default `EventSet::add_event_range` (fold of `add_event`). -/
def add_event_range (s : BelowExSet) (start finish : ℕ) : BelowExSet × Bool :=
  (List.range' start (finish + 1 - start)).foldl
    (fun (p : BelowExSet × Bool) e =>
      let q := p.1.add_event e
      (q.1, p.2 || q.2))
    (s, false)

/-- Well-formedness enjoyed by every `BelowExSet` built through the
public `Clock`/`EventSet` operations: exceptions are strictly positive
and do not exceed `max`. -/
def WFle (s : BelowExSet) : Prop :=
  ∀ x ∈ s.exs, 1 ≤ x ∧ x ≤ s.max

/-- Strict well-formedness (exceptions strictly below `max`); also
holds for every reachable `BelowExSet`. -/
def WF (s : BelowExSet) : Prop :=
  ∀ x ∈ s.exs, 1 ≤ x ∧ x < s.max

instance : DecidablePred WFle := fun s =>
  inferInstanceAs (Decidable (∀ x ∈ s.exs, 1 ≤ x ∧ x ≤ s.max))

instance : DecidablePred WF := fun s =>
  inferInstanceAs (Decidable (∀ x ∈ s.exs, 1 ≤ x ∧ x < s.max))

end BelowExSet

/-! ## AboveExSet (`src/set/above_ex.rs`) -/

/-- `AboveExSet { max: u64, exs: BTreeSet<u64> }`: the set
`{1, …, max} ∪ exs`. -/
structure AboveExSet where
  max : ℕ
  exs : Finset ℕ

instance : DecidableEq AboveExSet := fun a b =>
  decidable_of_iff (a.max = b.max ∧ a.exs = b.exs)
    (by cases a; cases b; simp)

namespace AboveExSet

/-- `AboveExSet::try_compress`, acting on the ascending list of extras:
skip a prefix while the extra equals the running `max + 1`, absorbing it
into `max`. -/
def compress : ℕ → List ℕ → ℕ × List ℕ
  | max, [] => (max, [])
  | max, x :: rest =>
    if x = max + 1 then compress x rest else (max, x :: rest)

/-- `AboveExSet::try_compress` on the structure (`exs` is a `BTreeSet`,
iterated in ascending order). -/
def try_compress (s : AboveExSet) : AboveExSet :=
  let r := compress s.max (sortAsc s.exs)
  ⟨r.1, r.2.toFinset⟩

/-- `AboveExSet::new` -/
def new : AboveExSet := ⟨0, ∅⟩

/-- `AboveExSet::next_event` -/
def next_event (s : AboveExSet) : AboveExSet × ℕ :=
  (⟨s.max + 1, s.exs⟩, s.max + 1)

/-- `AboveExSet::add_event` -/
def add_event (s : AboveExSet) (event : ℕ) : AboveExSet × Bool :=
  if event = s.max + 1 then
    (try_compress ⟨event, s.exs⟩, true)
  else if s.max + 1 < event then
    (⟨s.max, insert event s.exs⟩, decide (event ∉ s.exs))
  else
    (s, false)

/-- `AboveExSet::add_event_range` -/
def add_event_range (s : AboveExSet) (start finish : ℕ) : AboveExSet × Bool :=
  if start ≤ s.max + 1 ∧ s.max < finish then
    (try_compress ⟨finish, s.exs⟩, true)
  else if s.max + 1 < start then
    (⟨s.max, s.exs ∪ Finset.Icc start finish⟩, true)
  else
    (s, false)

/-- `AboveExSet::is_event` -/
def is_event (s : AboveExSet) (event : ℕ) : Bool :=
  event ≤ s.max || decide (event ∈ s.exs)

/-- `AboveExSet::events` -/
def events (s : AboveExSet) : ℕ × List ℕ :=
  (s.max, sortAsc s.exs)

/-- `AboveExSet::frontier` -/
def frontier (s : AboveExSet) : ℕ :=
  s.max

/-- `AboveExSet::join` -/
def join (s other : AboveExSet) : AboveExSet :=
  try_compress ⟨Max.max s.max other.max, s.exs ∪ other.exs⟩

/-- `AboveExSet::event_iter`: `1..=max`, then the extras ascending. -/
def event_iter (s : AboveExSet) : List ℕ :=
  List.range' 1 s.max ++ sortAsc s.exs

/-- `AboveExSet::from(max, extras)` -/
def from' (max : ℕ) (exs : List ℕ) : AboveExSet :=
  ⟨max, exs.toFinset⟩

/-- Trait default `EventSet::from_event`. -/
def from_event (event : ℕ) : AboveExSet :=
  (new.add_event event).1

/-- Trait default `EventSet::from_events`. -/
def from_events (es : List ℕ) : AboveExSet :=
  es.foldl (fun s e => (s.add_event e).1) new

/-- The compression invariant claimed by the spec: no extra is `≤ max + 1`. -/
def Compressed (s : AboveExSet) : Prop :=
  ∀ x ∈ s.exs, s.max + 2 ≤ x

instance : DecidablePred Compressed := fun s =>
  inferInstanceAs (Decidable (∀ x ∈ s.exs, s.max + 2 ≤ x))

end AboveExSet

/-! ## AboveRangeSet (`src/set/above_range.rs`)

The `Ranges` component is a `HashMap<u64, u64>` mapping the start of a
range to its end.  `Eq` on the Rust map is map equality, so we model it
canonically as a key-sorted association list. -/

namespace Ranges

/-- `HashMap::insert` on the canonical key-sorted association list
(`Ranges::add`). -/
def add : List (ℕ × ℕ) → ℕ → ℕ → List (ℕ × ℕ)
  | [], start, finish => [(start, finish)]
  | p :: rest, start, finish =>
    if start < p.1 then (start, finish) :: p :: rest
    else if start = p.1 then (start, finish) :: rest
    else p :: add rest start finish

/-- `HashMap::remove` (`Ranges::try_drop`): the removed value and the
remaining map. -/
def remove : List (ℕ × ℕ) → ℕ → Option ℕ × List (ℕ × ℕ)
  | [], _ => (none, [])
  | p :: rest, key =>
    if p.1 = key then (some p.2, rest)
    else
      let r := remove rest key
      (r.1, p :: r.2)

/-- `Ranges::contains`: some range covers the event. -/
def contains (rs : List (ℕ × ℕ)) (event : ℕ) : Bool :=
  rs.any (fun p => p.1 ≤ event && event ≤ p.2)

/-- `Ranges::event_iter` (`RangesIter`): for each range in key order,
all events from its start to its end. -/
def eventsOf (rs : List (ℕ × ℕ)) : List ℕ :=
  rs.flatMap (fun p => List.range' p.1 (p.2 + 1 - p.1))

/-- `Ranges::join`: re-insert as singleton ranges all events of `self`
above `max`, then all events of `other` above `max` not already present. -/
def joinR (self other : List (ℕ × ℕ)) (max : ℕ) : List (ℕ × ℕ) :=
  let step1 := (eventsOf self).foldl
    (fun acc e => if max < e then add acc e e else acc) []
  (eventsOf other).foldl
    (fun acc e => if max < e && !contains acc e then add acc e e else acc)
    step1

/-- `Ranges::from`: fold of singleton `add`s. -/
def fromEvents (es : List ℕ) : List (ℕ × ℕ) :=
  es.foldl (fun acc e => add acc e e) []

theorem remove_some_length {rs : List (ℕ × ℕ)} {key : ℕ} {e : ℕ}
    {rs' : List (ℕ × ℕ)} (h : remove rs key = (some e, rs')) :
    rs'.length < rs.length := by
  induction rs generalizing rs' with
  | nil => simp [remove] at h
  | cons p rest ih =>
    by_cases hk : p.1 = key
    · simp [remove, hk] at h
      simp [← h.2]
    · simp only [remove, hk, if_false] at h
      obtain ⟨h1, h2⟩ := Prod.mk.injEq .. ▸ h
      rcases hr : (remove rest key) with ⟨o, tail⟩
      rw [hr] at h1 h2
      cases o with
      | none => simp at h1
      | some v =>
        simp at h1
        subst h1
        have := ih (show remove rest key = (some v, tail) by rw [hr])
        simp [← h2]
        omega

end Ranges

/-- `AboveRangeSet { max: u64, ranges: Ranges }`. -/
structure AboveRangeSet where
  max : ℕ
  ranges : List (ℕ × ℕ)
deriving DecidableEq

namespace AboveRangeSet

/-- `AboveRangeSet::try_compress`: repeatedly drop the range starting at
`max + 1`, taking its end as the new `max`. -/
def compressGo : ℕ → ℕ → List (ℕ × ℕ) → ℕ × List (ℕ × ℕ)
  | 0, max, rs => (max, rs)
  | fuel + 1, max, rs =>
    match Ranges.remove rs (max + 1) with
    | (none, _) => (max, rs)
    | (some e, rs') => compressGo fuel e rs'

/-- `AboveRangeSet::try_compress` loop.  `rs.length + 1` rounds always
suffice, since every successful `try_drop` removes one entry
(`Ranges.remove_some_length`); `compressGo_fuel` below shows the result
is independent of the fuel from that point on. -/
def compressAR (max : ℕ) (rs : List (ℕ × ℕ)) : ℕ × List (ℕ × ℕ) :=
  compressGo (rs.length + 1) max rs

/-- `AboveRangeSet::try_compress` on the structure. -/
def try_compress (s : AboveRangeSet) : AboveRangeSet :=
  let r := compressAR s.max s.ranges
  ⟨r.1, r.2⟩

/-- `AboveRangeSet::new` -/
def new : AboveRangeSet := ⟨0, []⟩

/-- `AboveRangeSet::next_event` -/
def next_event (s : AboveRangeSet) : AboveRangeSet × ℕ :=
  (⟨s.max + 1, s.ranges⟩, s.max + 1)

/-- `AboveRangeSet::add_event`: mirrors `event.cmp(&next_max)`. -/
def add_event (s : AboveRangeSet) (event : ℕ) : AboveRangeSet × Bool :=
  if event = s.max + 1 then
    (try_compress ⟨event, s.ranges⟩, true)
  else if s.max + 1 < event then
    (⟨s.max, Ranges.add s.ranges event event⟩, true)
  else
    (s, false)

/-- `AboveRangeSet::add_event_range` -/
def add_event_range (s : AboveRangeSet) (start finish : ℕ) :
    AboveRangeSet × Bool :=
  if start ≤ s.max + 1 ∧ s.max < finish then
    (try_compress ⟨finish, s.ranges⟩, true)
  else if s.max + 1 < start then
    (⟨s.max, Ranges.add s.ranges start finish⟩, true)
  else
    (s, false)

/-- `AboveRangeSet::is_event` -/
def is_event (s : AboveRangeSet) (event : ℕ) : Bool :=
  event ≤ s.max || Ranges.contains s.ranges event

/-- `AboveRangeSet::events` -/
def events (s : AboveRangeSet) : ℕ × List ℕ :=
  (s.max, Ranges.eventsOf s.ranges)

/-- `AboveRangeSet::frontier` -/
def frontier (s : AboveRangeSet) : ℕ :=
  s.max

/-- `AboveRangeSet::join` -/
def join (s other : AboveRangeSet) : AboveRangeSet :=
  let m := Max.max s.max other.max
  try_compress ⟨m, Ranges.joinR s.ranges other.ranges m⟩

/-- `AboveRangeSet::event_iter` -/
def event_iter (s : AboveRangeSet) : List ℕ :=
  List.range' 1 s.max ++ Ranges.eventsOf s.ranges

/-- `AboveRangeSet::from(max, extras)` -/
def from' (max : ℕ) (exs : List ℕ) : AboveRangeSet :=
  ⟨max, Ranges.fromEvents exs⟩

/-- Trait default `EventSet::from_event`. -/
def from_event (event : ℕ) : AboveRangeSet :=
  (new.add_event event).1

/-- Trait default `EventSet::from_event_range`. -/
def from_event_range (start finish : ℕ) : AboveRangeSet :=
  (new.add_event_range start finish).1

/-- Trait default `EventSet::from_events`. -/
def from_events (es : List ℕ) : AboveRangeSet :=
  es.foldl (fun s e => (s.add_event e).1) new

/-- The compression invariant claimed by the spec: no event covered by a
stored range is `≤ max + 1`. -/
def Compressed (s : AboveRangeSet) : Prop :=
  ∀ p ∈ s.ranges, ∀ e, p.1 ≤ e → e ≤ p.2 → s.max + 2 ≤ e

instance : DecidablePred Compressed := fun s =>
  inferInstanceAs
    (Decidable (∀ p ∈ s.ranges, ∀ e, p.1 ≤ e → e ≤ p.2 → s.max + 2 ≤ e))

end AboveRangeSet

/-- Trait default `EventSet::from_event_range` for the other variants. -/
def MaxSet.from_event_range (start finish : ℕ) : MaxSet :=
  (MaxSet.new.add_event_range start finish).1

/-- Trait default `EventSet::from_event_range` for `BelowExSet`. -/
def BelowExSet.from_event_range (start finish : ℕ) : BelowExSet :=
  (BelowExSet.new.add_event_range start finish).1

/-- Trait default `EventSet::from_event_range` for `AboveExSet`. -/
def AboveExSet.from_event_range (start finish : ℕ) : AboveExSet :=
  (AboveExSet.new.add_event_range start finish).1

-- sanity checks against the doctests in `src/below_exset.rs`
example : (BelowExSet.from_events [1, 3, 4]).max = 4 := by decide
example : (BelowExSet.from_events [1, 3, 4]).exs = {2} := by decide
example :
    (BelowExSet.from_events [1, 3, 4]).join (BelowExSet.from_event 5) =
      BelowExSet.from' 5 [2] := by decide
example :
    ((BelowExSet.from_events [1, 3, 4]).join (BelowExSet.from_event 5)).join
        (BelowExSet.from_events [2, 7]) =
      BelowExSet.from' 7 [6] := by decide
example : (BelowExSet.from_events [3, 5]).event_iter = [3, 5] := by decide
example : (BelowExSet.from_events [1, 3]).frontier = 1 := by decide
example : (BelowExSet.from_events [1, 2, 3, 4, 6]).frontier = 4 := by decide

-- sanity checks against the doctests in `src/set/above_ex.rs`
example : (AboveExSet.from_events [1, 3]).events = (1, [3]) := by decide
example : (AboveExSet.from_events [1, 3, 2]).events = (3, []) := by decide
example : (AboveExSet.from_events [1, 3, 2, 4, 6]).events = (4, [6]) := by
  decide
example :
    ((AboveExSet.from_events [1, 3, 4]).join (AboveExSet.from_event 5)).events
      = (1, [3, 4, 5]) := by decide
example :
    (((AboveExSet.from_events [1, 3, 4]).join
          (AboveExSet.from_event 5)).join
        (AboveExSet.from_events [2, 7])).events = (5, [7]) := by decide
example : (AboveExSet.from' 0 [2, 4, 5]).is_event 2 = true := by decide
example : (AboveExSet.from' 0 [2, 4, 5]).is_event 3 = false := by decide

-- sanity checks against the doctests in `src/set/above_range.rs`
example : (AboveRangeSet.from_events [1, 3]).events = (1, [3]) := by decide
example : (AboveRangeSet.from_events [1, 3, 2, 4, 6]).events = (4, [6]) := by
  decide
example :
    (((AboveRangeSet.from_events [1, 3, 4]).join
          (AboveRangeSet.from_event 5)).join
        (AboveRangeSet.from_events [2, 7])).events = (5, [7]) := by decide
example : (AboveRangeSet.from_events [3, 5]).event_iter = [3, 5] := by decide

/-! ## The `EventSet` trait (`src/traits.rs`) -/

/-- The `EventSet` trait.  State-mutating Rust methods become functions
returning the new state (paired with the method's return value). -/
class EventSet (E : Type) where
  new : E
  from_event : ℕ → E
  from_event_range : ℕ → ℕ → E
  from_events : List ℕ → E
  next_event : E → E × ℕ
  add_event : E → ℕ → E × Bool
  add_event_range : E → ℕ → ℕ → E × Bool
  is_event : E → ℕ → Bool
  events : E → ℕ × List ℕ
  frontier : E → ℕ
  join : E → E → E
  event_iter : E → List ℕ

instance : EventSet MaxSet where
  new := MaxSet.new
  from_event := MaxSet.from_event
  from_event_range := MaxSet.from_event_range
  from_events := MaxSet.from_events
  next_event := MaxSet.next_event
  add_event := MaxSet.add_event
  add_event_range := MaxSet.add_event_range
  is_event := MaxSet.is_event
  events := MaxSet.events
  frontier := MaxSet.frontier
  join := MaxSet.join
  event_iter := MaxSet.event_iter

instance : EventSet BelowExSet where
  new := BelowExSet.new
  from_event := BelowExSet.from_event
  from_event_range := BelowExSet.from_event_range
  from_events := BelowExSet.from_events
  next_event := BelowExSet.next_event
  add_event := BelowExSet.add_event
  add_event_range := BelowExSet.add_event_range
  is_event := BelowExSet.is_event
  events := BelowExSet.events
  frontier := BelowExSet.frontier
  join := BelowExSet.join
  event_iter := BelowExSet.event_iter

instance : EventSet AboveExSet where
  new := AboveExSet.new
  from_event := AboveExSet.from_event
  from_event_range := AboveExSet.from_event_range
  from_events := AboveExSet.from_events
  next_event := AboveExSet.next_event
  add_event := AboveExSet.add_event
  add_event_range := AboveExSet.add_event_range
  is_event := AboveExSet.is_event
  events := AboveExSet.events
  frontier := AboveExSet.frontier
  join := AboveExSet.join
  event_iter := AboveExSet.event_iter

instance : EventSet AboveRangeSet where
  new := AboveRangeSet.new
  from_event := AboveRangeSet.from_event
  from_event_range := AboveRangeSet.from_event_range
  from_events := AboveRangeSet.from_events
  next_event := AboveRangeSet.next_event
  add_event := AboveRangeSet.add_event
  add_event_range := AboveRangeSet.add_event_range
  is_event := AboveRangeSet.is_event
  events := AboveRangeSet.events
  frontier := AboveRangeSet.frontier
  join := AboveRangeSet.join
  event_iter := AboveRangeSet.event_iter

/-! ## Canonical association lists

`HashMap<A, V>` / `BTreeMap<u64, V>` are modelled as key-sorted
association lists over `ℕ` keys — the canonical representative of the
map (Rust's `Eq` on the maps is map equality).  `aupsert` is the shared
upsert pattern of `src/clock.rs` / `src/multiset.rs`. -/

/-- Map lookup on an association list. -/
def alookup {V : Type} (k : ℕ) : List (ℕ × V) → Option V
  | [] => none
  | p :: rest => if k = p.1 then some p.2 else alookup k rest

/-- Upsert: if `k` is present apply `f` to its value, otherwise insert
`d`; keeps the list key-sorted. -/
def aupsert {V : Type} (k : ℕ) (f : V → V) (d : V) :
    List (ℕ × V) → List (ℕ × V)
  | [] => [(k, d)]
  | p :: rest =>
    if k < p.1 then (k, d) :: p :: rest
    else if k = p.1 then (k, f p.2) :: rest
    else p :: aupsert k f d rest

/-- Canonical form: keys strictly ascending. -/
def AKeysSorted {V : Type} (l : List (ℕ × V)) : Prop :=
  l.Pairwise (fun p q => p.1 < q.1)

/-! ## Clock (`src/clock.rs`) -/

/-- `Clock<A, E>`: a mapping from actor to event set, with actors
modelled as `ℕ`. -/
abbrev Clock (E : Type) := List (ℕ × E)

namespace Clock

variable {E : Type} [EventSet E]

/-- `Clock::new` -/
def new : Clock E := []

/-- `Clock::from(iter)`: build the `HashMap` from an iterator of pairs
(later pairs overwrite earlier ones with the same actor). -/
def from' (l : List (ℕ × E)) : Clock E :=
  l.foldl (fun acc p => aupsert p.1 (fun _ => p.2) p.2 acc) []

/-- `Clock::len` -/
def len (c : Clock E) : ℕ := c.length

/-- `Clock::next`: upsert with `next_event`, inserting `from_event(1)`
for an absent actor. -/
def next (c : Clock E) (a : ℕ) : Clock E × ℕ :=
  match alookup a c with
  | some es =>
    let r := EventSet.next_event es
    (aupsert a (fun _ => r.1) r.1 c, r.2)
  | none => (aupsert a id (EventSet.from_event 1) c, 1)

/-- `Clock::get` -/
def get (c : Clock E) (a : ℕ) : Option E :=
  alookup a c

/-- `Clock::add`: upsert with `add_event`, inserting `from_event(seq)`
(returning `true`) for an absent actor. -/
def add (c : Clock E) (a seq : ℕ) : Clock E × Bool :=
  match alookup a c with
  | some es =>
    let r := EventSet.add_event es seq
    (aupsert a (fun _ => r.1) r.1 c, r.2)
  | none => (aupsert a id (EventSet.from_event seq) c, true)

/-- `Clock::add_range` -/
def add_range (c : Clock E) (a start finish : ℕ) : Clock E × Bool :=
  match alookup a c with
  | some es =>
    let r := EventSet.add_event_range es start finish
    (aupsert a (fun _ => r.1) r.1 c, r.2)
  | none => (aupsert a id (EventSet.from_event_range start finish) c, true)

/-- `Clock::contains` -/
def contains (c : Clock E) (a seq : ℕ) : Bool :=
  match alookup a c with
  | none => false
  | some es => EventSet.is_event es seq

/-- `Clock::frontier`: map each actor to `MaxSet::from(frontier)`. -/
def frontier (c : Clock E) : Clock MaxSet :=
  c.map (fun p => (p.1, MaxSet.mk (EventSet.frontier p.2)))

/-- `Clock::frontier_threshold`: sort the per-actor frontiers ascending
and return the element at position `|actors| - threshold`. -/
def frontier_threshold (c : Clock E) (threshold : ℕ) : Option ℕ :=
  if threshold ≤ c.length then
    (isort (c.map (fun p => EventSet.frontier p.2)))[c.length - threshold]?
  else
    none

/-- `Clock::join`: upsert-join every entry of `other` into `self`. -/
def join (c other : Clock E) : Clock E :=
  other.foldl
    (fun acc p => aupsert p.1 (fun cur => EventSet.join cur p.2) p.2 acc) c

end Clock

/-- `clock::vclock_from_seqs`: actor `i` maps to `MaxSet::from_event`
of the `i`-th sequence. -/
def vclock_from_seqs (seqs : List ℕ) : Clock MaxSet :=
  Clock.from' (seqs.enum.map (fun p => (p.1, MaxSet.from_event p.2)))

/-! ## MultiSet (`src/multiset.rs`), specialised to
`MultiSet<u64, (u64, u64)>` as used by `TClock`. -/

/-- `MultiSet<u64, (u64,u64)>`: a `BTreeMap` from event to accumulated
(positive, negative) votes, modelled canonically (ascending keys). -/
abbrev MSet := List (ℕ × (ℕ × ℕ))

/-- `MultiSet::add_elem`: add the delta to the current count (or to
`zero()` if absent). -/
def msetAddElem (m : MSet) (k : ℕ) (c : ℕ × ℕ) : MSet :=
  aupsert k (fun old => (old.1 + c.1, old.2 + c.2)) (0 + c.1, 0 + c.2) m

/-- `MultiSet::add`: fold of `add_elem`. -/
def msetAdd (m : MSet) (l : List (ℕ × (ℕ × ℕ))) : MSet :=
  l.foldl (fun m p => msetAddElem m p.1 p.2) m

/-! ## TClock (`src/tclock.rs`) -/

/-- `TClock<A, E>`: a `MultiSet` per actor. -/
abbrev TClock := List (ℕ × MSet)

/-- `event_count` (`src/tclock.rs`): one positive vote at
`events().0`, one negative vote at each element of `events().1`. -/
def event_count {E : Type} [EventSet E] (es : E) : List (ℕ × (ℕ × ℕ)) :=
  let p := EventSet.events es
  (p.1, (1, 0)) :: p.2.map (fun x => (x, (0, 1)))

namespace TClock

variable {E : Type} [EventSet E]

/-- `TClock::new` -/
def new : TClock := []

/-- `TClock::add_entry` -/
def add_entry (t : TClock) (a : ℕ) (es : E) : TClock :=
  aupsert a (fun m => msetAdd m (event_count es))
    (msetAdd [] (event_count es)) t

/-- `TClock::add`: ingest every entry of the clock. -/
def add (t : TClock) (c : Clock E) : TClock :=
  c.foldl (fun t p => add_entry t p.1 p.2) t

/-- A `TClock` built by `add`ing a list of clocks to `TClock::new()`. -/
def ofList (cs : List (Clock E)) : TClock :=
  cs.foldl add new

/-- The descending `find` of `TClock::<A, MaxSet>::threshold_union`:
accumulate positive votes from the highest key down, returning the
first key at which the total reaches the threshold (`0` if none). -/
def findSeq (threshold : ℕ) : ℕ → List (ℕ × (ℕ × ℕ)) → ℕ
  | _, [] => 0
  | total, (k, c) :: rest =>
    if threshold ≤ total + c.1 then k else findSeq threshold (total + c.1) rest

/-- `TClock::<A, MaxSet>::threshold_union`. -/
def threshold_union_max (t : TClock) (threshold : ℕ) : Clock MaxSet × Bool :=
  let entries := t.map (fun p =>
    let seq := findSeq threshold 0 p.2.reverse
    let highest := match p.2.reverse with | [] => 0 | (k, _) :: _ => k
    (p.1, seq, highest))
  (Clock.from' (entries.map (fun q => (q.1, MaxSet.from_event q.2.1))),
    entries.all (fun q => q.2.2 == q.2.1))

/-- The `skip_while` of `TClock::<A, BelowExSet>::threshold_union`:
accumulate positive votes (descending keys) while the total is below
the threshold; the returned total includes the head of the returned
remainder. -/
def skipAccum (threshold : ℕ) : ℕ → List (ℕ × (ℕ × ℕ)) →
    ℕ × List (ℕ × (ℕ × ℕ))
  | total, [] => (total, [])
  | total, (k, c) :: rest =>
    if total + c.1 < threshold then skipAccum threshold (total + c.1) rest
    else (total + c.1, (k, c) :: rest)

/-- The candidate-walk loop of `TClock::<A, BelowExSet>::threshold_union`
(the `unwrap_or_else` closure).  `cand - 1` is `u64` subtraction in the
source; it is exercised only with `cand ≥ 1` on well-formed inputs.
Returns the accumulated positives, the highest sequence found, and the
unconsumed remainder of the iterator. -/
def walk (threshold : ℕ) : ℕ → ℕ → List (ℕ × (ℕ × ℕ)) →
    ℕ × ℕ × List (ℕ × (ℕ × ℕ))
  | total, cand, [] => (total, cand, [])
  | total, cand, (k, c) :: rest =>
    if k = cand then
      if threshold ≤ u64sub (total + c.1) c.2 then (total + c.1, cand, rest)
      else walk threshold (total + c.1) (cand - 1) rest
    else (total, cand, (k, c) :: rest)

/-- The exception-collecting `filter_map` of
`TClock::<A, BelowExSet>::threshold_union`: a remaining key is an
exception when `neg > total_pos || total_pos - neg < threshold`. -/
def exsPhase (threshold : ℕ) : ℕ → List (ℕ × (ℕ × ℕ)) → List ℕ
  | _, [] => []
  | total, (k, c) :: rest =>
    if total + c.1 < c.2 || u64sub (total + c.1) c.2 < threshold then
      k :: exsPhase threshold (total + c.1) rest
    else
      exsPhase threshold (total + c.1) rest

/-- The per-actor body of `TClock::<A, BelowExSet>::threshold_union`,
acting on the descending list of `(key, (pos, neg))` entries. -/
def beActor (threshold : ℕ) (desc : List (ℕ × (ℕ × ℕ))) : BelowExSet :=
  let s := skipAccum threshold 0 desc
  match s.2 with
  | [] => BelowExSet.from' 0 (exsPhase threshold s.1 [])
  | (k, c) :: rest =>
    if threshold ≤ u64sub s.1 c.2 then
      BelowExSet.from' k (exsPhase threshold s.1 rest)
    else
      let w := walk threshold s.1 (k - 1) rest
      BelowExSet.from' w.2.1 (exsPhase threshold w.1 w.2.2)

/-- `TClock::<A, BelowExSet>::threshold_union`. -/
def threshold_union_be (t : TClock) (threshold : ℕ) : Clock BelowExSet :=
  Clock.from' (t.map (fun p => (p.1, beActor threshold p.2.reverse)))

end TClock

-- sanity checks against the doctests in `src/tclock.rs`
example :
    (TClock.ofList
        [vclock_from_seqs [10, 5, 5],
         vclock_from_seqs [8, 10, 6]]).threshold_union_max 1 =
      (vclock_from_seqs [10, 10, 6], true) := by decide
example :
    (TClock.ofList
        [vclock_from_seqs [10, 5, 5],
         vclock_from_seqs [8, 10, 6]]).threshold_union_max 2 =
      (vclock_from_seqs [8, 5, 5], false) := by decide
example :
    (TClock.ofList
        [vclock_from_seqs [10, 5, 5],
         vclock_from_seqs [8, 10, 6],
         vclock_from_seqs [9, 8, 7]]).threshold_union_max 2 =
      (vclock_from_seqs [9, 8, 6], false) := by decide
example :
    (TClock.ofList
        [vclock_from_seqs [10, 5, 5],
         vclock_from_seqs [8, 10, 6],
         vclock_from_seqs [9, 8, 7]]).threshold_union_max 3 =
      (vclock_from_seqs [8, 5, 5], false) := by decide

-- the `regression_test_beclock` scenario (actor `"B"` modelled as `0`)
example :
    (TClock.ofList
        [(((Clock.new : Clock BelowExSet).add 0 5).1.add 0 6).1,
         (((Clock.new : Clock BelowExSet).add 0 5).1.add 0 7).1]
      ).threshold_union_be 2 =
      ((Clock.new : Clock BelowExSet).add 0 5).1 := by decide

-- `frontier_threshold` doctests (`src/clock.rs`)
example :
    (Clock.from' [(0, AboveExSet.from_events [1, 2, 4]),
        (1, AboveExSet.from_events [1, 2, 3, 5])]).frontier_threshold 1 =
      some 3 := by decide
example :
    (Clock.from' [(0, AboveExSet.from_events [1, 2, 4]),
        (1, AboveExSet.from_events [1, 2, 3, 5])]).frontier_threshold 2 =
      some 2 := by decide
example :
    (Clock.from' [(0, AboveExSet.from_events [1, 2, 4]),
        (1, AboveExSet.from_events [1, 2, 3, 5])]).frontier_threshold 3 =
      none := by decide
example :
    (vclock_from_seqs [4, 4, 5, 3, 2]).frontier_threshold 3 = some 4 := by
  decide
example :
    (vclock_from_seqs [4, 4, 5, 3, 2]).frontier_threshold 5 = some 2 := by
  decide

/-! ## Characterisation lemmas: `BelowExSet` -/

namespace BelowExSet

theorem new_wf : WF new := by intro x hx; simp [new] at hx

theorem wf_wfle {s : BelowExSet} (h : WF s) : WFle s := fun x hx =>
  ⟨(h x hx).1, le_of_lt (h x hx).2⟩

/-- The three branches of `add_event`, as equations. -/
theorem add_event_lt {s : BelowExSet} {e : ℕ} (h : e < s.max) :
    s.add_event e = (⟨s.max, s.exs.erase e⟩, decide (e ∈ s.exs)) := by
  unfold add_event; rw [if_pos h]

theorem add_event_gt_be {s : BelowExSet} {e : ℕ} (h : s.max < e) :
    s.add_event e = (⟨e, s.exs ∪ Finset.Ico (s.max + 1) e⟩, true) := by
  unfold add_event; rw [if_neg (by omega), if_pos h]

theorem add_event_eql {s : BelowExSet} {e : ℕ} (h : e = s.max) :
    s.add_event e = (s, false) := by
  unfold add_event; rw [if_neg (by omega), if_neg (by omega)]

theorem is_event_true_iff_be {s : BelowExSet} {x : ℕ} :
    s.is_event x = true ↔ x ≤ s.max ∧ x ∉ s.exs := by
  simp [is_event]

/-- `add_event` preserves strict well-formedness. -/
theorem add_event_wf {s : BelowExSet} (h : WF s) (e : ℕ) :
    WF (s.add_event e).1 := by
  rcases lt_trichotomy e s.max with hc | hc | hc
  · rw [add_event_lt hc]
    intro x hx
    exact h x (Finset.mem_of_mem_erase hx)
  · rw [add_event_eql hc]
    exact h
  · rw [add_event_gt_be hc]
    intro x hx
    rcases Finset.mem_union.1 hx with hx | hx
    · exact ⟨(h x hx).1, show x < e from lt_trans (h x hx).2 hc⟩
    · have h2 := Finset.mem_Ico.1 hx
      exact ⟨by omega, show x < e by omega⟩

/-- `add_event` semantics on well-formed sets: afterwards an event is in
the set iff it was before or it is the added event (note `is_event 0` is
`true` on well-formed sets). -/
theorem add_event_sem_be {s : BelowExSet} (h : WF s) (e x : ℕ) :
    (s.add_event e).1.is_event x = (s.is_event x || x == e) := by
  rw [Bool.eq_iff_iff]
  simp only [Bool.or_eq_true, beq_iff_eq, is_event_true_iff_be]
  rcases lt_trichotomy e s.max with hc | hc | hc
  · rw [add_event_lt hc]
    simp only [Finset.mem_erase]
    by_cases hxe : x = e
    · subst hxe
      by_cases hmem : x ∈ s.exs <;> simp [hmem] <;> omega
    · by_cases hmem : x ∈ s.exs <;> simp [hxe, hmem]
  · rw [add_event_eql hc]
    by_cases hxe : x = e
    · subst hxe
      have hne : x ∉ s.exs := fun hcc => absurd (h x hcc).2 (by omega)
      simp [hne]
      omega
    · simp [hxe]
  · rw [add_event_gt_be hc]
    simp only [Finset.mem_union, Finset.mem_Ico]
    by_cases hxe : x = e
    · subst hxe
      have hne : x ∉ s.exs := fun hcc => absurd (h x hcc).2 (by omega)
      simp [hne]
    · by_cases hmem : x ∈ s.exs
      · have hlt := (h x hmem).2
        simp [hxe, hmem]
      · simp [hxe, hmem]
        omega

/-- `from_events` yields a well-formed set whose events are exactly the
strictly positive inputs — plus `0`, which `is_event` always accepts. -/
theorem from_events_sem_be (es : List ℕ) :
    WF (from_events es) ∧
      ∀ x, (from_events es).is_event x = (x == 0 || decide (x ∈ es)) := by
  suffices h : ∀ (s : BelowExSet), WF s →
      WF (es.foldl (fun s e => (s.add_event e).1) s) ∧
      ∀ x, (es.foldl (fun s e => (s.add_event e).1) s).is_event x =
        (s.is_event x || decide (x ∈ es)) by
    obtain ⟨h1, h2⟩ := h new new_wf
    refine ⟨h1, fun x => ?_⟩
    rw [from_events, h2 x]
    have : new.is_event x = (x == 0) := by
      unfold is_event new
      by_cases hx : x = 0 <;> simp [hx]
    rw [this]
  induction es with
  | nil => intro s hs; simp [hs]
  | cons e rest ih =>
    intro s hs
    obtain ⟨ih1, ih2⟩ := ih (s.add_event e).1 (add_event_wf hs e)
    refine ⟨ih1, fun x => ?_⟩
    simp only [List.foldl_cons, ih2 x, add_event_sem_be hs e x,
      List.mem_cons]
    by_cases hxe : x = e
    · subst hxe; simp
    · have hbe : (x == e) = false := by simp [hxe]
      simp [hbe, hxe]

theorem from_events_wf (es : List ℕ) : WF (from_events es) :=
  (from_events_sem_be es).1

theorem is_event_false_iff {s : BelowExSet} {x : ℕ} :
    s.is_event x = false ↔ s.max < x ∨ x ∈ s.exs := by
  by_cases hm : x ∈ s.exs <;> simp [is_event, hm]

/-- `join` computes set union on the represented sets (for all states). -/
theorem join_sem_be (s o : BelowExSet) (x : ℕ) :
    (s.join o).is_event x = (s.is_event x || o.is_event x) := by
  rw [Bool.eq_iff_iff, Bool.or_eq_true]
  by_cases hms : x ∈ s.exs <;> by_cases hmo : x ∈ o.exs <;>
    simp [join, is_event, Finset.mem_union, Finset.mem_filter, hms, hmo] <;>
    omega

/-- The exception set computed by `join` is exactly: exceptions of either
operand that are an event of neither operand. -/
theorem join_exs (s o : BelowExSet) :
    (s.join o).exs =
      (s.exs ∪ o.exs).filter
        (fun x => s.is_event x = false ∧ o.is_event x = false) := by
  ext x
  by_cases hms : x ∈ s.exs <;> by_cases hmo : x ∈ o.exs <;>
    simp [join, is_event, hms, hmo]

/-- `join` preserves strict well-formedness. -/
theorem join_wf {s o : BelowExSet} (hs : WF s) (ho : WF o) :
    WF (s.join o) := by
  intro x hx
  rcases Finset.mem_union.1 hx with hx | hx
  · have := hs x (Finset.mem_filter.1 hx).1
    exact ⟨this.1, lt_of_lt_of_le this.2 (le_max_left _ _)⟩
  · have := ho x (Finset.mem_filter.1 hx).1
    exact ⟨this.1, lt_of_lt_of_le this.2 (le_max_right _ _)⟩

/-- The frontier of a well-formed set: every event in `1..=frontier` is
in the set, and `frontier + 1` is not. -/
theorem frontier_sem {s : BelowExSet} (h : WF s) :
    (∀ i, 1 ≤ i → i ≤ s.frontier → s.is_event i = true) ∧
      s.is_event (s.frontier + 1) = false := by
  rcases hmin : s.exs.min with _ | m
  · have hempty : s.exs = ∅ :=
      Finset.min_eq_top.1 (by rw [hmin]; rfl)
    have hf : s.frontier = s.max := by unfold frontier; rw [hmin]
    rw [hf]
    constructor
    · intro i h1 h2
      rw [is_event_true_iff_be]
      exact ⟨h2, by simp [hempty]⟩
    · rw [is_event_false_iff]
      exact Or.inl (by omega)
  · have hm : m ∈ s.exs := Finset.mem_of_min hmin
    have hm1 := h m hm
    have hf : s.frontier = m - 1 := by unfold frontier; rw [hmin]
    rw [hf]
    constructor
    · intro i h1 h2
      rw [is_event_true_iff_be]
      refine ⟨by omega, fun hc => ?_⟩
      have h3 := Finset.min_le hc
      rw [hmin] at h3
      have h4 : m ≤ i := WithTop.some_le_some.1 h3
      omega
    · rw [is_event_false_iff]
      refine Or.inr ?_
      have h5 : m - 1 + 1 = m := by omega
      rw [h5]
      exact hm

/-- Membership in `event_iter`. -/
theorem event_iter_mem_be {s : BelowExSet} {x : ℕ} :
    x ∈ s.event_iter ↔ 1 ≤ x ∧ x ≤ s.max ∧ x ∉ s.exs := by
  simp only [event_iter, List.mem_filter, List.mem_range'_1, decide_eq_true_eq]
  constructor
  · rintro ⟨⟨h1, h2⟩, h3⟩
    exact ⟨h1, by omega, h3⟩
  · rintro ⟨h1, h2, h3⟩
    exact ⟨⟨h1, by omega⟩, h3⟩

/-- `event_iter` is strictly ascending. -/
theorem event_iter_sorted_be (s : BelowExSet) :
    s.event_iter.Sorted (· < ·) :=
  (List.pairwise_lt_range' 1 s.max).sublist (List.filter_sublist _)

end BelowExSet

/-- Two strictly ascending lists with the same members are equal. -/
theorem eq_of_sorted_lt_ext {l₁ l₂ : List ℕ} (h₁ : l₁.Sorted (· < ·))
    (h₂ : l₂.Sorted (· < ·)) (h : ∀ x, x ∈ l₁ ↔ x ∈ l₂) : l₁ = l₂ := by
  have hp : List.Perm l₁ l₂ :=
    (List.perm_ext_iff_of_nodup h₁.nodup h₂.nodup).2 h
  exact List.eq_of_perm_of_sorted hp h₁ h₂

namespace BelowExSet


theorem is_event_from_events (es : List ℕ) {x : ℕ} (hx : 1 ≤ x) :
    (from_events es).is_event x = decide (x ∈ es) := by
  rw [(from_events_sem_be es).2 x]
  have : (x == 0) = false := by simp; omega
  rw [this, Bool.false_or]

/-- On well-formed sets `is_event 0` is `true` (`0 ≤ max` always holds
and `0` is never an exception). -/
theorem is_event_zero_be {s : BelowExSet} (h : WF s) : s.is_event 0 = true := by
  have : 0 ∉ s.exs := fun hc => absurd (h 0 hc).1 (by omega)
  simp [is_event, this]

end BelowExSet


/-! ## Characterisation lemmas: `AboveExSet` -/

namespace AboveExSet

theorem compress_max_le (m : ℕ) (l : List ℕ) : m ≤ (compress m l).1 := by
  induction l generalizing m with
  | nil => simp [compress]
  | cons x rest ih =>
    by_cases hx : x = m + 1
    · simp only [compress, hx, if_true]
      exact le_trans (by omega) (ih (m + 1))
    · simp [compress, hx]

/-- `compress` preserves the represented set (for any extras list). -/
theorem compress_sem (m : ℕ) (l : List ℕ) (x : ℕ) :
    (x ≤ (compress m l).1 ∨ x ∈ (compress m l).2) ↔ (x ≤ m ∨ x ∈ l) := by
  induction l generalizing m with
  | nil => simp [compress]
  | cons y rest ih =>
    by_cases hy : y = m + 1
    · simp only [compress, hy, if_true]
      rw [ih (m + 1)]
      simp only [List.mem_cons, hy]
      by_cases hxr : x ∈ rest <;> simp [hxr] <;> omega
    · simp [compress, hy]

theorem compress_sublist (m : ℕ) (l : List ℕ) : (compress m l).2.Sublist l := by
  induction l generalizing m with
  | nil => simp [compress]
  | cons y rest ih =>
    by_cases hy : y = m + 1
    · simp only [compress, hy, if_true]
      exact (ih (m + 1)).trans (List.sublist_cons_self _ _)
    · simp [compress, hy]

/-- After `compress`, if the input was strictly ascending with all
elements above `m`, every leftover extra exceeds the new max by at
least 2. -/
theorem compress_inv {m : ℕ} {l : List ℕ} (hs : l.Sorted (· < ·))
    (hall : ∀ x ∈ l, m + 1 ≤ x) :
    ∀ x ∈ (compress m l).2, (compress m l).1 + 2 ≤ x := by
  induction l generalizing m with
  | nil => simp [compress]
  | cons y rest ih =>
    by_cases hy : y = m + 1
    · simp only [compress, hy, if_true]
      refine ih (List.sorted_cons.1 hs).2 ?_
      intro x hx
      have := (List.sorted_cons.1 hs).1 x hx
      omega
    · simp only [compress, hy, if_false]
      intro x hx
      rcases List.mem_cons.1 hx with rfl | hx
      · have := hall x (List.mem_cons_self _ _)
        omega
      · have h1 := (List.sorted_cons.1 hs).1 x hx
        have h2 := hall y (List.mem_cons_self _ _)
        omega

theorem is_event_true_iff_ae {s : AboveExSet} {x : ℕ} :
    s.is_event x = true ↔ x ≤ s.max ∨ x ∈ s.exs := by
  simp [is_event]

theorem try_compress_is_event (s : AboveExSet) (x : ℕ) :
    (try_compress s).is_event x = s.is_event x := by
  rw [Bool.eq_iff_iff]
  simp only [is_event_true_iff_ae, try_compress, List.mem_toFinset]
  rw [compress_sem, mem_sortAsc]

theorem try_compress_max_le (s : AboveExSet) : s.max ≤ (try_compress s).max :=
  compress_max_le s.max (sortAsc s.exs)

theorem try_compress_inv {s : AboveExSet}
    (h : ∀ x ∈ s.exs, s.max + 1 ≤ x) : Compressed (try_compress s) := by
  intro x hx
  have hx2 : x ∈ (compress s.max (sortAsc s.exs)).2 := by
    simpa [try_compress, List.mem_toFinset] using hx
  exact compress_inv (sortAsc_sorted_lt s.exs)
    (fun y hy => h y (mem_sortAsc.1 hy)) x hx2

/-- The three branches of `add_event`, as equations. -/
theorem add_event_succ_ae {s : AboveExSet} {e : ℕ} (h : e = s.max + 1) :
    s.add_event e = (try_compress ⟨e, s.exs⟩, true) := by
  unfold add_event; rw [if_pos h]

theorem add_event_gt_ae {s : AboveExSet} {e : ℕ} (h : s.max + 1 < e) :
    s.add_event e = (⟨s.max, insert e s.exs⟩, decide (e ∉ s.exs)) := by
  unfold add_event; rw [if_neg (by omega), if_pos h]

theorem add_event_le_ae {s : AboveExSet} {e : ℕ} (h : e ≤ s.max) :
    s.add_event e = (s, false) := by
  unfold add_event; rw [if_neg (by omega), if_neg (by omega)]

/-- `add_event` semantics, for every state: afterwards an event is in
the set iff it was before or it is the added event. -/
theorem add_event_sem_ae (s : AboveExSet) (e x : ℕ) :
    (s.add_event e).1.is_event x = (s.is_event x || x == e) := by
  rw [Bool.eq_iff_iff, Bool.or_eq_true, beq_iff_eq]
  rcases Nat.lt_trichotomy e (s.max + 1) with hc | hc | hc
  · rw [add_event_le_ae (by omega)]
    show s.is_event x = true ↔ s.is_event x = true ∨ x = e
    constructor
    · exact fun h => Or.inl h
    · rintro (h | rfl)
      · exact h
      · rw [is_event_true_iff_ae]; exact Or.inl (by omega)
  · rw [add_event_succ_ae hc]
    have ht := Bool.eq_iff_iff.1 (try_compress_is_event ⟨e, s.exs⟩ x)
    show (try_compress ⟨e, s.exs⟩).is_event x = true ↔ _
    rw [ht, is_event_true_iff_ae, is_event_true_iff_ae]
    show x ≤ e ∨ x ∈ s.exs ↔ (x ≤ s.max ∨ x ∈ s.exs) ∨ x = e
    by_cases hxm : x ∈ s.exs <;> simp [hxm] <;> omega
  · rw [add_event_gt_ae hc]
    show (⟨s.max, insert e s.exs⟩ : AboveExSet).is_event x = true ↔ _
    rw [is_event_true_iff_ae, is_event_true_iff_ae]
    show x ≤ s.max ∨ x ∈ insert e s.exs ↔ (x ≤ s.max ∨ x ∈ s.exs) ∨ x = e
    simp only [Finset.mem_insert]
    by_cases hxe : x = e
    · subst hxe; simp
    · by_cases hxm : x ∈ s.exs <;> simp [hxe, hxm]

/-- `join` computes set union on the represented sets (for all states). -/
theorem join_sem_ae (s o : AboveExSet) (x : ℕ) :
    (s.join o).is_event x = (s.is_event x || o.is_event x) := by
  rw [Bool.eq_iff_iff, Bool.or_eq_true]
  unfold join
  have ht := Bool.eq_iff_iff.1
    (try_compress_is_event ⟨Max.max s.max o.max, s.exs ∪ o.exs⟩ x)
  rw [ht, is_event_true_iff_ae, is_event_true_iff_ae, is_event_true_iff_ae]
  show x ≤ Max.max s.max o.max ∨ x ∈ s.exs ∪ o.exs ↔
    (x ≤ s.max ∨ x ∈ s.exs) ∨ (x ≤ o.max ∨ x ∈ o.exs)
  simp only [Finset.mem_union]
  by_cases h1 : x ∈ s.exs <;> by_cases h2 : x ∈ o.exs <;>
    simp [h1, h2] <;> omega

/-- `add_event` preserves the compression invariant. -/
theorem add_event_inv {s : AboveExSet} (h : Compressed s) (e : ℕ) :
    Compressed (s.add_event e).1 := by
  rcases Nat.lt_trichotomy e (s.max + 1) with hc | hc | hc
  · rw [add_event_le_ae (by omega)]
    exact h
  · rw [add_event_succ_ae hc]
    exact try_compress_inv (fun x hx => by
      have h2 := h x hx
      show e + 1 ≤ x
      omega)
  · rw [add_event_gt_ae hc]
    intro x hx
    show s.max + 2 ≤ x
    rcases Finset.mem_insert.1 hx with rfl | hx2
    · omega
    · exact h x hx2

theorem new_inv : Compressed new := by
  intro x hx
  simp [new] at hx

theorem from_events_inv (es : List ℕ) : Compressed (from_events es) := by
  suffices h : ∀ (s : AboveExSet), Compressed s →
      Compressed (es.foldl (fun s e => (s.add_event e).1) s) from
    h new new_inv
  induction es with
  | nil => intro s hs; exact hs
  | cons e rest ih =>
    intro s hs
    exact ih (s.add_event e).1 (add_event_inv hs e)

theorem from_events_sem_ae (es : List ℕ) (x : ℕ) :
    (from_events es).is_event x = (x == 0 || decide (x ∈ es)) := by
  suffices h : ∀ (s : AboveExSet),
      ∀ x, (es.foldl (fun s e => (s.add_event e).1) s).is_event x =
        (s.is_event x || decide (x ∈ es)) by
    rw [from_events, h new x]
    have hn : new.is_event x = (x == 0) := by
      unfold is_event new
      by_cases hx : x = 0 <;> simp [hx]
    rw [hn]
  induction es with
  | nil => intro s x; simp
  | cons e rest ih =>
    intro s x
    simp only [List.foldl_cons, ih (s.add_event e).1 x, add_event_sem_ae s e x,
      List.mem_cons]
    by_cases hxe : x = e
    · subst hxe; simp
    · have hbe : (x == e) = false := by simp [hxe]
      simp [hbe, hxe]

theorem is_event_zero_ae (s : AboveExSet) : s.is_event 0 = true := by
  simp [is_event]

end AboveExSet

/-! ## Association-list lemmas -/

section AssocLemmas

variable {V : Type}

theorem akeys_cons {p : ℕ × V} {l : List (ℕ × V)} :
    AKeysSorted (p :: l) ↔ (∀ q ∈ l, p.1 < q.1) ∧ AKeysSorted l :=
  List.pairwise_cons

theorem aupsert_head_lt {k : ℕ} {f : V → V} {d : V} {p : ℕ × V}
    {rest : List (ℕ × V)} (h : k < p.1) :
    aupsert k f d (p :: rest) = (k, d) :: p :: rest := by
  unfold aupsert; rw [if_pos h]

theorem aupsert_head_eq {k : ℕ} {f : V → V} {d : V} {p : ℕ × V}
    {rest : List (ℕ × V)} (h : k = p.1) :
    aupsert k f d (p :: rest) = (k, f p.2) :: rest := by
  unfold aupsert; rw [if_neg (by omega), if_pos h]

theorem aupsert_head_gt {k : ℕ} {f : V → V} {d : V} {p : ℕ × V}
    {rest : List (ℕ × V)} (h : p.1 < k) :
    aupsert k f d (p :: rest) = p :: aupsert k f d rest := by
  conv_lhs => rw [aupsert]
  rw [if_neg (by omega), if_neg (by omega)]


theorem alookup_eq_none_of_lt {k : ℕ} {l : List (ℕ × V)}
    (h : ∀ p ∈ l, k < p.1) : alookup k l = none := by
  induction l with
  | nil => rfl
  | cons p rest ih =>
    have hk : k ≠ p.1 := Nat.ne_of_lt (h p (List.mem_cons_self _ _))
    simp only [alookup, hk, if_false]
    exact ih (fun q hq => h q (List.mem_cons_of_mem _ hq))

theorem mem_aupsert {k : ℕ} {f : V → V} {d : V} {l : List (ℕ × V)}
    {q : ℕ × V} (h : q ∈ aupsert k f d l) : q.1 = k ∨ q ∈ l := by
  induction l with
  | nil =>
    simp only [aupsert, List.mem_singleton] at h
    exact Or.inl (by rw [h])
  | cons p rest ih =>
    rcases Nat.lt_trichotomy k p.1 with h1 | h1 | h1
    · rw [aupsert_head_lt h1] at h
      rcases List.mem_cons.1 h with rfl | h
      · exact Or.inl rfl
      · exact Or.inr h
    · rw [aupsert_head_eq h1] at h
      rcases List.mem_cons.1 h with rfl | h
      · exact Or.inl rfl
      · exact Or.inr (List.mem_cons_of_mem _ h)
    · rw [aupsert_head_gt h1] at h
      rcases List.mem_cons.1 h with rfl | h
      · exact Or.inr (List.mem_cons_self _ _)
      · rcases ih h with h | h
        · exact Or.inl h
        · exact Or.inr (List.mem_cons_of_mem _ h)

theorem aupsert_sorted {k : ℕ} {f : V → V} {d : V} {l : List (ℕ × V)}
    (h : AKeysSorted l) : AKeysSorted (aupsert k f d l) := by
  induction l with
  | nil =>
    unfold aupsert
    exact List.pairwise_singleton _ _
  | cons p rest ih =>
    rw [akeys_cons] at h
    rcases Nat.lt_trichotomy k p.1 with h1 | h1 | h1
    · rw [aupsert_head_lt h1]
      refine akeys_cons.2 ⟨?_, akeys_cons.2 h⟩
      intro q hq
      rcases List.mem_cons.1 hq with rfl | hq
      · exact h1
      · exact lt_trans h1 (h.1 q hq)
    · rw [aupsert_head_eq h1]
      exact akeys_cons.2 ⟨fun q hq => h1 ▸ h.1 q hq, h.2⟩
    · rw [aupsert_head_gt h1]
      refine akeys_cons.2 ⟨?_, ih h.2⟩
      intro q hq
      rcases mem_aupsert hq with hq | hq
      · rw [hq]; exact h1
      · exact h.1 q hq

theorem alookup_aupsert_ne {k k' : ℕ} (h : k' ≠ k) (f : V → V) (d : V)
    (l : List (ℕ × V)) : alookup k' (aupsert k f d l) = alookup k' l := by
  induction l with
  | nil => simp [aupsert, alookup, h]
  | cons p rest ih =>
    rcases Nat.lt_trichotomy k p.1 with h1 | h1 | h1
    · rw [aupsert_head_lt h1]
      simp only [alookup, h, if_false]
    · rw [aupsert_head_eq h1]
      have h2 : k' ≠ p.1 := fun hc => h (by omega)
      simp only [alookup, h, if_false, h2]
    · rw [aupsert_head_gt h1]
      simp only [alookup, ih]

theorem alookup_aupsert_self {k : ℕ} (f : V → V) (d : V)
    {l : List (ℕ × V)} (h : AKeysSorted l) :
    alookup k (aupsert k f d l) =
      some (match alookup k l with | some v => f v | none => d) := by
  induction l with
  | nil => simp [aupsert, alookup]
  | cons p rest ih =>
    rw [akeys_cons] at h
    rcases Nat.lt_trichotomy k p.1 with h1 | h1 | h1
    · have hnone : alookup k (p :: rest) = none := by
        refine alookup_eq_none_of_lt ?_
        intro q hq
        rcases List.mem_cons.1 hq with rfl | hq
        · exact h1
        · exact lt_trans h1 (h.1 q hq)
      rw [aupsert_head_lt h1, hnone]
      simp [alookup]
    · rw [aupsert_head_eq h1]
      have e1 : alookup k ((k, f p.2) :: rest) = some (f p.2) := by
        simp [alookup]
      have e2 : alookup k (p :: rest) = some p.2 := by
        simp [alookup, h1]
      rw [e1, e2]
    · have hk : k ≠ p.1 := by omega
      rw [aupsert_head_gt h1]
      simp only [alookup, hk, if_false]
      exact ih h.2

theorem alookup_of_mem {l : List (ℕ × V)} {q : ℕ × V}
    (hs : AKeysSorted l) (h : q ∈ l) : alookup q.1 l = some q.2 := by
  induction l with
  | nil => simp at h
  | cons p rest ih =>
    rw [akeys_cons] at hs
    rcases List.mem_cons.1 h with rfl | h
    · simp [alookup]
    · have hne : q.1 ≠ p.1 := Nat.ne_of_gt (hs.1 q h)
      simp only [alookup, hne, if_false]
      exact ih hs.2 h

theorem mem_of_alookup {l : List (ℕ × V)} {k : ℕ} {v : V}
    (h : alookup k l = some v) : (k, v) ∈ l := by
  induction l with
  | nil => simp [alookup] at h
  | cons p rest ih =>
    by_cases h1 : k = p.1
    · simp only [alookup, h1, if_true, Option.some.injEq] at h
      subst h
      rcases p with ⟨k2, v2⟩
      rcases h1 with rfl
      exact List.mem_cons_self _ _
    · simp only [alookup, h1, if_false] at h
      exact List.mem_cons_of_mem _ (ih h)

/-- Two canonical (key-sorted) association lists with the same lookups
are equal. -/
theorem assoc_ext {l₁ l₂ : List (ℕ × V)} (h₁ : AKeysSorted l₁)
    (h₂ : AKeysSorted l₂) (h : ∀ k, alookup k l₁ = alookup k l₂) :
    l₁ = l₂ := by
  induction l₁ generalizing l₂ with
  | nil =>
    cases l₂ with
    | nil => rfl
    | cons q t =>
      have := h q.1
      simp [alookup] at this
  | cons p t₁ ih =>
    cases l₂ with
    | nil =>
      have := h p.1
      simp [alookup] at this
    | cons q t₂ =>
      rw [akeys_cons] at h₁ h₂
      have hkey : p.1 = q.1 := by
        by_contra hne
        rcases Nat.lt_or_ge p.1 q.1 with hlt | hge
        · have hq : alookup p.1 (q :: t₂) = none :=
            alookup_eq_none_of_lt (by
              intro r hr
              rcases List.mem_cons.1 hr with rfl | hr
              · exact hlt
              · exact lt_trans hlt (h₂.1 r hr))
          have heq := h p.1
          rw [hq] at heq
          simp [alookup] at heq
        · have hlt2 : q.1 < p.1 := by omega
          have hp : alookup q.1 (p :: t₁) = none :=
            alookup_eq_none_of_lt (by
              intro r hr
              rcases List.mem_cons.1 hr with rfl | hr
              · exact hlt2
              · exact lt_trans hlt2 (h₁.1 r hr))
          have heq := h q.1
          rw [hp] at heq
          simp [alookup] at heq
      have hval : p.2 = q.2 := by
        have heq := h p.1
        have e1 : alookup p.1 (p :: t₁) = some p.2 := by
          simp [alookup]
        have e2 : alookup p.1 (q :: t₂) = some q.2 := by
          simp [alookup, hkey]
        rw [e1, e2] at heq
        exact Option.some.inj heq
      have htails : ∀ k, alookup k t₁ = alookup k t₂ := by
        intro k
        by_cases hk : k = p.1
        · subst hk
          rw [alookup_eq_none_of_lt (fun r hr => h₁.1 r hr),
            alookup_eq_none_of_lt (fun r hr => hkey ▸ h₂.1 r hr)]
        · have heq := h k
          simp only [alookup] at heq
          rw [if_neg hk, if_neg (fun hc => hk (hkey.symm ▸ hc))] at heq
          exact heq
      rcases p with ⟨pk, pv⟩
      rcases q with ⟨qk, qv⟩
      simp only at hkey hval
      subst hkey
      subst hval
      rw [ih h₁.2 h₂.2 htails]

end AssocLemmas

/-! ## Characterisation lemmas: `Ranges` and `AboveRangeSet` -/

namespace Ranges

theorem mem_eventsOf {rs : List (ℕ × ℕ)} {x : ℕ} :
    x ∈ eventsOf rs ↔ ∃ p ∈ rs, p.1 ≤ x ∧ x ≤ p.2 := by
  simp only [eventsOf, List.mem_flatMap, List.mem_range'_1]
  constructor
  · rintro ⟨p, hp, h1, h2⟩
    exact ⟨p, hp, h1, by omega⟩
  · rintro ⟨p, hp, h1, h2⟩
    exact ⟨p, hp, h1, by omega⟩

theorem contains_iff {rs : List (ℕ × ℕ)} {x : ℕ} :
    contains rs x = true ↔ ∃ p ∈ rs, p.1 ≤ x ∧ x ≤ p.2 := by
  simp [contains]

theorem contains_iff_mem {rs : List (ℕ × ℕ)} {x : ℕ} :
    contains rs x = true ↔ x ∈ eventsOf rs :=
  contains_iff.trans mem_eventsOf.symm

/-- `Ranges.add` is the generic canonical upsert. -/
theorem add_eq_aupsert (rs : List (ℕ × ℕ)) (k v : ℕ) :
    add rs k v = aupsert k (fun _ => v) v rs := by
  induction rs with
  | nil => rfl
  | cons p rest ih =>
    rcases Nat.lt_trichotomy k p.1 with h1 | h1 | h1
    · rw [aupsert_head_lt h1]
      unfold add
      rw [if_pos h1]
    · rw [aupsert_head_eq h1]
      unfold add
      rw [if_neg (by omega), if_pos h1]
    · rw [aupsert_head_gt h1]
      unfold add
      rw [if_neg (by omega), if_neg (by omega), ih]

theorem remove_fst (rs : List (ℕ × ℕ)) (key : ℕ) :
    (remove rs key).1 = alookup key rs := by
  induction rs with
  | nil => rfl
  | cons p rest ih =>
    by_cases h1 : p.1 = key
    · simp [remove, alookup, h1]
    · have h2 : key ≠ p.1 := fun hc => h1 hc.symm
      simp [remove, alookup, h1, h2, ih]

theorem remove_snd_sublist (rs : List (ℕ × ℕ)) (key : ℕ) :
    (remove rs key).2.Sublist rs := by
  induction rs with
  | nil => simp [remove]
  | cons p rest ih =>
    by_cases h1 : p.1 = key
    · simp only [remove, h1, if_true]
      exact (List.sublist_cons_self p rest)
    · simp only [remove, h1, if_false]
      exact List.Sublist.cons₂ p ih

theorem mem_remove_snd {rs : List (ℕ × ℕ)} {key : ℕ} {q : ℕ × ℕ}
    (hs : AKeysSorted rs) (h : q ∈ (remove rs key).2) :
    q ∈ rs ∧ q.1 ≠ key := by
  refine ⟨(remove_snd_sublist rs key).mem h, ?_⟩
  induction rs with
  | nil => simp [remove] at h
  | cons p rest ih =>
    rw [akeys_cons] at hs
    by_cases h1 : p.1 = key
    · simp only [remove, h1, if_true] at h
      exact fun hc => absurd (hc ▸ hs.1 q h) (by omega)
    · simp only [remove, h1, if_false, List.mem_cons] at h
      rcases h with rfl | h
      · exact h1
      · exact ih hs.2 h

end Ranges

namespace AboveRangeSet

/-- Well-formed range components: key-sorted, and every stored range is
a singleton (the shape produced by `new`, `add_event` and `join`). -/
def OneRanges (rs : List (ℕ × ℕ)) : Prop :=
  AKeysSorted rs ∧ ∀ p ∈ rs, p.2 = p.1

theorem compressGo_max_le (fuel : ℕ) :
    ∀ (m : ℕ) (rs : List (ℕ × ℕ)), (∀ p ∈ rs, p.1 ≤ p.2) →
      m ≤ (compressGo fuel m rs).1 := by
  induction fuel with
  | zero => intro m rs _; simp [compressGo]
  | succ fuel ih =>
    intro m rs hwf
    unfold compressGo
    rcases hr : Ranges.remove rs (m + 1) with ⟨o, rs2⟩
    cases o with
    | none => simp
    | some e =>
      simp only
      have he : (m + 1, e) ∈ rs := by
        have := Ranges.remove_fst rs (m + 1)
        rw [hr] at this
        exact mem_of_alookup this.symm
      have h1 : m + 1 ≤ e := hwf _ he
      have h2 : ∀ p ∈ rs2, p.1 ≤ p.2 := by
        intro p hp
        have : (Ranges.remove rs (m + 1)).2 = rs2 := by rw [hr]
        exact hwf p (((this ▸ Ranges.remove_snd_sublist rs (m + 1)).mem) hp)
      exact le_trans (by omega) (ih e rs2 h2)

theorem compressGo_sublist (fuel : ℕ) :
    ∀ (m : ℕ) (rs : List (ℕ × ℕ)), (compressGo fuel m rs).2.Sublist rs := by
  induction fuel with
  | zero => intro m rs; simp [compressGo]
  | succ fuel ih =>
    intro m rs
    unfold compressGo
    rcases hr : Ranges.remove rs (m + 1) with ⟨o, rs2⟩
    cases o with
    | none => simp
    | some e =>
      simp only
      have : (Ranges.remove rs (m + 1)).2 = rs2 := by rw [hr]
      exact (ih e rs2).trans (this ▸ Ranges.remove_snd_sublist rs (m + 1))

/-- An entry with a different key survives `remove`. -/
theorem mem_remove_of_ne {rs : List (ℕ × ℕ)} {key : ℕ} {q : ℕ × ℕ}
    (h : q ∈ rs) (hne : q.1 ≠ key) : q ∈ (Ranges.remove rs key).2 := by
  induction rs with
  | nil => simp at h
  | cons p rest ih =>
    by_cases h1 : p.1 = key
    · simp only [Ranges.remove, h1, if_true]
      rcases List.mem_cons.1 h with rfl | h
      · exact absurd h1 hne
      · exact h
    · simp only [Ranges.remove, h1, if_false, List.mem_cons]
      rcases List.mem_cons.1 h with rfl | h
      · exact Or.inl rfl
      · exact Or.inr (ih h)

/-- Semantic preservation of the compression loop, given enough fuel and
well-formed ranges. -/
theorem compressGo_sem (fuel : ℕ) :
    ∀ (m : ℕ) (rs : List (ℕ × ℕ)), rs.length < fuel → AKeysSorted rs →
      (∀ p ∈ rs, p.1 ≤ p.2) → ∀ x,
      (x ≤ (compressGo fuel m rs).1 ∨
          Ranges.contains (compressGo fuel m rs).2 x = true) ↔
        (x ≤ m ∨ Ranges.contains rs x = true) := by
  induction fuel with
  | zero => intro m rs hf; omega
  | succ fuel ih =>
    intro m rs hf hs hwf x
    unfold compressGo
    rcases hr : Ranges.remove rs (m + 1) with ⟨o, rs2⟩
    cases o with
    | none => simp
    | some e =>
      simp only
      have hre : (Ranges.remove rs (m + 1)).2 = rs2 := by rw [hr]
      have hsub : rs2.Sublist rs := hre ▸ Ranges.remove_snd_sublist rs (m + 1)
      have hlook : alookup (m + 1) rs = some e := by
        have := Ranges.remove_fst rs (m + 1)
        rw [hr] at this
        exact this.symm
      have he : (m + 1, e) ∈ rs := mem_of_alookup hlook
      have h1e : m + 1 ≤ e := hwf _ he
      have hlen : rs2.length < fuel := by
        have := Ranges.remove_some_length hr
        omega
      have hs2 : AKeysSorted rs2 := hs.sublist hsub
      have hwf2 : ∀ p ∈ rs2, p.1 ≤ p.2 := fun p hp => hwf p (hsub.mem hp)
      rw [ih e rs2 hlen hs2 hwf2 x]
      constructor
      · rintro (h1 | h1)
        · by_cases hxm : x ≤ m
          · exact Or.inl hxm
          · exact Or.inr
              (Ranges.contains_iff.2 ⟨(m + 1, e), he, by omega, h1⟩)
        · rcases Ranges.contains_iff.1 h1 with ⟨p, hp, hp1, hp2⟩
          exact Or.inr (Ranges.contains_iff.2 ⟨p, hsub.mem hp, hp1, hp2⟩)
      · rintro (h1 | h1)
        · exact Or.inl (by omega)
        · rcases Ranges.contains_iff.1 h1 with ⟨p, hp, hp1, hp2⟩
          by_cases hpk : p.1 = m + 1
          · have hv : p.2 = e := by
              have e1 := alookup_of_mem hs hp
              rw [hpk, hlook] at e1
              exact (Option.some.inj e1).symm
            exact Or.inl (by omega)
          · refine Or.inr (Ranges.contains_iff.2 ⟨p, ?_, hp1, hp2⟩)
            exact hre ▸ mem_remove_of_ne hp hpk

/-- The compression loop restores the invariant on singleton ranges:
if every key exceeds `m`, afterwards every key exceeds the new max
by at least 2. -/
theorem compressGo_inv (fuel : ℕ) :
    ∀ (m : ℕ) (rs : List (ℕ × ℕ)), rs.length < fuel → AKeysSorted rs →
      (∀ p ∈ rs, p.2 = p.1) → (∀ p ∈ rs, m + 1 ≤ p.1) →
      ∀ p ∈ (compressGo fuel m rs).2, (compressGo fuel m rs).1 + 2 ≤ p.1 := by
  induction fuel with
  | zero => intro m rs hf; omega
  | succ fuel ih =>
    intro m rs hf hs hone hkeys
    unfold compressGo
    rcases hr : Ranges.remove rs (m + 1) with ⟨o, rs2⟩
    cases o with
    | none =>
      simp only
      intro p hp
      have hlook : alookup (m + 1) rs = none := by
        have := Ranges.remove_fst rs (m + 1)
        rw [hr] at this
        exact this.symm
      have h1 := hkeys p hp
      rcases Nat.eq_or_lt_of_le h1 with h2 | h2
      · exfalso
        have := alookup_of_mem hs hp
        rw [← h2] at this
        rw [this] at hlook
        exact Option.noConfusion hlook
      · omega
    | some e =>
      simp only
      have hre : (Ranges.remove rs (m + 1)).2 = rs2 := by rw [hr]
      have hsub : rs2.Sublist rs := hre ▸ Ranges.remove_snd_sublist rs (m + 1)
      have hlook : alookup (m + 1) rs = some e := by
        have := Ranges.remove_fst rs (m + 1)
        rw [hr] at this
        exact this.symm
      have he : (m + 1, e) ∈ rs := mem_of_alookup hlook
      have hee : e = m + 1 := hone _ he
      have hlen : rs2.length < fuel := by
        have := Ranges.remove_some_length hr
        omega
      have hs2 : AKeysSorted rs2 := hs.sublist hsub
      have hone2 : ∀ p ∈ rs2, p.2 = p.1 := fun p hp => hone p (hsub.mem hp)
      have hkeys2 : ∀ p ∈ rs2, e + 1 ≤ p.1 := by
        intro p hp
        have h1 := hkeys p (hsub.mem hp)
        have h2 := (Ranges.mem_remove_snd hs (hre ▸ hp)).2
        omega
      exact ih e rs2 hlen hs2 hone2 hkeys2

end AboveRangeSet

namespace Ranges

/-- Key membership in a ranges map. -/
def KeyMem (rs : List (ℕ × ℕ)) (k : ℕ) : Prop :=
  ∃ p ∈ rs, p.1 = k

theorem keyMem_add {rs : List (ℕ × ℕ)} (hs : AKeysSorted rs) {e k : ℕ} :
    KeyMem (add rs e e) k ↔ k = e ∨ KeyMem rs k := by
  rw [add_eq_aupsert]
  constructor
  · rintro ⟨p, hp, rfl⟩
    rcases mem_aupsert hp with h | h
    · exact Or.inl h
    · exact Or.inr ⟨p, h, rfl⟩
  · rintro (rfl | ⟨p, hp, rfl⟩)
    · have hself := alookup_aupsert_self (fun _ => k) k hs (k := k)
      refine ⟨(k, k), ?_, rfl⟩
      rcases hl : alookup k rs with _ | v
      · rw [hl] at hself
        exact mem_of_alookup hself
      · rw [hl] at hself
        exact mem_of_alookup hself
    · by_cases hk : p.1 = e
      · have hself := alookup_aupsert_self (fun _ => e) e hs (k := e)
        refine ⟨(e, e), ?_, hk ▸ rfl⟩
        rcases hl : alookup e rs with _ | v
        · rw [hl] at hself
          exact mem_of_alookup hself
        · rw [hl] at hself
          exact mem_of_alookup hself
      · have h1 := alookup_of_mem hs hp
        have h2 := alookup_aupsert_ne (k := e) hk (fun _ => e) e rs
        rw [h1] at h2
        exact ⟨(p.1, p.2), mem_of_alookup h2, rfl⟩

theorem add_sorted {rs : List (ℕ × ℕ)} (hs : AKeysSorted rs) (e v : ℕ) :
    AKeysSorted (add rs e v) := by
  rw [add_eq_aupsert]
  exact aupsert_sorted hs

theorem add_one {rs : List (ℕ × ℕ)} (hs : AKeysSorted rs)
    (hone : ∀ p ∈ rs, p.2 = p.1) (e : ℕ) :
    ∀ p ∈ add rs e e, p.2 = p.1 := by
  intro p hp
  rw [add_eq_aupsert] at hp
  have hsorted : AKeysSorted (aupsert e (fun _ => e) e rs) := aupsert_sorted hs
  rcases mem_aupsert hp with h | h
  · have h1 := alookup_of_mem hsorted hp
    have hself := alookup_aupsert_self (fun _ => e) e hs (k := e)
    rw [h] at h1
    have h2 : p.2 = e := by
      rcases hl : alookup e rs with _ | v <;> rw [hl] at hself <;>
        · rw [h1] at hself
          exact Option.some.inj hself
    rw [h2, h]
  · exact hone p h

/-- On singleton ranges, `contains` is key membership. -/
theorem contains_eq_keyMem {rs : List (ℕ × ℕ)}
    (hone : ∀ p ∈ rs, p.2 = p.1) {x : ℕ} :
    contains rs x = true ↔ KeyMem rs x := by
  rw [contains_iff]
  constructor
  · rintro ⟨p, hp, h1, h2⟩
    have := hone p hp
    exact ⟨p, hp, by omega⟩
  · rintro ⟨p, hp, rfl⟩
    exact ⟨p, hp, le_refl _, (hone p hp).ge⟩

/-- First `join` fold: insert as singletons all events above `m`. -/
theorem fold1_spec (m : ℕ) :
    ∀ (l : List ℕ) (init : List (ℕ × ℕ)), AKeysSorted init →
      (∀ p ∈ init, p.2 = p.1) →
      AKeysSorted (l.foldl
          (fun acc e => if m < e then add acc e e else acc) init) ∧
      (∀ p ∈ l.foldl (fun acc e => if m < e then add acc e e else acc) init,
          p.2 = p.1) ∧
      ∀ k, KeyMem
          (l.foldl (fun acc e => if m < e then add acc e e else acc) init) k ↔
        KeyMem init k ∨ (k ∈ l ∧ m < k) := by
  intro l
  induction l with
  | nil =>
    intro init hs hone
    refine ⟨hs, hone, fun k => ?_⟩
    simp
  | cons a t ih =>
    intro init hs hone
    simp only [List.foldl_cons]
    by_cases hma : m < a
    · rw [if_pos hma]
      obtain ⟨s1, o1, k1⟩ := ih (add init a a) (add_sorted hs a a)
        (add_one hs hone a)
      refine ⟨s1, o1, fun k => ?_⟩
      rw [k1 k, keyMem_add hs, List.mem_cons]
      constructor
      · rintro ((rfl | h) | ⟨h1, h2⟩)
        · exact Or.inr ⟨Or.inl rfl, hma⟩
        · exact Or.inl h
        · exact Or.inr ⟨Or.inr h1, h2⟩
      · rintro (h | ⟨(rfl | h1), h2⟩)
        · exact Or.inl (Or.inr h)
        · exact Or.inl (Or.inl rfl)
        · exact Or.inr ⟨h1, h2⟩
    · rw [if_neg hma]
      obtain ⟨s1, o1, k1⟩ := ih init hs hone
      refine ⟨s1, o1, fun k => ?_⟩
      rw [k1 k, List.mem_cons]
      constructor
      · rintro (h | ⟨h1, h2⟩)
        · exact Or.inl h
        · exact Or.inr ⟨Or.inr h1, h2⟩
      · rintro (h | ⟨(rfl | h1), h2⟩)
        · exact Or.inl h
        · exact absurd h2 hma
        · exact Or.inr ⟨h1, h2⟩

/-- Second `join` fold: same key set, duplicates skipped by the
`contains` guard. -/
theorem fold2_spec (m : ℕ) :
    ∀ (l : List ℕ) (init : List (ℕ × ℕ)), AKeysSorted init →
      (∀ p ∈ init, p.2 = p.1) →
      AKeysSorted (l.foldl
          (fun acc e =>
            if m < e && !contains acc e then add acc e e else acc) init) ∧
      (∀ p ∈ l.foldl
          (fun acc e =>
            if m < e && !contains acc e then add acc e e else acc) init,
          p.2 = p.1) ∧
      ∀ k, KeyMem
          (l.foldl (fun acc e =>
            if m < e && !contains acc e then add acc e e else acc) init) k ↔
        KeyMem init k ∨ (k ∈ l ∧ m < k) := by
  intro l
  induction l with
  | nil =>
    intro init hs hone
    refine ⟨hs, hone, fun k => ?_⟩
    simp
  | cons a t ih =>
    intro init hs hone
    simp only [List.foldl_cons]
    by_cases hc : (decide (m < a) && !contains init a) = true
    · rw [if_pos hc]
      have hma : m < a := by
        simp only [Bool.and_eq_true, decide_eq_true_eq] at hc
        exact hc.1
      obtain ⟨s1, o1, k1⟩ := ih (add init a a) (add_sorted hs a a)
        (add_one hs hone a)
      refine ⟨s1, o1, fun k => ?_⟩
      rw [k1 k, keyMem_add hs, List.mem_cons]
      constructor
      · rintro ((rfl | h) | ⟨h1, h2⟩)
        · exact Or.inr ⟨Or.inl rfl, hma⟩
        · exact Or.inl h
        · exact Or.inr ⟨Or.inr h1, h2⟩
      · rintro (h | ⟨(rfl | h1), h2⟩)
        · exact Or.inl (Or.inr h)
        · exact Or.inl (Or.inl rfl)
        · exact Or.inr ⟨h1, h2⟩
    · rw [if_neg hc]
      obtain ⟨s1, o1, k1⟩ := ih init hs hone
      refine ⟨s1, o1, fun k => ?_⟩
      rw [k1 k, List.mem_cons]
      have hcase : ¬ m < a ∨ contains init a = true := by
        by_contra hno
        push_neg at hno
        refine hc ?_
        rw [Bool.and_eq_true, decide_eq_true_eq, Bool.not_eq_true']
        exact ⟨hno.1, Bool.not_eq_true _ ▸ hno.2⟩
      constructor
      · rintro (h | ⟨h1, h2⟩)
        · exact Or.inl h
        · exact Or.inr ⟨Or.inr h1, h2⟩
      · rintro (h | ⟨(rfl | h1), h2⟩)
        · exact Or.inl h
        · rcases hcase with h3 | h3
          · exact absurd h2 h3
          · exact Or.inl ((contains_eq_keyMem hone).1 h3)
        · exact Or.inr ⟨h1, h2⟩

/-- `Ranges::join` semantics: the result is a sorted map of singleton
ranges whose keys are exactly the events of either side above `max`. -/
theorem joinR_spec (a b : List (ℕ × ℕ)) (m : ℕ) :
    AKeysSorted (joinR a b m) ∧
    (∀ p ∈ joinR a b m, p.2 = p.1) ∧
    ∀ k, KeyMem (joinR a b m) k ↔
      (k ∈ eventsOf a ∨ k ∈ eventsOf b) ∧ m < k := by
  obtain ⟨s1, o1, k1⟩ := fold1_spec m (eventsOf a) []
    (List.Pairwise.nil) (by simp)
  obtain ⟨s2, o2, k2⟩ := fold2_spec m (eventsOf b)
    ((eventsOf a).foldl (fun acc e => if m < e then add acc e e else acc) [])
    s1 o1
  refine ⟨s2, o2, fun k => ?_⟩
  show KeyMem ((eventsOf b).foldl _ _) k ↔ _
  rw [k2 k, k1 k]
  have hnil : ¬ KeyMem ([] : List (ℕ × ℕ)) k := by
    rintro ⟨p, hp, _⟩
    simp at hp
  constructor
  · rintro ((h | ⟨h1, h2⟩) | ⟨h1, h2⟩)
    · exact absurd h hnil
    · exact ⟨Or.inl h1, h2⟩
    · exact ⟨Or.inr h1, h2⟩
  · rintro ⟨h1 | h1, h2⟩
    · exact Or.inl (Or.inr ⟨h1, h2⟩)
    · exact Or.inr ⟨h1, h2⟩

/-- Pairs of `add rs e v` are either the new pair or an old one. -/
theorem mem_add_cases {rs : List (ℕ × ℕ)} (hs : AKeysSorted rs)
    {p : ℕ × ℕ} {e v : ℕ} (hp : p ∈ add rs e v) :
    (p.1 = e ∧ p.2 = v) ∨ p ∈ rs := by
  rw [add_eq_aupsert] at hp
  have hsorted : AKeysSorted (aupsert e (fun _ => v) v rs) := aupsert_sorted hs
  rcases mem_aupsert hp with h | h
  · have h1 := alookup_of_mem hsorted hp
    have hself := alookup_aupsert_self (fun _ => v) v hs (k := e)
    rw [h] at h1
    refine Or.inl ⟨h, ?_⟩
    rcases hl : alookup e rs with _ | w <;> rw [hl] at hself <;>
      · rw [h1] at hself
        exact Option.some.inj hself
  · exact Or.inr h

end Ranges

namespace AboveRangeSet

theorem is_event_true_iff_ar {s : AboveRangeSet} {x : ℕ} :
    s.is_event x = true ↔ x ≤ s.max ∨ Ranges.contains s.ranges x = true := by
  simp [is_event]

/-- `try_compress` preserves the represented set on well-formed ranges. -/
theorem try_compress_sem {s : AboveRangeSet} (hs : AKeysSorted s.ranges)
    (hwf : ∀ p ∈ s.ranges, p.1 ≤ p.2) (x : ℕ) :
    (try_compress s).is_event x = s.is_event x := by
  rw [Bool.eq_iff_iff, is_event_true_iff_ar, is_event_true_iff_ar]
  exact compressGo_sem (s.ranges.length + 1) s.max s.ranges
    (by omega) hs hwf x

/-- The ranges invariant maintained by the singleton-producing mutators:
keys sorted, every range a singleton. -/
def Singles (s : AboveRangeSet) : Prop :=
  AKeysSorted s.ranges ∧ ∀ p ∈ s.ranges, p.2 = p.1

theorem singles_wf {s : AboveRangeSet} (h : Singles s) :
    ∀ p ∈ s.ranges, p.1 ≤ p.2 := fun p hp => (h.2 p hp).ge

theorem try_compress_singles {s : AboveRangeSet} (h : Singles s) :
    Singles (try_compress s) := by
  have hsub : (try_compress s).ranges.Sublist s.ranges :=
    compressGo_sublist (s.ranges.length + 1) s.max s.ranges
  exact ⟨h.1.sublist hsub, fun p hp => h.2 p (hsub.mem hp)⟩

/-- The three branches of `add_event`, as equations. -/
theorem add_event_succ_ar {s : AboveRangeSet} {e : ℕ} (h : e = s.max + 1) :
    s.add_event e = (try_compress ⟨e, s.ranges⟩, true) := by
  unfold add_event; rw [if_pos h]

theorem add_event_gt_ar {s : AboveRangeSet} {e : ℕ} (h : s.max + 1 < e) :
    s.add_event e = (⟨s.max, Ranges.add s.ranges e e⟩, true) := by
  unfold add_event; rw [if_neg (by omega), if_pos h]

theorem add_event_le_ar {s : AboveRangeSet} {e : ℕ} (h : e ≤ s.max) :
    s.add_event e = (s, false) := by
  unfold add_event; rw [if_neg (by omega), if_neg (by omega)]

theorem add_event_singles {s : AboveRangeSet} (h : Singles s) (e : ℕ) :
    Singles (s.add_event e).1 := by
  rcases Nat.lt_trichotomy e (s.max + 1) with hc | hc | hc
  · rw [add_event_le_ar (by omega)]; exact h
  · rw [add_event_succ_ar hc]
    exact try_compress_singles ⟨h.1, h.2⟩
  · rw [add_event_gt_ar hc]
    exact ⟨Ranges.add_sorted h.1 e e, Ranges.add_one h.1 h.2 e⟩

/-- `add_event` semantics on singleton-range states. -/
theorem add_event_sem_ar {s : AboveRangeSet} (h : Singles s) (e x : ℕ) :
    (s.add_event e).1.is_event x = (s.is_event x || x == e) := by
  rw [Bool.eq_iff_iff, Bool.or_eq_true, beq_iff_eq]
  rcases Nat.lt_trichotomy e (s.max + 1) with hc | hc | hc
  · rw [add_event_le_ar (by omega)]
    show s.is_event x = true ↔ s.is_event x = true ∨ x = e
    constructor
    · exact fun h2 => Or.inl h2
    · rintro (h2 | rfl)
      · exact h2
      · rw [is_event_true_iff_ar]; exact Or.inl (by omega)
  · rw [add_event_succ_ar hc]
    rw [Bool.eq_iff_iff.1 (try_compress_sem (s := ⟨e, s.ranges⟩) h.1
      (singles_wf h) x)]
    rw [is_event_true_iff_ar, is_event_true_iff_ar]
    show x ≤ e ∨ Ranges.contains s.ranges x = true ↔
      (x ≤ s.max ∨ Ranges.contains s.ranges x = true) ∨ x = e
    by_cases hm : Ranges.contains s.ranges x = true <;> simp [hm] <;> omega
  · rw [add_event_gt_ar hc]
    rw [is_event_true_iff_ar, is_event_true_iff_ar]
    show x ≤ s.max ∨ Ranges.contains (Ranges.add s.ranges e e) x = true ↔
      (x ≤ s.max ∨ Ranges.contains s.ranges x = true) ∨ x = e
    rw [Ranges.contains_eq_keyMem (Ranges.add_one h.1 h.2 e),
      Ranges.keyMem_add h.1, Ranges.contains_eq_keyMem h.2]
    constructor
    · rintro (h2 | h2 | h2)
      · exact Or.inl (Or.inl h2)
      · exact Or.inr h2
      · exact Or.inl (Or.inr h2)
    · rintro ((h2 | h2) | rfl)
      · exact Or.inl h2
      · exact Or.inr (Or.inr h2)
      · exact Or.inr (Or.inl rfl)

/-- `join` computes set union on the represented sets (for all states,
well-formed or not). -/
theorem join_sem_ar (s o : AboveRangeSet) (x : ℕ) :
    (s.join o).is_event x = (s.is_event x || o.is_event x) := by
  rw [Bool.eq_iff_iff, Bool.or_eq_true]
  obtain ⟨hs, hone, hkm⟩ :=
    Ranges.joinR_spec s.ranges o.ranges (Max.max s.max o.max)
  unfold join
  rw [Bool.eq_iff_iff.1 (try_compress_sem
    (s := ⟨Max.max s.max o.max,
      Ranges.joinR s.ranges o.ranges (Max.max s.max o.max)⟩) hs
    (fun p hp => (hone p hp).ge) x)]
  rw [is_event_true_iff_ar, is_event_true_iff_ar, is_event_true_iff_ar]
  show x ≤ Max.max s.max o.max ∨
      Ranges.contains (Ranges.joinR s.ranges o.ranges
        (Max.max s.max o.max)) x = true ↔ _
  rw [Ranges.contains_eq_keyMem hone, hkm x, ← Ranges.contains_iff_mem,
    ← Ranges.contains_iff_mem]
  by_cases h1 : Ranges.contains s.ranges x = true <;>
    by_cases h2 : Ranges.contains o.ranges x = true <;>
    simp [h1, h2] <;> omega

/-- Singleton ranges whose keys exceed `max + 1` witness compression. -/
theorem compressed_of_keys {s : AboveRangeSet}
    (hone : ∀ p ∈ s.ranges, p.2 = p.1)
    (hkeys : ∀ p ∈ s.ranges, s.max + 2 ≤ p.1) : Compressed s := by
  intro p hp e h1 h2
  have h3 := hone p hp
  have h4 := hkeys p hp
  omega

theorem new_singles : Singles new := ⟨List.Pairwise.nil, by simp [new]⟩

theorem new_compressed : Compressed new := by
  intro p hp; simp [new] at hp

/-- `add_event` preserves compression on singleton-range states. -/
theorem add_event_compressed {s : AboveRangeSet} (hg : Singles s)
    (hc : Compressed s) (e : ℕ) : Compressed (s.add_event e).1 := by
  have hkeys : ∀ p ∈ s.ranges, s.max + 2 ≤ p.1 := by
    intro p hp
    exact hc p hp p.1 (le_refl _) (hg.2 p hp).ge
  rcases Nat.lt_trichotomy e (s.max + 1) with hcm | hcm | hcm
  · rw [add_event_le_ar (by omega)]; exact hc
  · rw [add_event_succ_ar hcm]
    have hinv := compressGo_inv (s.ranges.length + 1) e s.ranges
      (by omega) hg.1 hg.2 (fun p hp => by have := hkeys p hp; omega)
    exact compressed_of_keys (try_compress_singles (s := ⟨e, s.ranges⟩)
      ⟨hg.1, hg.2⟩).2 hinv
  · rw [add_event_gt_ar hcm]
    refine compressed_of_keys (Ranges.add_one hg.1 hg.2 e) ?_
    intro p hp
    rcases Ranges.mem_add_cases hg.1 hp with ⟨h1, _⟩ | h1
    · show s.max + 2 ≤ p.1; omega
    · exact hkeys p h1

/-- `join` always produces a compressed, singleton-range state. -/
theorem join_good (s o : AboveRangeSet) :
    Singles (s.join o) ∧ Compressed (s.join o) := by
  obtain ⟨hs, hone, hkm⟩ :=
    Ranges.joinR_spec s.ranges o.ranges (Max.max s.max o.max)
  have hsingles : Singles (s.join o) :=
    try_compress_singles (s := ⟨Max.max s.max o.max,
      Ranges.joinR s.ranges o.ranges (Max.max s.max o.max)⟩) ⟨hs, hone⟩
  refine ⟨hsingles, ?_⟩
  have hkeys : ∀ p ∈ Ranges.joinR s.ranges o.ranges (Max.max s.max o.max),
      Max.max s.max o.max + 1 ≤ p.1 := by
    intro p hp
    have := (hkm p.1).1 ⟨p, hp, rfl⟩
    omega
  have hinv := compressGo_inv
    ((Ranges.joinR s.ranges o.ranges (Max.max s.max o.max)).length + 1)
    (Max.max s.max o.max)
    (Ranges.joinR s.ranges o.ranges (Max.max s.max o.max))
    (by omega) hs hone hkeys
  exact compressed_of_keys hsingles.2 hinv

theorem from_events_good (es : List ℕ) :
    Singles (from_events es) ∧ Compressed (from_events es) := by
  suffices h : ∀ (s : AboveRangeSet), Singles s → Compressed s →
      Singles (es.foldl (fun s e => (s.add_event e).1) s) ∧
        Compressed (es.foldl (fun s e => (s.add_event e).1) s) from
    h new new_singles new_compressed
  induction es with
  | nil => intro s hg hc; exact ⟨hg, hc⟩
  | cons e rest ih =>
    intro s hg hc
    exact ih (s.add_event e).1 (add_event_singles hg e)
      (add_event_compressed hg hc e)

theorem from_events_sem_ar (es : List ℕ) (x : ℕ) :
    (from_events es).is_event x = (x == 0 || decide (x ∈ es)) := by
  suffices h : ∀ (s : AboveRangeSet), Singles s →
      ∀ x, (es.foldl (fun s e => (s.add_event e).1) s).is_event x =
        (s.is_event x || decide (x ∈ es)) by
    rw [from_events, h new new_singles x]
    have hn : new.is_event x = (x == 0) := by
      unfold is_event new Ranges.contains
      by_cases hx : x = 0 <;> simp [hx]
    rw [hn]
  induction es with
  | nil => intro s _ x; simp
  | cons e rest ih =>
    intro s hg x
    simp only [List.foldl_cons, ih (s.add_event e).1 (add_event_singles hg e) x,
      add_event_sem_ar hg e x, List.mem_cons]
    by_cases hxe : x = e
    · subst hxe; simp
    · have hbe : (x == e) = false := by simp [hxe]
      simp [hbe, hxe]

theorem is_event_zero_ar (s : AboveRangeSet) : s.is_event 0 = true := by
  simp [is_event]

/-- On a compressed state the event right above `max` is absent. -/
theorem is_event_succ_max_ar {s : AboveRangeSet} (h : Compressed s) :
    s.is_event (s.max + 1) = false := by
  rw [Bool.eq_false_iff]
  intro hc
  rcases is_event_true_iff_ar.1 hc with h1 | h1
  · omega
  · rcases Ranges.contains_iff.1 h1 with ⟨p, hp, hp1, hp2⟩
    have := h p hp (s.max + 1) hp1 hp2
    omega

end AboveRangeSet

namespace Ranges

/-- On singleton ranges, the events are exactly the keys. -/
theorem eventsOf_singles {rs : List (ℕ × ℕ)}
    (hone : ∀ p ∈ rs, p.2 = p.1) : eventsOf rs = rs.map Prod.fst := by
  induction rs with
  | nil => rfl
  | cons p t ih =>
    have hp := hone p (List.mem_cons_self _ _)
    show List.range' p.1 (p.2 + 1 - p.1) ++ eventsOf t = _
    rw [hp, ih (fun q hq => hone q (List.mem_cons_of_mem _ hq))]
    have h1 : p.1 + 1 - p.1 = 1 := by omega
    rw [h1, List.range'_one]
    rfl

end Ranges

namespace AboveRangeSet

theorem event_iter_mem_ar {s : AboveRangeSet} (hc : Compressed s) {x : ℕ} :
    x ∈ s.event_iter ↔ 1 ≤ x ∧ s.is_event x = true := by
  simp only [event_iter, List.mem_append, List.mem_range'_1,
    is_event_true_iff_ar, ← Ranges.contains_iff_mem]
  constructor
  · rintro (⟨h1, h2⟩ | h1)
    · exact ⟨h1, Or.inl (by omega)⟩
    · rcases Ranges.contains_iff.1 h1 with ⟨p, hp, hp1, hp2⟩
      have := hc p hp x hp1 hp2
      exact ⟨by omega, Or.inr h1⟩
  · rintro ⟨h1, h2 | h2⟩
    · exact Or.inl ⟨h1, by omega⟩
    · exact Or.inr h2

theorem event_iter_sorted_ar {s : AboveRangeSet} (hg : Singles s)
    (hc : Compressed s) : s.event_iter.Sorted (· < ·) := by
  rw [event_iter, List.Sorted, List.pairwise_append]
  refine ⟨List.pairwise_lt_range' 1 s.max, ?_, ?_⟩
  · rw [Ranges.eventsOf_singles hg.2]
    exact List.Pairwise.map Prod.fst (fun a b hab => hab) hg.1
  · intro a ha b hb
    rw [List.mem_range'_1] at ha
    rw [← Ranges.contains_iff_mem, Ranges.contains_iff] at hb
    rcases hb with ⟨p, hp, hp1, hp2⟩
    have := hc p hp b hp1 hp2
    omega

end AboveRangeSet

/-! ## Further `AboveExSet` lemmas -/

theorem toFinset_sortAsc (s : Finset ℕ) : (sortAsc s).toFinset = s := by
  ext x
  rw [List.mem_toFinset, mem_sortAsc]

namespace AboveExSet

theorem compress_no_op {m : ℕ} {l : List ℕ} (h : ∀ x ∈ l, m + 2 ≤ x) :
    compress m l = (m, l) := by
  cases l with
  | nil => rfl
  | cons y t =>
    have := h y (List.mem_cons_self _ _)
    show (if y = m + 1 then compress y t else (m, y :: t)) = (m, y :: t)
    rw [if_neg (by omega)]

theorem try_compress_of_compressed {s : AboveExSet} (h : Compressed s) :
    try_compress s = s := by
  show (⟨(compress s.max (sortAsc s.exs)).1,
    (compress s.max (sortAsc s.exs)).2.toFinset⟩ : AboveExSet) = s
  rw [compress_no_op (fun x hx => h x (mem_sortAsc.1 hx))]
  show (⟨s.max, (sortAsc s.exs).toFinset⟩ : AboveExSet) = s
  rw [toFinset_sortAsc]

theorem is_event_succ_max_ae {s : AboveExSet} (h : Compressed s) :
    s.is_event (s.max + 1) = false := by
  rw [Bool.eq_false_iff]
  intro hc
  rcases is_event_true_iff_ae.1 hc with h1 | h1
  · omega
  · have := h _ h1
    omega

theorem event_iter_mem_ae {s : AboveExSet} (hc : Compressed s) {x : ℕ} :
    x ∈ s.event_iter ↔ 1 ≤ x ∧ s.is_event x = true := by
  simp only [event_iter, List.mem_append, List.mem_range'_1, mem_sortAsc,
    is_event_true_iff_ae]
  constructor
  · rintro (⟨h1, h2⟩ | h1)
    · exact ⟨h1, Or.inl (by omega)⟩
    · have := hc x h1
      exact ⟨by omega, Or.inr h1⟩
  · rintro ⟨h1, h2 | h2⟩
    · exact Or.inl ⟨h1, by omega⟩
    · exact Or.inr h2

theorem event_iter_sorted_ae {s : AboveExSet} (hc : Compressed s) :
    s.event_iter.Sorted (· < ·) := by
  rw [event_iter, List.Sorted, List.pairwise_append]
  refine ⟨List.pairwise_lt_range' 1 s.max, sortAsc_sorted_lt s.exs, ?_⟩
  intro a ha b hb
  rw [List.mem_range'_1] at ha
  have := hc b (mem_sortAsc.1 hb)
  omega

end AboveExSet

/-! ## Commutativity and idempotence of `join` on the variants -/

namespace Ranges

theorem alookup_singles {rs : List (ℕ × ℕ)} (hs : AKeysSorted rs)
    (ho : ∀ p ∈ rs, p.2 = p.1) {k : ℕ} :
    (KeyMem rs k → alookup k rs = some k) ∧
      (¬ KeyMem rs k → alookup k rs = none) := by
  constructor
  · rintro ⟨p, hp, rfl⟩
    have h1 := alookup_of_mem hs hp
    rw [ho p hp] at h1
    exact h1
  · intro h
    rcases hv : alookup k rs with _ | v
    · rfl
    · exact absurd ⟨(k, v), mem_of_alookup hv, rfl⟩ h

/-- Sorted singleton maps with the same key set are equal. -/
theorem singles_ext {l₁ l₂ : List (ℕ × ℕ)} (h₁ : AKeysSorted l₁)
    (h₂ : AKeysSorted l₂) (o₁ : ∀ p ∈ l₁, p.2 = p.1)
    (o₂ : ∀ p ∈ l₂, p.2 = p.1)
    (hk : ∀ k, KeyMem l₁ k ↔ KeyMem l₂ k) : l₁ = l₂ := by
  refine assoc_ext h₁ h₂ (fun k => ?_)
  by_cases h : KeyMem l₁ k
  · rw [(alookup_singles h₁ o₁).1 h, (alookup_singles h₂ o₂).1 ((hk k).1 h)]
  · rw [(alookup_singles h₁ o₁).2 h,
      (alookup_singles h₂ o₂).2 (fun hc => h ((hk k).2 hc))]

theorem joinR_comm (a b : List (ℕ × ℕ)) (m : ℕ) :
    joinR a b m = joinR b a m := by
  obtain ⟨s1, o1, k1⟩ := joinR_spec a b m
  obtain ⟨s2, o2, k2⟩ := joinR_spec b a m
  refine singles_ext s1 s2 o1 o2 (fun k => ?_)
  rw [k1 k, k2 k]
  tauto

end Ranges

theorem MaxSet.join_comm_ms (s o : MaxSet) : s.join o = o.join s := by
  simp [join, Nat.max_comm]

theorem MaxSet.join_idem_ms (s : MaxSet) : s.join s = s := by
  cases s; simp [join]

theorem BelowExSet.join_comm_be (s o : BelowExSet) : s.join o = o.join s := by
  simp [join, Nat.max_comm, Finset.union_comm]

theorem BelowExSet.join_idem_be (s : BelowExSet) : s.join s = s := by
  rcases s with ⟨m, E⟩
  have hf : E.filter
      (fun ex => ¬ (BelowExSet.mk m E).is_event ex = true) = E :=
    Finset.filter_true_of_mem (fun x hx => by simp [is_event, hx])
  show (⟨Max.max m m,
    E.filter (fun ex => ¬ (BelowExSet.mk m E).is_event ex = true) ∪
      E.filter (fun ex => ¬ (BelowExSet.mk m E).is_event ex = true)⟩ :
        BelowExSet) = ⟨m, E⟩
  rw [hf, Finset.union_self, Nat.max_self]

theorem AboveExSet.join_comm_ae (s o : AboveExSet) : s.join o = o.join s := by
  unfold join
  rw [Nat.max_comm, Finset.union_comm]

theorem AboveExSet.join_idem_ae {s : AboveExSet} (h : Compressed s) :
    s.join s = s := by
  unfold join
  rw [Nat.max_self, Finset.union_self]
  exact try_compress_of_compressed h

theorem AboveRangeSet.join_comm_ar (s o : AboveRangeSet) :
    s.join o = o.join s := by
  show try_compress ⟨Max.max s.max o.max,
      Ranges.joinR s.ranges o.ranges (Max.max s.max o.max)⟩ =
    try_compress ⟨Max.max o.max s.max,
      Ranges.joinR o.ranges s.ranges (Max.max o.max s.max)⟩
  rw [Nat.max_comm, Ranges.joinR_comm]

/-- Self-join preserves the represented set even on `AboveRangeSet`
(where it fails to preserve the representation). -/
theorem AboveRangeSet.join_self_sem (s : AboveRangeSet) (x : ℕ) :
    (s.join s).is_event x = s.is_event x := by
  rw [AboveRangeSet.join_sem_ar, Bool.or_self]

namespace Clock

/-- Helper for stating the per-actor behaviour of `Clock::join`. -/
def joinOpt {E : Type} [EventSet E] : Option E → Option E → Option E
  | some v, some w => some (EventSet.join v w)
  | some v, none => some v
  | none, w => w

theorem join_sorted {E : Type} [EventSet E] {c : Clock E} (d : Clock E)
    (hc : AKeysSorted c) : AKeysSorted (Clock.join c d) := by
  induction d generalizing c with
  | nil => exact hc
  | cons p t ih => exact ih (aupsert_sorted hc)

theorem alookup_join {E : Type} [EventSet E] (d : Clock E) :
    ∀ (c : Clock E), AKeysSorted c → AKeysSorted d → ∀ a,
      alookup a (Clock.join c d) = joinOpt (alookup a c) (alookup a d) := by
  induction d with
  | nil =>
    intro c _ _ a
    show alookup a c = joinOpt (alookup a c) none
    rcases alookup a c with _ | v <;> rfl
  | cons p t ih =>
    intro c hc hd a
    have hd' := akeys_cons.1 hd
    show alookup a
      (Clock.join (aupsert p.1 (fun cur => EventSet.join cur p.2) p.2 c) t) = _
    rw [ih _ (aupsert_sorted hc) hd'.2 a]
    by_cases hap : a = p.1
    · subst hap
      rw [alookup_aupsert_self _ _ hc]
      have h1 : alookup p.1 (p :: t) = some p.2 := by simp [alookup]
      have h2 : alookup p.1 t = none := alookup_eq_none_of_lt hd'.1
      rw [h1, h2]
      rcases alookup p.1 c with _ | v <;> rfl
    · rw [alookup_aupsert_ne hap]
      have h1 : alookup a (p :: t) = alookup a t := by simp [alookup, hap]
      rw [h1]

/-- `Clock::join` is commutative on key-sorted clocks whenever the
underlying `join` is. -/
theorem clock_join_comm {E : Type} [EventSet E]
    (hcomm : ∀ v w : E, EventSet.join v w = EventSet.join w v)
    {c d : Clock E} (hc : AKeysSorted c) (hd : AKeysSorted d) :
    Clock.join c d = Clock.join d c := by
  refine assoc_ext (join_sorted d hc) (join_sorted c hd) (fun a => ?_)
  rw [alookup_join d c hc hd a, alookup_join c d hd hc a]
  rcases alookup a c with _ | v <;> rcases alookup a d with _ | w
  · rfl
  · rfl
  · rfl
  · exact congrArg some (hcomm v w)

/-- `Clock::join` is idempotent on key-sorted clocks whenever the
underlying `join` is. -/
theorem clock_join_idem {E : Type} [EventSet E]
    (hidem : ∀ v : E, EventSet.join v v = v)
    {c : Clock E} (hc : AKeysSorted c) : Clock.join c c = c := by
  refine assoc_ext (join_sorted c hc) hc (fun a => ?_)
  rw [alookup_join c c hc hc a]
  rcases alookup a c with _ | v
  · rfl
  · exact congrArg some (hidem v)

end Clock

theorem MaxSet.join_sem_ms (s o : MaxSet) (x : ℕ) :
    (s.join o).is_event x = (s.is_event x || o.is_event x) := by
  rw [Bool.eq_iff_iff, Bool.or_eq_true]
  simp only [is_event, join, decide_eq_true_eq]
  omega

/-- A plateau description pins down the largest `k` with `{1..k} ⊆ P`. -/
theorem frontier_char {f : ℕ} {P : ℕ → Prop}
    (h1 : ∀ i, 1 ≤ i → i ≤ f → P i) (h2 : ¬ P (f + 1)) (k : ℕ) :
    k ≤ f ↔ ∀ i, 1 ≤ i → i ≤ k → P i := by
  constructor
  · intro hk i hi1 hi2
    exact h1 i hi1 (by omega)
  · intro hall
    by_contra hc
    exact h2 (hall (f + 1) (by omega) (by omega))

theorem AboveExSet.from_event_range_inv (a b : ℕ) :
    Compressed (AboveExSet.from_event_range a b) := by
  unfold from_event_range add_event_range
  by_cases h1 : a ≤ new.max + 1 ∧ new.max < b
  · rw [if_pos h1]
    refine try_compress_inv ?_
    intro x hx
    simp [new] at hx
  · rw [if_neg h1]
    by_cases h2 : new.max + 1 < a
    · rw [if_pos h2]
      intro x hx
      show new.max + 2 ≤ x
      rcases Finset.mem_union.1 hx with hx | hx
      · simp [new] at hx
      · have h3 := (Finset.mem_Icc.1 hx).1
        show 0 + 2 ≤ x
        have h4 : (0 : ℕ) + 1 < a := h2
        omega
    · rw [if_neg h2]
      exact new_inv

/-- `AboveExSet` states reachable through the non-joining public
constructors and mutators. -/
inductive ReachAE : AboveExSet → Prop where
  | new : ReachAE AboveExSet.new
  | from_event (e : ℕ) : ReachAE (AboveExSet.from_event e)
  | from_event_range (a b : ℕ) : ReachAE (AboveExSet.from_event_range a b)
  | from_events (es : List ℕ) : ReachAE (AboveExSet.from_events es)
  | add_event (s : AboveExSet) (e : ℕ) : ReachAE s → ReachAE (s.add_event e).1

/-- `AboveRangeSet` states reachable through the singleton-producing
public operations. -/
inductive ReachAR : AboveRangeSet → Prop where
  | new : ReachAR AboveRangeSet.new
  | from_event (e : ℕ) : ReachAR (AboveRangeSet.from_event e)
  | from_events (es : List ℕ) : ReachAR (AboveRangeSet.from_events es)
  | add_event (s : AboveRangeSet) (e : ℕ) :
      ReachAR s → ReachAR (s.add_event e).1
  | join (s o : AboveRangeSet) : ReachAR s → ReachAR o → ReachAR (s.join o)

theorem reachAE_compressed {s : AboveExSet} (h : ReachAE s) :
    AboveExSet.Compressed s := by
  induction h with
  | new => exact AboveExSet.new_inv
  | from_event e => exact AboveExSet.add_event_inv AboveExSet.new_inv e
  | from_event_range a b => exact AboveExSet.from_event_range_inv a b
  | from_events es => exact AboveExSet.from_events_inv es
  | add_event s e _ ih => exact AboveExSet.add_event_inv ih e

theorem reachAR_good {s : AboveRangeSet} (h : ReachAR s) :
    AboveRangeSet.Singles s ∧ AboveRangeSet.Compressed s := by
  induction h with
  | new => exact ⟨AboveRangeSet.new_singles, AboveRangeSet.new_compressed⟩
  | from_event e =>
    exact ⟨AboveRangeSet.add_event_singles AboveRangeSet.new_singles e,
      AboveRangeSet.add_event_compressed AboveRangeSet.new_singles
        AboveRangeSet.new_compressed e⟩
  | from_events es => exact AboveRangeSet.from_events_good es
  | add_event s e _ ih =>
    exact ⟨AboveRangeSet.add_event_singles ih.1 e,
      AboveRangeSet.add_event_compressed ih.1 ih.2 e⟩
  | join s o _ _ _ _ => exact AboveRangeSet.join_good s o

/-! ## Claim theorems -/

/-- C2 (amended): after `a.join(&b)`, membership is the union of the two
memberships, on every state of all four variants; and the `BelowExSet`
exception set produced by `join` is exactly the exceptions of either
operand that are an event of *neither* operand (the claim's rule, with
"∨" in place of "∧", is refuted by `claim_C2_counterexample`). -/
theorem claim_C2_join_union :
    (∀ s o : MaxSet, ∀ x,
      (s.join o).is_event x = (s.is_event x || o.is_event x)) ∧
    (∀ s o : BelowExSet, ∀ x,
      (s.join o).is_event x = (s.is_event x || o.is_event x)) ∧
    (∀ s o : AboveExSet, ∀ x,
      (s.join o).is_event x = (s.is_event x || o.is_event x)) ∧
    (∀ s o : AboveRangeSet, ∀ x,
      (s.join o).is_event x = (s.is_event x || o.is_event x)) ∧
    (∀ s o : BelowExSet, (s.join o).exs =
      (s.exs ∪ o.exs).filter
        (fun x => s.is_event x = false ∧ o.is_event x = false)) :=
  ⟨MaxSet.join_sem_ms, BelowExSet.join_sem_be, AboveExSet.join_sem_ae,
    AboveRangeSet.join_sem_ar, BelowExSet.join_exs⟩

/-- C2 counterexample: with `a = from_events [1,3]`, `b = from_events
[1,2]`, the event `2` is in `a.exs ∪ b.exs` and is not an event of `a`,
so the claim's "∨" rule would put it in the joined exception set, yet
the code's join produces no exceptions. -/
theorem claim_C2_counterexample :
    ((BelowExSet.from_events [1, 3]).join
        (BelowExSet.from_events [1, 2])).exs = ∅ ∧
    2 ∈ (BelowExSet.from_events [1, 3]).exs ∪
        (BelowExSet.from_events [1, 2]).exs ∧
    ((BelowExSet.from_events [1, 3]).is_event 2 = false ∨
      (BelowExSet.from_events [1, 2]).is_event 2 = false) := by
  decide

/-- C4: `AboveRangeSet::add_event` returns `true` for an event that is
already in the set, whenever the event lies above `max + 1`: adding `2`
twice from fresh returns `true` both times, contradicting the documented
"returns true iff it is a new event". -/
theorem claim_C4_add_event_return_bug :
    (AboveRangeSet.from_event 2).is_event 2 = true ∧
      ((AboveRangeSet.from_event 2).add_event 2).2 = true := by
  decide

/-- C5 (amended): the compression invariant (no represented extra is
`≤ max + 1`) holds for every `AboveExSet` reachable through `new`,
`from_event`, `from_event_range`, `from_events` and `add_event`, and for
every `AboveRangeSet` reachable through `new`, `from_event`,
`from_events`, `add_event` and `join`.  It fails after `join` on
`AboveExSet` and after `add_event_range`/`from_event_range` on both
(see `claim_C5_counterexample`). -/
theorem claim_C5_compression :
    (∀ s : AboveExSet, ReachAE s → AboveExSet.Compressed s) ∧
    (∀ s : AboveRangeSet, ReachAR s → AboveRangeSet.Compressed s) :=
  ⟨fun _ h => reachAE_compressed h, fun _ h => (reachAR_good h).2⟩

theorem claim_C5_compression_witness :
    AboveExSet.Compressed (AboveExSet.from_events [1, 3]) ∧
    AboveRangeSet.Compressed (AboveRangeSet.from_events [1, 3]) :=
  ⟨claim_C5_compression.1 _ (ReachAE.from_events [1, 3]),
   claim_C5_compression.2 _ (ReachAR.from_events [1, 3])⟩

/-- C5 counterexample: four reachable states violating the claimed
invariant — `AboveExSet` after a `join`, `AboveExSet` and
`AboveRangeSet` after `add_event_range`, and `AboveRangeSet` after
`from_event_range` followed by two `add_event`s. -/
theorem claim_C5_counterexample :
    ¬ AboveExSet.Compressed
        ((AboveExSet.from_events [1, 2, 3, 4, 5]).join
          (AboveExSet.from_event 2)) ∧
    ¬ AboveExSet.Compressed
        ((AboveExSet.from_event 2).add_event_range 1 3).1 ∧
    ¬ AboveRangeSet.Compressed
        ((AboveRangeSet.from_event 3).add_event_range 1 4).1 ∧
    ¬ AboveRangeSet.Compressed
        (((AboveRangeSet.from_event_range 2 9).add_event 3).1.add_event
          1).1 := by
  decide

/-- C6 (amended): for the three exact variants, `from_events(es)` has
frontier equal to the largest `k` with `{1..k} ⊆ es` — stated as: `k` is
below the frontier iff every event in `1..k` is in `es`.  `MaxSet`
violates the claim (`claim_C6_counterexample`). -/
theorem claim_C6_frontier (es : List ℕ) (k : ℕ) :
    (k ≤ (BelowExSet.from_events es).frontier ↔
      ∀ i, 1 ≤ i → i ≤ k → i ∈ es) ∧
    (k ≤ (AboveExSet.from_events es).frontier ↔
      ∀ i, 1 ≤ i → i ≤ k → i ∈ es) ∧
    (k ≤ (AboveRangeSet.from_events es).frontier ↔
      ∀ i, 1 ≤ i → i ≤ k → i ∈ es) := by
  refine ⟨?_, ?_, ?_⟩
  · have hbe := BelowExSet.frontier_sem (BelowExSet.from_events_wf es)
    refine frontier_char ?_ ?_ k
    · intro i h1 h2
      have h3 := hbe.1 i h1 h2
      rw [BelowExSet.is_event_from_events es h1] at h3
      exact of_decide_eq_true h3
    · intro hc
      have h2 := hbe.2
      rw [BelowExSet.is_event_from_events es (by omega)] at h2
      simp at h2
      exact h2 hc
  · have hcp := AboveExSet.from_events_inv es
    refine frontier_char ?_ ?_ k
    · intro i h1 h2
      have h3 : (AboveExSet.from_events es).is_event i = true := by
        rw [AboveExSet.is_event_true_iff_ae]
        exact Or.inl h2
      rw [AboveExSet.from_events_sem_ae] at h3
      simp at h3
      rcases h3 with h3 | h3
      · omega
      · exact h3
    · intro hc
      have h4 := AboveExSet.is_event_succ_max_ae hcp
      rw [AboveExSet.from_events_sem_ae] at h4
      simp at h4
      exact h4 hc
  · have hcp := (AboveRangeSet.from_events_good es).2
    refine frontier_char ?_ ?_ k
    · intro i h1 h2
      have h3 : (AboveRangeSet.from_events es).is_event i = true := by
        rw [AboveRangeSet.is_event_true_iff_ar]
        exact Or.inl h2
      rw [AboveRangeSet.from_events_sem_ar] at h3
      simp at h3
      rcases h3 with h3 | h3
      · omega
      · exact h3
    · intro hc
      have h4 := AboveRangeSet.is_event_succ_max_ar hcp
      rw [AboveRangeSet.from_events_sem_ar] at h4
      simp at h4
      exact h4 hc

/-- C6 counterexample: `MaxSet::from_events([3])` has frontier `3`
although `1` is not among the added events, so the frontier is not the
largest `k` with `{1..k} ⊆ set(es)` (which is `0` here). -/
theorem claim_C6_counterexample :
    (MaxSet.from_events [3]).frontier = 3 ∧ ¬ (1 ∈ ([3] : List ℕ)) := by
  decide

/-- C8 (amended): for the three exact variants, the collected
`event_iter` of `from_events(es)` is strictly ascending (hence
duplicate-free) and contains exactly the nonzero elements of `es`.
`MaxSet` violates the claim (`claim_C8_counterexample`). -/
theorem claim_C8_event_iter (es : List ℕ) :
    ((BelowExSet.from_events es).event_iter.Sorted (· < ·) ∧
      ∀ x, x ∈ (BelowExSet.from_events es).event_iter ↔ 1 ≤ x ∧ x ∈ es) ∧
    ((AboveExSet.from_events es).event_iter.Sorted (· < ·) ∧
      ∀ x, x ∈ (AboveExSet.from_events es).event_iter ↔ 1 ≤ x ∧ x ∈ es) ∧
    ((AboveRangeSet.from_events es).event_iter.Sorted (· < ·) ∧
      ∀ x, x ∈ (AboveRangeSet.from_events es).event_iter ↔
        1 ≤ x ∧ x ∈ es) := by
  refine ⟨⟨BelowExSet.event_iter_sorted_be _, fun x => ?_⟩,
    ⟨AboveExSet.event_iter_sorted_ae (AboveExSet.from_events_inv es),
      fun x => ?_⟩,
    ⟨AboveRangeSet.event_iter_sorted_ar (AboveRangeSet.from_events_good es).1
      (AboveRangeSet.from_events_good es).2, fun x => ?_⟩⟩
  · rw [BelowExSet.event_iter_mem_be]
    constructor
    · rintro ⟨h1, h2, h3⟩
      have h4 : (BelowExSet.from_events es).is_event x = true :=
        BelowExSet.is_event_true_iff_be.2 ⟨h2, h3⟩
      rw [BelowExSet.is_event_from_events es h1] at h4
      exact ⟨h1, of_decide_eq_true h4⟩
    · rintro ⟨h1, h2⟩
      have h4 : (BelowExSet.from_events es).is_event x = true := by
        rw [BelowExSet.is_event_from_events es h1]
        exact decide_eq_true h2
      have h5 := BelowExSet.is_event_true_iff_be.1 h4
      exact ⟨h1, h5.1, h5.2⟩
  · rw [AboveExSet.event_iter_mem_ae (AboveExSet.from_events_inv es),
      AboveExSet.from_events_sem_ae]
    constructor
    · rintro ⟨h1, h2⟩
      simp at h2
      rcases h2 with h2 | h2
      · omega
      · exact ⟨h1, h2⟩
    · rintro ⟨h1, h2⟩
      exact ⟨h1, by simp [h2]⟩
  · rw [AboveRangeSet.event_iter_mem_ar (AboveRangeSet.from_events_good es).2,
      AboveRangeSet.from_events_sem_ar]
    constructor
    · rintro ⟨h1, h2⟩
      simp at h2
      rcases h2 with h2 | h2
      · omega
      · exact ⟨h1, h2⟩
    · rintro ⟨h1, h2⟩
      exact ⟨h1, by simp [h2]⟩

/-- C8 counterexample: `MaxSet::from_events([3])` iterates `[1, 2, 3]`,
not the sorted-unique `[3]` — the events `1` and `2` were never added. -/
theorem claim_C8_counterexample :
    (MaxSet.from_events [3]).event_iter = [1, 2, 3] ∧
      ¬ (2 ∈ ([3] : List ℕ)) := by
  decide

/-- C9 (amended): on the exact variants built by `from_events`,
`is_event(e)` for `e ≥ 1` is exactly membership in the added events; but
`is_event(0)` returns `true` — not `false` — on every state of every
variant (for `BelowExSet`, on every well-formed state), since `0 ≤ max`
always holds. -/
theorem claim_C9_is_event :
    (∀ s : MaxSet, s.is_event 0 = true) ∧
    (∀ s : BelowExSet, BelowExSet.WF s → s.is_event 0 = true) ∧
    (∀ s : AboveExSet, s.is_event 0 = true) ∧
    (∀ s : AboveRangeSet, s.is_event 0 = true) ∧
    (∀ es : List ℕ, ∀ x, 1 ≤ x →
      ((BelowExSet.from_events es).is_event x = true ↔ x ∈ es) ∧
      ((AboveExSet.from_events es).is_event x = true ↔ x ∈ es) ∧
      ((AboveRangeSet.from_events es).is_event x = true ↔ x ∈ es)) := by
  refine ⟨fun s => by simp [MaxSet.is_event], fun s h => ?_,
    AboveExSet.is_event_zero_ae, AboveRangeSet.is_event_zero_ar,
    fun es x hx => ⟨?_, ?_, ?_⟩⟩
  · exact BelowExSet.is_event_zero_be h
  · rw [BelowExSet.is_event_from_events es hx]
    simp
  · rw [AboveExSet.from_events_sem_ae]
    have h0 : (x == 0) = false := by simp; omega
    rw [h0]
    simp
  · rw [AboveRangeSet.from_events_sem_ar]
    have h0 : (x == 0) = false := by simp; omega
    rw [h0]
    simp

theorem claim_C9_witness :
    (BelowExSet.from' 3 [2]).is_event 0 = true ∧
      ((AboveExSet.from_events [2]).is_event 2 = true ↔
        2 ∈ ([2] : List ℕ)) :=
  ⟨claim_C9_is_event.2.1 _ (by decide),
   (claim_C9_is_event.2.2.2.2 [2] 2 (by decide)).2.1⟩

/-- C9 counterexample: already the freshly created empty `MaxSet`
answers `true` for event `0`, refuting "is_event(0) returns false on
every reachable set". -/
theorem claim_C9_counterexample : MaxSet.new.is_event 0 = true := by
  decide

/-- C7 (amended): `join` is commutative on every state of all four
variants, and on key-sorted clocks whenever the element `join` is
commutative; it is idempotent on every `MaxSet` and `BelowExSet`, on
every compressed `AboveExSet`, and on key-sorted clocks whenever the
element `join` is idempotent.  On `AboveRangeSet` self-join preserves
only the represented set — `a.join(a)` can re-encode a stored range as
singleton ranges, so it is not idempotent on the representation
(`claim_C7_counterexample`). -/
theorem claim_C7_join_algebra :
    (∀ s o : MaxSet, s.join o = o.join s) ∧
    (∀ s o : BelowExSet, s.join o = o.join s) ∧
    (∀ s o : AboveExSet, s.join o = o.join s) ∧
    (∀ s o : AboveRangeSet, s.join o = o.join s) ∧
    (∀ s : MaxSet, s.join s = s) ∧
    (∀ s : BelowExSet, s.join s = s) ∧
    (∀ s : AboveExSet, AboveExSet.Compressed s → s.join s = s) ∧
    (∀ s : AboveRangeSet, ∀ x,
      (s.join s).is_event x = s.is_event x) ∧
    (∀ (E : Type) [EventSet E],
      (∀ v w : E, EventSet.join v w = EventSet.join w v) →
      ∀ c d : Clock E, AKeysSorted c → AKeysSorted d →
        Clock.join c d = Clock.join d c) ∧
    (∀ (E : Type) [EventSet E],
      (∀ v : E, EventSet.join v v = v) →
      ∀ c : Clock E, AKeysSorted c → Clock.join c c = c) :=
  ⟨MaxSet.join_comm_ms, BelowExSet.join_comm_be, AboveExSet.join_comm_ae,
    AboveRangeSet.join_comm_ar, MaxSet.join_idem_ms, BelowExSet.join_idem_be,
    fun _ h => AboveExSet.join_idem_ae h, AboveRangeSet.join_self_sem,
    fun _ _ hcomm _ _ hc hd => Clock.clock_join_comm hcomm hc hd,
    fun _ _ hidem _ hc => Clock.clock_join_idem hidem hc⟩

theorem claim_C7_join_algebra_witness :
    (AboveExSet.from' 5 [8]).join (AboveExSet.from' 5 [8]) =
        AboveExSet.from' 5 [8] ∧
    Clock.join [(1, MaxSet.mk 3)] [(1, MaxSet.mk 3)] =
        [(1, MaxSet.mk 3)] :=
  ⟨claim_C7_join_algebra.2.2.2.2.2.2.1 _ (by decide),
   claim_C7_join_algebra.2.2.2.2.2.2.2.2.2 MaxSet
     (fun v => MaxSet.join_idem_ms v) _
     (List.pairwise_singleton _ _)⟩

/-- C7 counterexample: `AboveRangeSet::from_event_range(3,4)` stores the
range `3..=4`; joining it with (a clone of) itself re-encodes the range
as the two singleton ranges `3..=3`, `4..=4`, so the state is not left
equal to its previous value. -/
theorem claim_C7_counterexample :
    (AboveRangeSet.from_event_range 3 4).join
        (AboveRangeSet.from_event_range 3 4) ≠
      AboveRangeSet.from_event_range 3 4 := by
  decide

/-! ## C1: per-actor vote counting -/

namespace TClock

/-- Descending key order (as produced by `.iter().rev()` on the
`BTreeMap`). -/
def DescSorted (l : List (ℕ × (ℕ × ℕ))) : Prop :=
  l.Pairwise (fun p q => q.1 < p.1)

/-- Sum of the positive votes at keys `≥ e`. -/
def posGe (e : ℕ) (l : List (ℕ × (ℕ × ℕ))) : ℕ :=
  ((l.filter (fun p => decide (e ≤ p.1))).map (fun p => p.2.1)).sum

/-- Sum of the negative votes at key `e`. -/
def negAt (e : ℕ) (l : List (ℕ × (ℕ × ℕ))) : ℕ :=
  ((l.filter (fun p => decide (p.1 = e))).map (fun p => p.2.2)).sum

theorem posGe_nil (e : ℕ) : posGe e [] = 0 := rfl

theorem posGe_cons (e k : ℕ) (c : ℕ × ℕ) (t : List (ℕ × (ℕ × ℕ))) :
    posGe e ((k, c) :: t) = (if e ≤ k then c.1 else 0) + posGe e t := by
  by_cases h : e ≤ k <;> simp [posGe, h]

theorem posGe_append (e : ℕ) (l₁ l₂ : List (ℕ × (ℕ × ℕ))) :
    posGe e (l₁ ++ l₂) = posGe e l₁ + posGe e l₂ := by
  simp [posGe]

theorem posGe_mono {e e' : ℕ} (h : e ≤ e') (l : List (ℕ × (ℕ × ℕ))) :
    posGe e' l ≤ posGe e l := by
  induction l with
  | nil => simp [posGe]
  | cons p t ih =>
    rcases p with ⟨k, c⟩
    rw [posGe_cons, posGe_cons]
    by_cases h1 : e' ≤ k
    · rw [if_pos h1, if_pos (by omega)]
      omega
    · rw [if_neg h1]
      by_cases h2 : e ≤ k <;> [rw [if_pos h2]; rw [if_neg h2]] <;> omega

theorem posGe_eq_zero_of_lt {e : ℕ} {l : List (ℕ × (ℕ × ℕ))}
    (h : ∀ p ∈ l, p.1 < e) : posGe e l = 0 := by
  induction l with
  | nil => rfl
  | cons p t ih =>
    rcases p with ⟨k, c⟩
    rw [posGe_cons, if_neg]
    · rw [Nat.zero_add]
      exact ih (fun q hq => h q (List.mem_cons_of_mem _ hq))
    · have := h (k, c) (List.mem_cons_self _ _)
      omega

theorem posGe_eq_of_all_ge {e e' : ℕ} {l : List (ℕ × (ℕ × ℕ))}
    (hall : ∀ p ∈ l, e' ≤ p.1) (h : e ≤ e') : posGe e l = posGe e' l := by
  induction l with
  | nil => rfl
  | cons p t ih =>
    rcases p with ⟨k, c⟩
    have hk := hall (k, c) (List.mem_cons_self _ _)
    rw [posGe_cons, posGe_cons, if_pos (by omega), if_pos (by omega),
      ih (fun q hq => hall q (List.mem_cons_of_mem _ hq))]

theorem negAt_nil (e : ℕ) : negAt e [] = 0 := rfl

theorem negAt_cons (e k : ℕ) (c : ℕ × ℕ) (t : List (ℕ × (ℕ × ℕ))) :
    negAt e ((k, c) :: t) = (if k = e then c.2 else 0) + negAt e t := by
  by_cases h : k = e <;> simp [negAt, h]

theorem negAt_append (e : ℕ) (l₁ l₂ : List (ℕ × (ℕ × ℕ))) :
    negAt e (l₁ ++ l₂) = negAt e l₁ + negAt e l₂ := by
  simp [negAt]

theorem negAt_eq_zero {e : ℕ} {l : List (ℕ × (ℕ × ℕ))}
    (h : ∀ p ∈ l, p.1 ≠ e) : negAt e l = 0 := by
  induction l with
  | nil => rfl
  | cons p t ih =>
    rcases p with ⟨k, c⟩
    rw [negAt_cons, if_neg (h (k, c) (List.mem_cons_self _ _)), Nat.zero_add]
    exact ih (fun q hq => h q (List.mem_cons_of_mem _ hq))

/-- In a descending list, the negative count at a present key is that
entry's negative component. -/
theorem negAt_of_mem {l : List (ℕ × (ℕ × ℕ))} (hd : DescSorted l)
    {k : ℕ} {c : ℕ × ℕ} (h : (k, c) ∈ l) : negAt k l = c.2 := by
  induction l with
  | nil => simp at h
  | cons p t ih =>
    rcases p with ⟨k', c'⟩
    have hd' := List.pairwise_cons.1 hd
    rcases List.mem_cons.1 h with heq | hmem
    · obtain ⟨h1, h2⟩ := Prod.mk.injEq .. ▸ heq
      subst h1; subst h2
      rw [negAt_cons, if_pos rfl, negAt_eq_zero, Nat.add_zero]
      intro q hq
      have := hd'.1 q hq
      omega
    · have hk : k' ≠ k := by
        have := hd'.1 (k, c) hmem
        omega
      rw [negAt_cons, if_neg hk, ih hd'.2 hmem, Nat.zero_add]

/-- In a descending list, splitting the positive votes at a present
key. -/
theorem posGe_succ_of_mem {l : List (ℕ × (ℕ × ℕ))} (hd : DescSorted l)
    {k : ℕ} {c : ℕ × ℕ} (h : (k, c) ∈ l) :
    posGe k l = posGe (k + 1) l + c.1 := by
  induction l with
  | nil => simp at h
  | cons p t ih =>
    rcases p with ⟨k', c'⟩
    have hd' := List.pairwise_cons.1 hd
    rcases List.mem_cons.1 h with heq | hmem
    · obtain ⟨h1, h2⟩ := Prod.mk.injEq .. ▸ heq
      subst h1; subst h2
      rw [posGe_cons, posGe_cons, if_pos (le_refl _), if_neg (by omega)]
      have ha : posGe k t = 0 :=
        posGe_eq_zero_of_lt (fun q hq => hd'.1 q hq)
      have hb : posGe (k + 1) t = 0 :=
        posGe_eq_zero_of_lt (fun q hq => by have := hd'.1 q hq; omega)
      omega
    · have hk : k < k' := hd'.1 (k, c) hmem
      rw [posGe_cons, posGe_cons, if_pos (by omega), if_pos (by omega),
        ih hd'.2 hmem]
      omega

/-- If the skip phase exhausts the list, no suffix of the votes reaches
the threshold. -/
theorem skipAccum_nil (th : ℕ) :
    ∀ (l : List (ℕ × (ℕ × ℕ))) (t T : ℕ), DescSorted l → t < th →
      skipAccum th t l = (T, []) → ∀ e, t + posGe e l < th := by
  intro l
  induction l with
  | nil =>
    intro t T _ ht _ e
    rw [posGe_nil]
    omega
  | cons p r ih =>
    intro t T hd ht h e
    rcases p with ⟨k, c⟩
    simp only [skipAccum] at h
    have hd' := List.pairwise_cons.1 hd
    by_cases hcase : t + c.1 < th
    · rw [if_pos hcase] at h
      have h2 := ih (t + c.1) T hd'.2 hcase h e
      rw [posGe_cons]
      by_cases he : e ≤ k
      · rw [if_pos he]; omega
      · rw [if_neg he]; omega
    · rw [if_neg hcase] at h
      simp at h

/-- If the skip phase stops at `(k, c)`, the accumulated total is the
positive votes at keys `≥ k`, it reaches the threshold, the remainder is
the suffix from `k` on, and no key above `k` reaches the threshold. -/
theorem skipAccum_cons (th : ℕ) :
    ∀ (l : List (ℕ × (ℕ × ℕ))) (t T k : ℕ) (c : ℕ × ℕ)
      (r : List (ℕ × (ℕ × ℕ))), DescSorted l → t < th →
      skipAccum th t l = (T, (k, c) :: r) →
      T = t + posGe k l ∧ th ≤ T ∧
        (∃ pre, l = pre ++ (k, c) :: r ∧ ∀ p ∈ pre, k < p.1) ∧
        ∀ e, k < e → t + posGe e l < th := by
  intro l
  induction l with
  | nil =>
    intro t T k c r _ _ h
    simp [skipAccum] at h
  | cons p l' ih =>
    intro t T k c r hd ht h
    rcases p with ⟨k', c'⟩
    simp only [skipAccum] at h
    have hd' := List.pairwise_cons.1 hd
    by_cases hcase : t + c'.1 < th
    · rw [if_pos hcase] at h
      obtain ⟨h1, h2, ⟨pre, hpre, hkeys⟩, h4⟩ :=
        ih (t + c'.1) T k c r hd'.2 hcase h
      have hkmem : (k, c) ∈ l' := by
        rw [hpre]
        exact List.mem_append_right _ (List.mem_cons_self _ _)
      have hkk : k < k' := hd'.1 (k, c) hkmem
      refine ⟨?_, h2, ⟨(k', c') :: pre, by rw [hpre]; rfl, ?_⟩, ?_⟩
      · rw [posGe_cons, if_pos (by omega)]
        omega
      · intro p hp
        rcases List.mem_cons.1 hp with rfl | hp
        · exact hkk
        · exact hkeys p hp
      · intro e he
        rw [posGe_cons]
        by_cases he' : e ≤ k'
        · rw [if_pos he']
          have := h4 e he
          omega
        · rw [if_neg he']
          have h0 : posGe e l' = 0 :=
            posGe_eq_zero_of_lt
              (fun q hq => by have := hd'.1 q hq; omega)
          omega
    · rw [if_neg hcase] at h
      injection h with hT hrest
      injection hrest with hk hr
      injection hk with hk1 hk2
      subst hk1
      subst hk2
      subst hr
      subst hT
      have hz : posGe k' l' = 0 :=
        posGe_eq_zero_of_lt (fun q hq => hd'.1 q hq)
      refine ⟨?_, by omega, ⟨[], rfl, by simp⟩, ?_⟩
      · rw [posGe_cons, if_pos (le_refl _)]
        omega
      · intro e he
        rw [posGe_cons, if_neg (by omega)]
        have h0 : posGe e l' = 0 :=
          posGe_eq_zero_of_lt (fun q hq => by have := hd'.1 q hq; omega)
        omega

/-- Full specification of the candidate walk: it stops at the largest
`h ≤ cand` that passes the threshold after subtracting its negative
votes, every candidate in `(h, cand]` fails, and the remainder is the
suffix of keys `< h`. -/
theorem walk_spec (th : ℕ) :
    ∀ (r : List (ℕ × (ℕ × ℕ))) (t cand T h : ℕ)
      (rem : List (ℕ × (ℕ × ℕ))),
      DescSorted r → (∀ p ∈ r, p.1 ≤ cand) →
      (∀ p ∈ r, p.2.2 ≤ t + posGe (p.1 + 1) r) → th ≤ t →
      negAt 0 r = 0 →
      walk th t cand r = (T, h, rem) →
      h ≤ cand ∧ T = t + posGe h r ∧ th + negAt h r ≤ T ∧
      (∃ pre, r = pre ++ rem ∧ ∀ p ∈ pre, h ≤ p.1) ∧
      (∀ p ∈ rem, p.1 < h) ∧
      (∀ e, h < e → e ≤ cand → ¬ (th + negAt e r ≤ t + posGe e r)) := by
  intro r
  induction r with
  | nil =>
    intro t cand T h rem _ _ _ hth _ hw
    simp only [walk] at hw
    injection hw with h1 h2
    injection h2 with h2 h3
    subst h1
    subst h2
    subst h3
    refine ⟨le_refl _, by simp [posGe_nil], by rw [negAt_nil]; omega,
      ⟨[], rfl, by simp⟩, by simp, ?_⟩
    intro e he1 he2
    omega
  | cons p tail ih =>
    intro t cand T h rem hd hbound hW hth hz0 hw
    rcases p with ⟨k, c⟩
    have hd' := List.pairwise_cons.1 hd
    have hkc : k ≤ cand := hbound (k, c) (List.mem_cons_self _ _)
    have hneg_head : c.2 ≤ t := by
      have h0 : c.2 ≤ t + posGe (k + 1) ((k, c) :: tail) :=
        hW (k, c) (List.mem_cons_self _ _)
      have hz : posGe (k + 1) ((k, c) :: tail) = 0 :=
        posGe_eq_zero_of_lt (by
          intro q hq
          rcases List.mem_cons.1 hq with rfl | hq
          · omega
          · have := hd'.1 q hq
            omega)
      rw [hz] at h0
      omega
    have hz0t : negAt 0 tail = 0 := by
      rw [negAt_cons] at hz0
      omega
    simp only [walk] at hw
    by_cases hkcand : k = cand
    · rw [if_pos hkcand] at hw
      have hu : u64sub (t + c.1) c.2 = t + c.1 - c.2 := by
        unfold u64sub
        rw [if_pos (by omega)]
      by_cases hpass : th ≤ u64sub (t + c.1) c.2
      · rw [if_pos hpass] at hw
        injection hw with h1 h2
        injection h2 with h2 h3
        subst h1
        subst h2
        subst h3
        subst hkcand
        have hposz : posGe k tail = 0 :=
          posGe_eq_zero_of_lt (fun q hq => hd'.1 q hq)
        have hnegz : negAt k tail = 0 :=
          negAt_eq_zero (fun q hq => by have := hd'.1 q hq; omega)
        rw [hu] at hpass
        refine ⟨le_refl _, ?_, ?_, ⟨[(k, c)], rfl, by simp⟩,
          fun q hq => hd'.1 q hq, ?_⟩
        · rw [posGe_cons, if_pos (le_refl _)]
          omega
        · rw [negAt_cons, if_pos rfl]
          omega
        · intro e he1 he2
          omega
      · rw [if_neg hpass] at hw
        subst hkcand
        have hk1 : 1 ≤ k := by
          by_contra hk0
          have hk00 : k = 0 := by omega
          have hc20 : c.2 = 0 := by
            rw [negAt_cons, if_pos hk00] at hz0
            omega
          rw [hu] at hpass
          omega
        have hWt : ∀ p ∈ tail, p.2.2 ≤ t + c.1 + posGe (p.1 + 1) tail := by
          intro q hq
          have h1 := hW q (List.mem_cons_of_mem _ hq)
          have h2 : q.1 + 1 ≤ k := by
            have := hd'.1 q hq
            omega
          rw [posGe_cons, if_pos h2] at h1
          omega
        obtain ⟨hh1, hh2, hh3, ⟨pre, hpre, hprekeys⟩, hh5, hh6⟩ :=
          ih (t + c.1) (k - 1) T h rem hd'.2
            (fun q hq => by have := hd'.1 q hq; omega) hWt (by omega)
            hz0t hw
        have hhk : h < k := by omega
        refine ⟨by omega, ?_, ?_, ⟨(k, c) :: pre, by rw [hpre]; rfl, ?_⟩,
          hh5, ?_⟩
        · rw [posGe_cons, if_pos (by omega)]
          omega
        · rw [negAt_cons, if_neg (by omega)]
          omega
        · intro q hq
          rcases List.mem_cons.1 hq with rfl | hq
          · show h ≤ k
            omega
          · exact hprekeys q hq
        · intro e he1 he2
          rw [negAt_cons, posGe_cons]
          by_cases hek : e = k
          · subst hek
            rw [if_pos rfl, if_pos (le_refl _)]
            have hposz : posGe e tail = 0 :=
              posGe_eq_zero_of_lt (fun q hq => hd'.1 q hq)
            rw [hu] at hpass
            omega
          · rw [if_neg (by omega), if_pos (by omega)]
            have := hh6 e he1 (by omega)
            omega
    · rw [if_neg hkcand] at hw
      injection hw with h1 h2
      injection h2 with h2 h3
      subst h1
      subst h2
      subst h3
      have hallk : ∀ q ∈ (k, c) :: tail, q.1 < cand := by
        intro q hq
        rcases List.mem_cons.1 hq with rfl | hq
        · omega
        · have := hd'.1 q hq
          omega
      have hposz : posGe cand ((k, c) :: tail) = 0 :=
        posGe_eq_zero_of_lt hallk
      have hnegz : negAt cand ((k, c) :: tail) = 0 :=
        negAt_eq_zero (fun q hq => by have := hallk q hq; omega)
      refine ⟨le_refl _, by omega, by omega, ⟨[], rfl, by simp⟩,
        hallk, ?_⟩
      intro e he1 he2
      omega

/-- Specification of the exception phase: it emits exactly the
remaining keys whose suffix of positive votes, after subtracting the
key's negative votes, misses the threshold. -/
theorem exsPhase_spec (th : ℕ) :
    ∀ (r : List (ℕ × (ℕ × ℕ))) (t : ℕ),
      DescSorted r →
      (∀ p ∈ r, p.2.2 ≤ t + posGe (p.1 + 1) r) →
      ∀ e, e ∈ exsPhase th t r ↔
        ∃ c, (e, c) ∈ r ∧ t + posGe e r < th + c.2 := by
  intro r
  induction r with
  | nil =>
    intro t _ _ e
    simp [exsPhase]
  | cons p tail ih =>
    intro t hd hW e
    rcases p with ⟨k, c⟩
    have hd' := List.pairwise_cons.1 hd
    have hneg_head : c.2 ≤ t := by
      have h0 : c.2 ≤ t + posGe (k + 1) ((k, c) :: tail) :=
        hW (k, c) (List.mem_cons_self _ _)
      have hz : posGe (k + 1) ((k, c) :: tail) = 0 :=
        posGe_eq_zero_of_lt (by
          intro q hq
          rcases List.mem_cons.1 hq with rfl | hq
          · omega
          · have := hd'.1 q hq
            omega)
      rw [hz] at h0
      omega
    have hWt : ∀ p ∈ tail, p.2.2 ≤ t + c.1 + posGe (p.1 + 1) tail := by
      intro q hq
      have h1 := hW q (List.mem_cons_of_mem _ hq)
      have h2 : q.1 + 1 ≤ k := by
        have := hd'.1 q hq
        omega
      rw [posGe_cons, if_pos h2] at h1
      omega
    have hih := ih (t + c.1) hd'.2 hWt
    have hu : u64sub (t + c.1) c.2 = t + c.1 - c.2 := by
      unfold u64sub
      rw [if_pos (by omega)]
    have hcond : (decide (t + c.1 < c.2) ||
        decide (u64sub (t + c.1) c.2 < th)) = true ↔
        t + c.1 < th + c.2 := by
      rw [Bool.or_eq_true, decide_eq_true_eq, decide_eq_true_eq, hu]
      omega
    have hposz : posGe k tail = 0 :=
      posGe_eq_zero_of_lt (fun q hq => hd'.1 q hq)
    simp only [exsPhase]
    by_cases hc : (decide (t + c.1 < c.2) ||
        decide (u64sub (t + c.1) c.2 < th)) = true
    · rw [if_pos hc]
      rw [hcond] at hc
      constructor
      · intro hmem
        rcases List.mem_cons.1 hmem with rfl | hmem
        · refine ⟨c, List.mem_cons_self _ _, ?_⟩
          rw [posGe_cons, if_pos (le_refl _)]
          omega
        · obtain ⟨c', hc', hlt⟩ := (hih e).1 hmem
          have hek : e < k := hd'.1 (e, c') hc'
          refine ⟨c', List.mem_cons_of_mem _ hc', ?_⟩
          rw [posGe_cons, if_pos (by omega)]
          omega
      · rintro ⟨c', hc', hlt⟩
        rcases List.mem_cons.1 hc' with heq | hc'
        · obtain ⟨h1, h2⟩ := Prod.mk.injEq .. ▸ heq
          subst h1
          exact List.mem_cons_self _ _
        · have hek : e < k := hd'.1 (e, c') hc'
          refine List.mem_cons_of_mem _ ((hih e).2 ⟨c', hc', ?_⟩)
          rw [posGe_cons, if_pos (by omega)] at hlt
          omega
    · rw [if_neg hc]
      rw [hcond] at hc
      rw [hih e]
      constructor
      · rintro ⟨c', hc', hlt⟩
        have hek : e < k := hd'.1 (e, c') hc'
        refine ⟨c', List.mem_cons_of_mem _ hc', ?_⟩
        rw [posGe_cons, if_pos (by omega)]
        omega
      · rintro ⟨c', hc', hlt⟩
        rcases List.mem_cons.1 hc' with heq | hc'
        · obtain ⟨h1, h2⟩ := Prod.mk.injEq .. ▸ heq
          subst h1
          subst h2
          rw [posGe_cons, if_pos (le_refl _)] at hlt
          omega
        · have hek : e < k := hd'.1 (e, c') hc'
          refine ⟨c', hc', ?_⟩
          rw [posGe_cons, if_pos (by omega)] at hlt
          omega

/-- Assembling a per-actor result `from'(hmax, exsPhase th T rem)`:
under the listed bookkeeping facts relating the remainder to the full
descending list `L`, membership matches the threshold condition. -/
theorem exsRegion_sem (th : ℕ) (hmax T : ℕ) (rem L : List (ℕ × (ℕ × ℕ)))
    (hdrem : DescSorted rem)
    (hremkeys : ∀ p ∈ rem, p.1 < hmax)
    (hWrem : ∀ p ∈ rem, p.2.2 ≤ T + posGe (p.1 + 1) rem)
    (hthT : th ≤ T)
    (hsplitP : ∀ e, e ≤ hmax → posGe e L = T + posGe e rem)
    (hsplitN : ∀ e, e < hmax → negAt e L = negAt e rem)
    (hhit : th + negAt hmax L ≤ posGe hmax L)
    (hmiss : ∀ e, hmax < e → ¬ (th + negAt e L ≤ posGe e L)) :
    ∀ e, 1 ≤ e →
      ((BelowExSet.from' hmax (exsPhase th T rem)).is_event e = true ↔
        th + negAt e L ≤ posGe e L) := by
  intro e he
  have hexs := exsPhase_spec th rem T hdrem hWrem e
  rw [show BelowExSet.from' hmax (exsPhase th T rem) =
    ⟨hmax, (exsPhase th T rem).toFinset⟩ from rfl]
  rw [BelowExSet.is_event_true_iff_be]
  simp only [List.mem_toFinset]
  rcases Nat.lt_trichotomy e hmax with hcmp | hcmp | hcmp
  · constructor
    · rintro ⟨_, hnotex⟩
      rw [hexs] at hnotex
      by_cases hkey : ∃ c, (e, c) ∈ rem
      · obtain ⟨c, hc⟩ := hkey
        have hneg : negAt e rem = c.2 := negAt_of_mem hdrem hc
        have h1 : ¬ (T + posGe e rem < th + c.2) := fun hlt =>
          hnotex ⟨c, hc, hlt⟩
        rw [hsplitP e (by omega), hsplitN e hcmp, hneg]
        omega
      · have hneg : negAt e rem = 0 :=
          negAt_eq_zero (by
            intro q hq hq1
            exact hkey ⟨q.2, by rw [← hq1]; exact hq⟩)
        rw [hsplitP e (by omega), hsplitN e hcmp, hneg]
        have := posGe_mono (Nat.zero_le e) rem
        omega
    · intro hsem
      refine ⟨by omega, ?_⟩
      rw [hexs]
      rintro ⟨c, hc, hlt⟩
      have hneg : negAt e rem = c.2 := negAt_of_mem hdrem hc
      rw [hsplitP e (by omega), hsplitN e hcmp, hneg] at hsem
      omega
  · subst hcmp
    constructor
    · intro _
      exact hhit
    · intro _
      refine ⟨le_refl _, ?_⟩
      rw [hexs]
      rintro ⟨c, hc, _⟩
      have := hremkeys (e, c) hc
      omega
  · constructor
    · rintro ⟨h1, _⟩
      omega
    · intro hsem
      exact absurd hsem (hmiss e hcmp)

/-- Correctness of the per-actor body of the `BelowExSet`
threshold-union: an event is in the result iff the positive votes at
keys `≥ e`, reduced by the negative votes at `e`, reach the
threshold. -/
theorem beActor_sem (th : ℕ) (hth : 1 ≤ th) (L : List (ℕ × (ℕ × ℕ)))
    (hd : DescSorted L)
    (hW : ∀ p ∈ L, p.2.2 ≤ posGe (p.1 + 1) L)
    (hz0 : negAt 0 L = 0) :
    ∀ e, 1 ≤ e →
      ((beActor th L).is_event e = true ↔ th + negAt e L ≤ posGe e L) := by
  intro e he
  rcases hs : skipAccum th 0 L with ⟨T, rem⟩
  cases rem with
  | nil =>
    have hbe : beActor th L = BelowExSet.from' 0 (exsPhase th T []) := by
      show (match (skipAccum th 0 L).2 with
        | [] => BelowExSet.from' 0 (exsPhase th (skipAccum th 0 L).1 [])
        | (k, c) :: rest =>
          if th ≤ u64sub (skipAccum th 0 L).1 c.2 then
            BelowExSet.from' k (exsPhase th (skipAccum th 0 L).1 rest)
          else
            let w := walk th (skipAccum th 0 L).1 (k - 1) rest
            BelowExSet.from' w.2.1 (exsPhase th w.1 w.2.2)) = _
      simp only [hs]
    rw [hbe]
    have hlow := skipAccum_nil th L 0 T hd (by omega) hs
    rw [show BelowExSet.from' 0 (exsPhase th T []) =
      ⟨0, (exsPhase th T []).toFinset⟩ from rfl]
    rw [BelowExSet.is_event_true_iff_be]
    constructor
    · rintro ⟨h1, _⟩
      have h2 : e ≤ 0 := h1
      omega
    · intro hsem
      exact absurd hsem (by have := hlow e; omega)
  | cons p rest =>
    rcases p with ⟨k, c⟩
    have hbe : beActor th L =
        (if th ≤ u64sub T c.2 then BelowExSet.from' k (exsPhase th T rest)
         else
           BelowExSet.from' (walk th T (k - 1) rest).2.1
             (exsPhase th (walk th T (k - 1) rest).1
               (walk th T (k - 1) rest).2.2)) := by
      show (match (skipAccum th 0 L).2 with
        | [] => BelowExSet.from' 0 (exsPhase th (skipAccum th 0 L).1 [])
        | (k, c) :: rest =>
          if th ≤ u64sub (skipAccum th 0 L).1 c.2 then
            BelowExSet.from' k (exsPhase th (skipAccum th 0 L).1 rest)
          else
            let w := walk th (skipAccum th 0 L).1 (k - 1) rest
            BelowExSet.from' w.2.1 (exsPhase th w.1 w.2.2)) = _
      simp only [hs]
    rw [hbe]
    obtain ⟨hT, hthT, ⟨pre, hpre, hprekeys⟩, hfail⟩ :=
      skipAccum_cons th L 0 T k c rest hd (by omega) hs
    have hkmem : (k, c) ∈ L := by
      rw [hpre]
      exact List.mem_append_right _ (List.mem_cons_self _ _)
    have hdsub : DescSorted ((k, c) :: rest) := by
      rw [hpre] at hd
      exact hd.sublist (List.sublist_append_right _ _)
    have hdrest : DescSorted rest := (List.pairwise_cons.1 hdsub).2
    have hrestkeys : ∀ p ∈ rest, p.1 < k :=
      (List.pairwise_cons.1 hdsub).1
    have hnegk : negAt k L = c.2 := negAt_of_mem hd hkmem
    have hWk : c.2 ≤ posGe (k + 1) L := by
      have := hW (k, c) hkmem
      exact this
    have hposk : posGe k L = posGe (k + 1) L + c.1 := posGe_succ_of_mem hd hkmem
    have hc2T : c.2 ≤ T := by
      have := posGe_mono (Nat.le_succ k) L
      omega
    have hu : u64sub T c.2 = T - c.2 := by
      unfold u64sub
      rw [if_pos hc2T]
    -- splitting the global votes at the stop key
    have hsplitP : ∀ x, x ≤ k → posGe x L = T + posGe x rest := by
      intro x hx
      rw [hpre, posGe_append, posGe_cons, if_pos hx]
      have h1 : posGe x pre = posGe k pre :=
        posGe_eq_of_all_ge (fun q hq => by
          have := hprekeys q hq; omega) hx
      have h2 : posGe k L = posGe k pre + c.1 := by
        rw [hpre, posGe_append, posGe_cons, if_pos (le_refl k)]
        have h3 : posGe k rest = 0 :=
          posGe_eq_zero_of_lt hrestkeys
        omega
      omega
    have hsplitN : ∀ x, x < k → negAt x L = negAt x rest := by
      intro x hx
      rw [hpre, negAt_append, negAt_cons, if_neg (by omega)]
      have h1 : negAt x pre = 0 :=
        negAt_eq_zero (fun q hq => by have := hprekeys q hq; omega)
      omega
    have hWrest : ∀ p ∈ rest, p.2.2 ≤ T + posGe (p.1 + 1) rest := by
      intro q hq
      have h3 : q ∈ L := by
        rw [hpre]
        exact List.mem_append_right _ (List.mem_cons_of_mem _ hq)
      have h1 := hW q h3
      have h2 : q.1 + 1 ≤ k := by
        have := hrestkeys q hq
        omega
      rw [hsplitP (q.1 + 1) h2] at h1
      exact h1
    by_cases hguard : th ≤ u64sub T c.2
    · rw [if_pos hguard]
      rw [hu] at hguard
      refine exsRegion_sem th k T rest L hdrest hrestkeys hWrest hthT
        hsplitP hsplitN ?_ ?_ e he
      · rw [hnegk]
        have := hsplitP k (le_refl k)
        have h3 : posGe k rest = 0 := posGe_eq_zero_of_lt hrestkeys
        omega
      · intro x hx
        have := hfail x hx
        omega
    · rw [if_neg hguard]
      rw [hu] at hguard
      have hz0rest : negAt 0 rest = 0 := by
        rw [hpre, negAt_append, negAt_cons] at hz0
        omega
      have hk1 : 1 ≤ k := by
        by_contra hk0
        have hk00 : k = 0 := by omega
        subst hk00
        have : c.2 = 0 := by
          rw [hpre, negAt_append, negAt_cons, if_pos rfl] at hz0
          omega
        omega
      rcases hw : walk th T (k - 1) rest with ⟨Tw, hmax, remw⟩
      obtain ⟨hw1, hw2, hw3, ⟨pre2, hpre2, hpre2keys⟩, hw5, hw6⟩ :=
        walk_spec th rest T (k - 1) Tw hmax remw hdrest
          (fun q hq => by have := hrestkeys q hq; omega) hWrest hthT
          hz0rest hw
      show (BelowExSet.from' hmax (exsPhase th Tw remw)).is_event e =
        true ↔ _
      -- second-level split: votes of `rest` at and below `hmax`
      have hsplitP2 : ∀ x, x ≤ hmax → posGe x rest =
          posGe hmax rest + posGe x remw := by
        intro x hx
        rw [hpre2, posGe_append, posGe_append]
        have h1 : posGe x pre2 = posGe hmax pre2 :=
          posGe_eq_of_all_ge hpre2keys hx
        have h2 : posGe hmax remw = 0 :=
          posGe_eq_zero_of_lt hw5
        omega
      have hsplitN2 : ∀ x, x < hmax → negAt x rest = negAt x remw := by
        intro x hx
        rw [hpre2, negAt_append]
        have h1 : negAt x pre2 = 0 :=
          negAt_eq_zero (fun q hq => by have := hpre2keys q hq; omega)
        omega
      have hdremw : DescSorted remw := by
        rw [hpre2] at hdrest
        exact hdrest.sublist (List.sublist_append_right _ _)
      have hTw : Tw = T + posGe hmax rest := hw2
      refine exsRegion_sem th hmax Tw remw L hdremw hw5 ?_ (by omega)
        ?_ ?_ ?_ ?_ e he
      · intro q hq
        have h3 : q ∈ rest := by
          rw [hpre2]
          exact List.mem_append_right _ hq
        have h1 := hWrest q h3
        have h2 : q.1 + 1 ≤ hmax := by
          have := hw5 q hq
          omega
        rw [hsplitP2 (q.1 + 1) h2] at h1
        rw [hTw]
        omega
      · intro x hx
        rw [hsplitP x (by omega), hsplitP2 x hx, hTw]
        omega
      · intro x hx
        rw [hsplitN x (by omega), hsplitN2 x hx]
      · rw [hsplitN hmax (by omega), hsplitP hmax (by omega)]
        have h3 : posGe hmax rest = posGe hmax rest + posGe hmax remw := by
          have h2 : posGe hmax remw = 0 := posGe_eq_zero_of_lt hw5
          omega
        omega
      · intro x hx
        by_cases hxk : k < x
        · have := hfail x hxk
          omega
        · by_cases hxkk : x = k
          · subst hxkk
            rw [hnegk]
            have := hsplitP x (le_refl x)
            have h3 : posGe x rest = 0 := posGe_eq_zero_of_lt hrestkeys
            omega
          · have hxle : x ≤ k - 1 := by omega
            have h1 := hw6 x hx hxle
            rw [hsplitP x (by omega), hsplitN x (by omega)]
            exact h1

/-! ## Bridging the multiset to the added clocks -/

/-- The multiset stored for an actor (empty when absent). -/
def mOf (o : Option MSet) : MSet := o.getD []

theorem posGe_reverse (e : ℕ) (l : List (ℕ × (ℕ × ℕ))) :
    posGe e l.reverse = posGe e l := by
  unfold posGe
  rw [List.filter_reverse, List.map_reverse, List.sum_reverse]

theorem negAt_reverse (e : ℕ) (l : List (ℕ × (ℕ × ℕ))) :
    negAt e l.reverse = negAt e l := by
  unfold negAt
  rw [List.filter_reverse, List.map_reverse, List.sum_reverse]

theorem descSorted_reverse {m : MSet} (h : AKeysSorted m) :
    DescSorted m.reverse :=
  List.pairwise_reverse.2 h

theorem posGe_msetAddElem (e : ℕ) (m : MSet) (j : ℕ) (c : ℕ × ℕ) :
    posGe e (msetAddElem m j c) =
      posGe e m + (if e ≤ j then c.1 else 0) := by
  unfold msetAddElem
  induction m with
  | nil =>
    show posGe e [(j, (0 + c.1, 0 + c.2))] = posGe e [] + _
    rw [posGe_cons, posGe_nil]
    by_cases h : e ≤ j <;> simp [h]
  | cons p rest ih =>
    rcases Nat.lt_trichotomy j p.1 with h1 | h1 | h1
    · rw [aupsert_head_lt h1, posGe_cons]
      show (if e ≤ j then (0 + c.1, 0 + c.2).1 else 0) + posGe e (p :: rest)
        = _
      by_cases h : e ≤ j <;> simp [h] <;> omega
    · rw [aupsert_head_eq h1, posGe_cons, posGe_cons, h1]
      by_cases h : e ≤ p.1 <;> simp [h] <;> omega
    · rw [aupsert_head_gt h1]
      rcases p with ⟨k, d⟩
      rw [posGe_cons, posGe_cons, ih]
      omega

theorem negAt_msetAddElem (e : ℕ) (m : MSet) (j : ℕ) (c : ℕ × ℕ) :
    negAt e (msetAddElem m j c) =
      negAt e m + (if j = e then c.2 else 0) := by
  unfold msetAddElem
  induction m with
  | nil =>
    show negAt e [(j, (0 + c.1, 0 + c.2))] = negAt e [] + _
    rw [negAt_cons, negAt_nil]
    by_cases h : j = e <;> simp [h]
  | cons p rest ih =>
    rcases Nat.lt_trichotomy j p.1 with h1 | h1 | h1
    · rw [aupsert_head_lt h1, negAt_cons]
      show (if j = e then (0 + c.1, 0 + c.2).2 else 0) + negAt e (p :: rest)
        = _
      by_cases h : j = e <;> simp [h] <;> omega
    · rw [aupsert_head_eq h1, negAt_cons, negAt_cons, h1]
      by_cases h : p.1 = e <;> simp [h] <;> omega
    · rw [aupsert_head_gt h1]
      rcases p with ⟨k, d⟩
      rw [negAt_cons, negAt_cons, ih]
      omega

theorem msetAddElem_sorted {m : MSet} (h : AKeysSorted m) (j : ℕ)
    (c : ℕ × ℕ) : AKeysSorted (msetAddElem m j c) :=
  aupsert_sorted h

theorem posGe_msetAdd (e : ℕ) (l : List (ℕ × (ℕ × ℕ))) :
    ∀ m : MSet, posGe e (msetAdd m l) = posGe e m + posGe e l := by
  induction l with
  | nil =>
    intro m
    rw [posGe_nil]
    rfl
  | cons p l' ih =>
    intro m
    rcases p with ⟨j, c⟩
    show posGe e (msetAdd (msetAddElem m j c) l') = _
    rw [ih, posGe_msetAddElem, posGe_cons]
    omega

theorem negAt_msetAdd (e : ℕ) (l : List (ℕ × (ℕ × ℕ))) :
    ∀ m : MSet, negAt e (msetAdd m l) = negAt e m + negAt e l := by
  induction l with
  | nil =>
    intro m
    rw [negAt_nil]
    rfl
  | cons p l' ih =>
    intro m
    rcases p with ⟨j, c⟩
    show negAt e (msetAdd (msetAddElem m j c) l') = _
    rw [ih, negAt_msetAddElem, negAt_cons]
    omega

theorem msetAdd_sorted (l : List (ℕ × (ℕ × ℕ))) :
    ∀ {m : MSet}, AKeysSorted m → AKeysSorted (msetAdd m l) := by
  induction l with
  | nil => intro m h; exact h
  | cons p l' ih =>
    intro m h
    exact ih (msetAddElem_sorted h p.1 p.2)

/-- The positive contribution of one event set: one vote at every event
up to `events().0`. -/
theorem posGe_event_count {E : Type} [EventSet E] (v : E) (e : ℕ) :
    posGe e (event_count v) =
      if e ≤ (EventSet.events v).1 then 1 else 0 := by
  unfold event_count
  rw [posGe_cons]
  have hz : ∀ xs : List ℕ,
      posGe e (xs.map (fun x => (x, (0, 1)))) = 0 := by
    intro xs
    induction xs with
    | nil => rfl
    | cons x t ih =>
      rw [List.map_cons, posGe_cons, ih]
      by_cases h : e ≤ x <;> simp [h]
  rw [hz]
  by_cases h : e ≤ (EventSet.events v).1 <;> simp [h]

/-- One negative vote at each element of a duplicate-free exception
list. -/
theorem negAt_map_exs (e : ℕ) :
    ∀ (xs : List ℕ), xs.Nodup →
      negAt e (xs.map (fun x => (x, (0, 1)))) = if e ∈ xs then 1 else 0 := by
  intro xs
  induction xs with
  | nil =>
    intro _
    simp [negAt_nil]
  | cons x t ih =>
    intro hnd
    rcases List.nodup_cons.1 hnd with ⟨hx, ht⟩
    rw [List.map_cons, negAt_cons]
    by_cases h : x = e
    · subst h
      rw [if_pos rfl, if_pos (List.mem_cons_self _ _)]
      have hz : negAt x (t.map (fun y => (y, (0, 1)))) = 0 := by
        refine negAt_eq_zero ?_
        intro q hq
        obtain ⟨y, hy, rfl⟩ := List.mem_map.1 hq
        have hy' : y ≠ x := fun hyx => hx (hyx ▸ hy)
        exact fun hc => hy' hc
      rw [hz]
    · rw [if_neg h, ih ht, Nat.zero_add]
      by_cases hmem : e ∈ t
      · rw [if_pos hmem, if_pos (List.mem_cons_of_mem x hmem)]
      · have hne : e ∉ x :: t := by
          rw [List.mem_cons]
          rintro (rfl | hc)
          · exact h rfl
          · exact hmem hc
        rw [if_neg hmem, if_neg hne]

/-- The negative contribution of one event set: one vote at each
exception (assuming the exception list has no duplicates). -/
theorem negAt_event_count {E : Type} [EventSet E] (v : E) (e : ℕ)
    (hnd : (EventSet.events v).2.Nodup) :
    negAt e (event_count v) =
      if e ∈ (EventSet.events v).2 then 1 else 0 := by
  show negAt e (((EventSet.events v).1, ((1 : ℕ), (0 : ℕ))) ::
    (EventSet.events v).2.map (fun x => (x, (0, 1)))) = _
  rw [negAt_cons]
  have h0 : (if (EventSet.events v).1 = e then ((1 : ℕ), (0 : ℕ)).2
      else 0) = 0 := by
    by_cases h : (EventSet.events v).1 = e <;> simp [h]
  rw [h0, Nat.zero_add, negAt_map_exs e _ hnd]

/-- Values in an upserted association list: either an old pair or the
updated/inserted value at the upserted key. -/
theorem aupsert_value_of_mem {V : Type} {k : ℕ} {f : V → V} {d : V}
    {l : List (ℕ × V)} (hs : AKeysSorted l) {q : ℕ × V}
    (hq : q ∈ aupsert k f d l) :
    q ∈ l ∨ q.2 = (match alookup k l with | some v => f v | none => d) := by
  rcases mem_aupsert hq with h | h
  · right
    have h1 := alookup_of_mem (aupsert_sorted hs) hq
    rw [h] at h1
    have h2 := alookup_aupsert_self f d hs (k := k)
    rw [h1] at h2
    exact Option.some.inj h2
  · left
    exact h

/-- One `TClock::add`: sortedness and value-sortedness are preserved and
the per-actor multiset is updated by that clock's entry (if any). -/
theorem tclock_add_facts {E : Type} [EventSet E] (c : Clock E) :
    ∀ (t : TClock), AKeysSorted t → (∀ p ∈ t, AKeysSorted p.2) →
      AKeysSorted (TClock.add t c) ∧
      (∀ p ∈ TClock.add t c, AKeysSorted p.2) ∧
      (AKeysSorted c → ∀ a,
        alookup a (TClock.add t c) =
          match alookup a c with
          | some es => some (msetAdd (mOf (alookup a t)) (event_count es))
          | none => alookup a t) := by
  induction c with
  | nil =>
    intro t ht hv
    refine ⟨ht, hv, fun _ a => ?_⟩
    rfl
  | cons p ct ih =>
    intro t ht hv
    have hstep : TClock.add t (p :: ct) =
        TClock.add (TClock.add_entry t p.1 p.2) ct := rfl
    have hts : AKeysSorted (TClock.add_entry t p.1 p.2) :=
      aupsert_sorted ht
    have htv : ∀ q ∈ TClock.add_entry t p.1 p.2, AKeysSorted q.2 := by
      intro q hq
      rcases aupsert_value_of_mem ht hq with h | h
      · exact hv q h
      · rcases hl : alookup p.1 t with _ | m
        · rw [hl] at h
          rw [h]
          exact msetAdd_sorted _ List.Pairwise.nil
        · rw [hl] at h
          rw [h]
          exact msetAdd_sorted _ (hv (p.1, m) (mem_of_alookup hl))
    obtain ⟨ih1, ih2, ih3⟩ := ih (TClock.add_entry t p.1 p.2) hts htv
    rw [hstep]
    refine ⟨ih1, ih2, fun hc a => ?_⟩
    have hc' := akeys_cons.1 hc
    rw [ih3 hc'.2 a]
    by_cases hap : a = p.1
    · subst hap
      have hct : alookup p.1 ct = none := alookup_eq_none_of_lt hc'.1
      have hhd : alookup p.1 (p :: ct) = some p.2 := by
        simp [alookup]
      rw [hct, hhd]
      show alookup p.1 (aupsert p.1 _ _ t) = _
      rw [alookup_aupsert_self _ _ ht]
      rcases alookup p.1 t with _ | m <;> rfl
    · have hhd : alookup a (p :: ct) = alookup a ct := by
        simp [alookup, hap]
      have hne : alookup a (TClock.add_entry t p.1 p.2) = alookup a t :=
        alookup_aupsert_ne hap _ _ _
      rw [hhd]
      rcases alookup a ct with _ | es
      · exact hne
      · rw [hne]

theorem sum_ite_countP {α : Type} (P : α → Prop) [DecidablePred P]
    (l : List α) :
    (l.map (fun v => if P v then 1 else 0)).sum =
      l.countP (fun v => decide (P v)) := by
  induction l with
  | nil => rfl
  | cons x t ih =>
    rw [List.map_cons, List.sum_cons, List.countP_cons, ih]
    by_cases h : P x <;> simp [h] <;> omega

/-- Folding clocks into a `TClock`: structure invariants, and the exact
per-actor vote sums. -/
theorem ofList_facts {E : Type} [EventSet E] (cs : List (Clock E)) :
    ∀ (t : TClock), AKeysSorted t → (∀ p ∈ t, AKeysSorted p.2) →
      AKeysSorted (cs.foldl TClock.add t) ∧
      (∀ p ∈ cs.foldl TClock.add t, AKeysSorted p.2) ∧
      ((∀ c ∈ cs, AKeysSorted c) → ∀ a e,
        posGe e (mOf (alookup a (cs.foldl TClock.add t))) =
          posGe e (mOf (alookup a t)) +
            ((cs.filterMap (alookup a)).map
              (fun v => posGe e (event_count v))).sum ∧
        negAt e (mOf (alookup a (cs.foldl TClock.add t))) =
          negAt e (mOf (alookup a t)) +
            ((cs.filterMap (alookup a)).map
              (fun v => negAt e (event_count v))).sum) := by
  induction cs with
  | nil =>
    intro t ht hv
    refine ⟨ht, hv, fun _ a e => ?_⟩
    simp
  | cons c cs' ih =>
    intro t ht hv
    obtain ⟨hs1, hv1, hl1⟩ := tclock_add_facts c t ht hv
    obtain ⟨ih1, ih2, ih3⟩ := ih (TClock.add t c) hs1 hv1
    refine ⟨ih1, ih2, fun hc a e => ?_⟩
    obtain ⟨ihp, ihn⟩ := ih3 (fun d hd => hc d (List.mem_cons_of_mem _ hd))
      a e
    have hadd := hl1 (hc c (List.mem_cons_self _ _)) a
    show posGe e (mOf (alookup a (cs'.foldl TClock.add (TClock.add t c)))) =
        posGe e (mOf (alookup a t)) +
          (((c :: cs').filterMap (alookup a)).map
            (fun v => posGe e (event_count v))).sum ∧
      negAt e (mOf (alookup a (cs'.foldl TClock.add (TClock.add t c)))) =
        negAt e (mOf (alookup a t)) +
          (((c :: cs').filterMap (alookup a)).map
            (fun v => negAt e (event_count v))).sum
    rcases hlc : alookup a c with _ | es
    · rw [hlc] at hadd
      rw [List.filterMap_cons_none hlc]
      constructor
      · rw [ihp, hadd]
      · rw [ihn, hadd]
    · rw [hlc] at hadd
      rw [List.filterMap_cons_some hlc]
      constructor
      · rw [ihp, hadd]
        show posGe e (msetAdd (mOf (alookup a t)) (event_count es)) + _ = _
        rw [posGe_msetAdd, List.map_cons, List.sum_cons]
        omega
      · rw [ihn, hadd]
        show negAt e (msetAdd (mOf (alookup a t)) (event_count es)) + _ = _
        rw [negAt_msetAdd, List.map_cons, List.sum_cons]
        omega

theorem mOf_sorted {t : TClock} (hv : ∀ p ∈ t, AKeysSorted p.2) (a : ℕ) :
    AKeysSorted (mOf (alookup a t)) := by
  rcases h : alookup a t with _ | m
  · exact List.Pairwise.nil
  · exact hv (a, m) (mem_of_alookup h)

/-- Looking up through a key-preserving map. -/
theorem alookup_map_entry {V W : Type} (g : ℕ × V → W) :
    ∀ (l : List (ℕ × V)) (a : ℕ),
      alookup a (l.map (fun p => (p.1, g p))) =
        (alookup a l).map (fun v => g (a, v)) := by
  intro l
  induction l with
  | nil => intro a; rfl
  | cons p t ih =>
    intro a
    show (if a = p.1 then some (g p) else
      alookup a (t.map (fun p => (p.1, g p)))) = _
    by_cases hap : a = p.1
    · rw [if_pos hap]
      have h1 : alookup a (p :: t) = some p.2 := by simp [alookup, hap]
      rw [h1]
      subst hap
      rfl
    · rw [if_neg hap, ih a]
      have h1 : alookup a (p :: t) = alookup a t := by simp [alookup, hap]
      rw [h1]

theorem akeys_map_entry {V W : Type} (g : ℕ × V → W) {l : List (ℕ × V)}
    (h : AKeysSorted l) :
    AKeysSorted (l.map (fun p => (p.1, g p))) :=
  List.pairwise_map.2 (h.imp (fun hab => hab))

theorem aupsert_append_gt {V : Type} {k : ℕ} {f : V → V} {d : V} :
    ∀ {acc : List (ℕ × V)}, (∀ q ∈ acc, q.1 < k) →
      aupsert k f d acc = acc ++ [(k, d)] := by
  intro acc
  induction acc with
  | nil => intro _; rfl
  | cons p t ih =>
    intro hk
    have hp := hk p (List.mem_cons_self _ _)
    rw [aupsert_head_gt hp, ih (fun q hq => hk q (List.mem_cons_of_mem _ hq))]
    rfl

/-- `Clock::from` of a key-sorted list of pairs is that list. -/
theorem from_sorted_id {E : Type} [EventSet E] :
    ∀ (l : List (ℕ × E)) (acc : List (ℕ × E)), AKeysSorted (acc ++ l) →
      l.foldl (fun acc p => aupsert p.1 (fun _ => p.2) p.2 acc) acc =
        acc ++ l := by
  intro l
  induction l with
  | nil =>
    intro acc _
    rw [List.append_nil]
    rfl
  | cons p t ih =>
    intro acc hs
    have hlt : ∀ q ∈ acc, q.1 < p.1 := by
      intro q hq
      have h1 := (List.pairwise_append.1 hs).2.2 q hq p
        (List.mem_cons_self _ _)
      exact h1
    show t.foldl _ (aupsert p.1 (fun _ => p.2) p.2 acc) = _
    rw [aupsert_append_gt hlt]
    have hs2 : AKeysSorted ((acc ++ [(p.1, p.2)]) ++ t) := by
      rw [List.append_assoc, List.singleton_append]
      exact hs
    rw [ih (acc ++ [(p.1, p.2)]) hs2, List.append_assoc,
      List.singleton_append]

theorem clock_from_sorted_id {E : Type} [EventSet E] {l : List (ℕ × E)}
    (h : AKeysSorted l) : Clock.from' l = l :=
  from_sorted_id l [] h

theorem length_eq_sum_ones {α : Type} (l : List α) :
    (l.map (fun _ => 1)).sum = l.length := by
  induction l with
  | nil => rfl
  | cons x t ih =>
    rw [List.map_cons, List.sum_cons, ih, List.length_cons]
    omega

/-- An actor absent from the `TClock` is absent from every added
clock. -/
theorem filterMap_nil_of_none {E : Type} [EventSet E]
    {cs : List (Clock E)} (hc : ∀ c ∈ cs, AKeysSorted c) {a : ℕ}
    (h : alookup a (TClock.ofList cs) = none) :
    cs.filterMap (alookup a) = [] := by
  obtain ⟨hp, _⟩ := ((ofList_facts cs [] List.Pairwise.nil
    (by simp)).2.2 hc a 0)
  have h' : alookup a (cs.foldl TClock.add []) = none := h
  rw [h'] at hp
  have h1 : ((cs.filterMap (alookup a)).map
      (fun v => posGe 0 (event_count v))).sum =
      ((cs.filterMap (alookup a)).map (fun _ => 1)).sum := by
    refine congrArg List.sum (List.map_congr_left ?_)
    intro v _
    rw [posGe_event_count]
    rw [if_pos (Nat.zero_le _)]
  rw [h1, length_eq_sum_ones] at hp
  have h2 : posGe 0 (mOf (alookup a ([] : TClock))) = 0 := rfl
  rw [h2, Nat.zero_add] at hp
  exact List.length_eq_zero.1 hp.symm

/-- Counting containment over the clocks equals counting membership over
the per-actor values. -/
theorem countP_contains {E : Type} [EventSet E] (cs : List (Clock E))
    (a e : ℕ) :
    cs.countP (fun c => Clock.contains c a e) =
      (cs.filterMap (alookup a)).countP
        (fun v => EventSet.is_event v e) := by
  induction cs with
  | nil => rfl
  | cons c t ih =>
    rw [List.countP_cons]
    rcases hlc : alookup a c with _ | v
    · rw [List.filterMap_cons_none hlc, ih]
      have h1 : Clock.contains c a e = false := by
        unfold Clock.contains
        rw [hlc]
      rw [h1]
      simp
    · rw [List.filterMap_cons_some hlc, List.countP_cons, ih]
      have h1 : Clock.contains c a e = EventSet.is_event v e := by
        unfold Clock.contains
        rw [hlc]
      rw [h1]

/-- For well-formed `BelowExSet`s, containment counts split into
positive and negative vote counts. -/
theorem be_counts {vs : List BelowExSet}
    (hwf : ∀ v ∈ vs, BelowExSet.WF v) {e : ℕ} (he : 1 ≤ e) :
    vs.countP (fun v => v.is_event e) +
        vs.countP (fun v => decide (e ∈ v.exs)) =
      vs.countP (fun v => decide (e ≤ v.max)) := by
  induction vs with
  | nil => rfl
  | cons v t ih =>
    have iht := ih (fun w hw => hwf w (List.mem_cons_of_mem _ hw))
    rw [List.countP_cons, List.countP_cons, List.countP_cons]
    have hv := hwf v (List.mem_cons_self _ _)
    by_cases hm : e ∈ v.exs
    · have h1 : v.is_event e = false := by
        rw [BelowExSet.is_event_false_iff]
        exact Or.inr hm
      have h2 : e ≤ v.max := by
        have := hv e hm
        omega
      simp [h1, hm, h2]
      omega
    · by_cases h2 : e ≤ v.max
      · have h1 : v.is_event e = true := BelowExSet.is_event_true_iff_be.2
          ⟨h2, hm⟩
        simp [h1, hm, h2]
        omega
      · have h1 : v.is_event e = false := by
          rw [BelowExSet.is_event_false_iff]
          exact Or.inl (by omega)
        simp [h1, hm, h2]
        omega

/-- Positive vote sums are counts of sufficiently large maxima
(`BelowExSet`). -/
theorem be_pos_count (vs : List BelowExSet) (e : ℕ) :
    ((vs.map (fun v => posGe e (event_count v))).sum =
      vs.countP (fun v => decide (e ≤ v.max))) := by
  have h1 : ∀ v ∈ vs, posGe e (event_count v) =
      if e ≤ v.max then 1 else 0 := by
    intro v _
    rw [posGe_event_count]
    rfl
  rw [List.map_congr_left h1, sum_ite_countP]

theorem be_neg_count (vs : List BelowExSet) (e : ℕ) :
    ((vs.map (fun v => negAt e (event_count v))).sum =
      vs.countP (fun v => decide (e ∈ v.exs))) := by
  have h1 : ∀ v ∈ vs, negAt e (event_count v) =
      if e ∈ v.exs then 1 else 0 := by
    intro v _
    rw [negAt_event_count v e (sortAsc_nodup v.exs)]
    show (if e ∈ sortAsc v.exs then 1 else 0) = _
    by_cases hm : e ∈ v.exs
    · rw [if_pos (mem_sortAsc.2 hm), if_pos hm]
    · rw [if_neg (fun hc => hm (mem_sortAsc.1 hc)), if_neg hm]
  rw [List.map_congr_left h1, sum_ite_countP]

theorem max_pos_count (vs : List MaxSet) (e : ℕ) :
    ((vs.map (fun v => posGe e (event_count v))).sum =
      vs.countP (fun v => decide (e ≤ v.max))) := by
  have h1 : ∀ v ∈ vs, posGe e (event_count v) =
      if e ≤ v.max then 1 else 0 := by
    intro v _
    rw [posGe_event_count]
    rfl
  rw [List.map_congr_left h1, sum_ite_countP]

theorem max_neg_count (vs : List MaxSet) (e : ℕ) :
    ((vs.map (fun v => negAt e (event_count v))).sum = 0) := by
  have h1 : ∀ v ∈ vs, negAt e (event_count v) = 0 := by
    intro v _
    rw [negAt_event_count v e List.nodup_nil]
    rfl
  rw [List.map_congr_left h1]
  induction vs with
  | nil => rfl
  | cons v t ih => simpa using ih

theorem MaxSet.from_event_max (x : ℕ) : (MaxSet.from_event x).max = x := by
  show ((MaxSet.new.add_event x).1).max = x
  unfold MaxSet.add_event
  by_cases h : x ≤ MaxSet.new.max
  · rw [if_pos h]
    show MaxSet.new.max = x
    have h2 : MaxSet.new.max = 0 := rfl
    omega
  · rw [if_neg h]

/-- `findSeq` never invents a key. -/
theorem findSeq_mem (th : ℕ) :
    ∀ (l : List (ℕ × (ℕ × ℕ))) (t : ℕ),
      findSeq th t l = 0 ∨ ∃ c, (findSeq th t l, c) ∈ l := by
  intro l
  induction l with
  | nil => intro t; exact Or.inl rfl
  | cons p tail ih =>
    intro t
    rcases p with ⟨k, c⟩
    simp only [findSeq]
    by_cases hc : th ≤ t + c.1
    · rw [if_pos hc]
      exact Or.inr ⟨c, List.mem_cons_self _ _⟩
    · rw [if_neg hc]
      rcases ih (t + c.1) with h | ⟨c', hmem⟩
      · exact Or.inl h
      · exact Or.inr ⟨c', List.mem_cons_of_mem _ hmem⟩

/-- `findSeq` returns the largest key whose suffix of positive votes
reaches the threshold: `e` is below it iff the positives at keys `≥ e`
reach the threshold. -/
theorem findSeq_spec (th : ℕ) :
    ∀ (l : List (ℕ × (ℕ × ℕ))) (t : ℕ), DescSorted l → t < th →
      ∀ e, 1 ≤ e → (e ≤ findSeq th t l ↔ th ≤ t + posGe e l) := by
  intro l
  induction l with
  | nil =>
    intro t _ ht e he
    simp only [findSeq, posGe_nil]
    omega
  | cons p tail ih =>
    intro t hd ht e he
    rcases p with ⟨k, c⟩
    have hd' := List.pairwise_cons.1 hd
    simp only [findSeq]
    by_cases hc : th ≤ t + c.1
    · rw [if_pos hc]
      constructor
      · intro hek
        rw [posGe_cons, if_pos hek]
        omega
      · intro hth2
        by_contra hek
        have hz : posGe e ((k, c) :: tail) = 0 :=
          posGe_eq_zero_of_lt (by
            intro q hq
            rcases List.mem_cons.1 hq with rfl | hq
            · omega
            · have := hd'.1 q hq
              omega)
        rw [hz] at hth2
        omega
    · rw [if_neg hc]
      rw [ih (t + c.1) hd'.2 (by omega) e he, posGe_cons]
      by_cases hek : e ≤ k
      · rw [if_pos hek]
        omega
      · rw [if_neg hek]
        have hz : posGe e tail = 0 :=
          posGe_eq_zero_of_lt
            (fun q hq => by have := hd'.1 q hq; omega)
        rw [hz]
        constructor
        · intro hmem
          rcases findSeq_mem th tail (t + c.1) with h0 | ⟨c', hmem'⟩
          · omega
          · have h1 : findSeq th (t + c.1) tail < k := hd'.1 _ hmem'
            omega
        · intro h0
          omega

/-- The `BelowExSet` threshold union, per actor and event: containment
in the result is reaching the threshold among the added clocks. -/
theorem be_union_contains (τ : ℕ) (hτ1 : 1 ≤ τ)
    (cs : List (Clock BelowExSet)) (hs : ∀ c ∈ cs, AKeysSorted c)
    (hwf : ∀ c ∈ cs, ∀ p ∈ c, BelowExSet.WF p.2) (a e : ℕ) (he : 1 ≤ e) :
    Clock.contains ((TClock.ofList cs).threshold_union_be τ) a e = true ↔
      τ ≤ cs.countP (fun c => Clock.contains c a e) := by
  obtain ⟨hts, htv, htc⟩ := ofList_facts cs [] List.Pairwise.nil (by simp)
  have hmap : AKeysSorted ((cs.foldl TClock.add []).map
      (fun p => (p.1, beActor τ p.2.reverse))) :=
    akeys_map_entry _ hts
  have hres : (TClock.ofList cs).threshold_union_be τ =
      (cs.foldl TClock.add []).map
        (fun p => (p.1, beActor τ p.2.reverse)) := by
    show Clock.from' ((cs.foldl TClock.add []).map
      (fun p => (p.1, beActor τ p.2.reverse))) = _
    exact clock_from_sorted_id hmap
  rw [hres]
  have hlook := alookup_map_entry (fun p => beActor τ p.2.reverse)
    (cs.foldl TClock.add []) a
  rcases hma : alookup a (cs.foldl TClock.add []) with _ | m
  · have hc1 : Clock.contains ((cs.foldl TClock.add []).map
        (fun p => (p.1, beActor τ p.2.reverse))) a e = false := by
      unfold Clock.contains
      rw [hlook, hma]
      rfl
    have hvs : cs.filterMap (alookup a) = [] :=
      filterMap_nil_of_none hs hma
    rw [hc1, countP_contains, hvs, List.countP_nil]
    constructor
    · intro hfalse
      exact absurd hfalse Bool.false_ne_true
    · intro habs
      omega
  · have hc1 : Clock.contains ((cs.foldl TClock.add []).map
        (fun p => (p.1, beActor τ p.2.reverse))) a e =
        (beActor τ m.reverse).is_event e := by
      unfold Clock.contains
      rw [hlook, hma]
      rfl
    rw [hc1]
    have hchar : ∀ x, posGe x m = (cs.filterMap (alookup a)).countP
        (fun v => decide (x ≤ v.max)) ∧
        negAt x m = (cs.filterMap (alookup a)).countP
          (fun v => decide (x ∈ v.exs)) := by
      intro x
      obtain ⟨hp2, hn2⟩ := htc hs a x
      rw [hma] at hp2 hn2
      rw [show posGe x (mOf (alookup a ([] : TClock))) = 0 from rfl,
        Nat.zero_add] at hp2
      rw [show negAt x (mOf (alookup a ([] : TClock))) = 0 from rfl,
        Nat.zero_add] at hn2
      constructor
      · rw [← be_pos_count]
        exact hp2
      · rw [← be_neg_count]
        exact hn2
    have hvswf : ∀ v ∈ cs.filterMap (alookup a), BelowExSet.WF v := by
      intro v hv
      obtain ⟨c, hcmem, hlc⟩ := List.mem_filterMap.1 hv
      exact hwf c hcmem (a, v) (mem_of_alookup hlc)
    have hms : AKeysSorted m := htv (a, m) (mem_of_alookup hma)
    have hdesc : DescSorted m.reverse := descSorted_reverse hms
    have hWm : ∀ p ∈ m.reverse, p.2.2 ≤ posGe (p.1 + 1) m.reverse := by
      intro p hpm2
      rcases p with ⟨k, c2⟩
      have h1 : negAt k m.reverse = c2.2 := negAt_of_mem hdesc hpm2
      show c2.2 ≤ posGe (k + 1) m.reverse
      rw [← h1, negAt_reverse, posGe_reverse, (hchar k).2,
        (hchar (k + 1)).1]
      refine List.countP_mono_left ?_
      intro v hv hdec
      rw [decide_eq_true_eq] at hdec ⊢
      have h2 := hvswf v hv k hdec
      omega
    have hz0 : negAt 0 m.reverse = 0 := by
      rw [negAt_reverse, (hchar 0).2]
      refine List.countP_eq_zero.2 ?_
      intro v hv hc
      rw [decide_eq_true_eq] at hc
      have := (hvswf v hv 0 hc).1
      omega
    rw [beActor_sem τ hτ1 m.reverse hdesc hWm hz0 e he]
    rw [negAt_reverse, posGe_reverse, (hchar e).1, (hchar e).2]
    rw [countP_contains]
    have hinst : (cs.filterMap (alookup a)).countP
        (fun v => EventSet.is_event v e) =
        (cs.filterMap (alookup a)).countP (fun v => v.is_event e) := rfl
    rw [hinst]
    have hsplit := be_counts hvswf he
    omega

/-- The `MaxSet` threshold union, per actor and event. -/
theorem max_union_contains (τ : ℕ) (hτ1 : 1 ≤ τ)
    (cs : List (Clock MaxSet)) (hs : ∀ c ∈ cs, AKeysSorted c)
    (a e : ℕ) (he : 1 ≤ e) :
    Clock.contains ((TClock.ofList cs).threshold_union_max τ).1 a e =
        true ↔
      τ ≤ cs.countP (fun c => Clock.contains c a e) := by
  obtain ⟨hts, htv, htc⟩ := ofList_facts cs [] List.Pairwise.nil (by simp)
  have hres : ((TClock.ofList cs).threshold_union_max τ).1 =
      Clock.from' (((cs.foldl TClock.add []).map (fun p =>
        (p.1, findSeq τ 0 p.2.reverse,
          match p.2.reverse with | [] => 0 | (k, _) :: _ => k))).map
        (fun q => (q.1, MaxSet.from_event q.2.1))) := rfl
  have hcomp : ((cs.foldl TClock.add []).map (fun p =>
      (p.1, findSeq τ 0 p.2.reverse,
        match p.2.reverse with | [] => 0 | (k, _) :: _ => k))).map
      (fun q => (q.1, MaxSet.from_event q.2.1)) =
      (cs.foldl TClock.add []).map (fun p =>
        (p.1, MaxSet.from_event (findSeq τ 0 p.2.reverse))) := by
    rw [List.map_map]
    rfl
  rw [hres, hcomp]
  have hmap : AKeysSorted ((cs.foldl TClock.add []).map
      (fun p => (p.1, MaxSet.from_event (findSeq τ 0 p.2.reverse)))) :=
    akeys_map_entry _ hts
  rw [clock_from_sorted_id hmap]
  have hlook := alookup_map_entry
    (fun p => MaxSet.from_event (findSeq τ 0 p.2.reverse))
    (cs.foldl TClock.add []) a
  rcases hma : alookup a (cs.foldl TClock.add []) with _ | m
  · have hc1 : Clock.contains ((cs.foldl TClock.add []).map
        (fun p => (p.1, MaxSet.from_event (findSeq τ 0 p.2.reverse))))
        a e = false := by
      unfold Clock.contains
      rw [hlook, hma]
      rfl
    have hvs : cs.filterMap (alookup a) = [] :=
      filterMap_nil_of_none hs hma
    rw [hc1, countP_contains, hvs, List.countP_nil]
    constructor
    · intro hfalse
      exact absurd hfalse Bool.false_ne_true
    · intro habs
      omega
  · have hc1 : Clock.contains ((cs.foldl TClock.add []).map
        (fun p => (p.1, MaxSet.from_event (findSeq τ 0 p.2.reverse))))
        a e =
        (MaxSet.from_event (findSeq τ 0 m.reverse)).is_event e := by
      unfold Clock.contains
      rw [hlook, hma]
      rfl
    rw [hc1]
    have hchar : ∀ x, posGe x m = (cs.filterMap (alookup a)).countP
        (fun v => decide (x ≤ v.max)) := by
      intro x
      obtain ⟨hp2, _⟩ := htc hs a x
      rw [hma] at hp2
      rw [show posGe x (mOf (alookup a ([] : TClock))) = 0 from rfl,
        Nat.zero_add] at hp2
      rw [← max_pos_count]
      exact hp2
    have hms : AKeysSorted m := htv (a, m) (mem_of_alookup hma)
    have hdesc : DescSorted m.reverse := descSorted_reverse hms
    have hie : (MaxSet.from_event (findSeq τ 0 m.reverse)).is_event e =
        true ↔ e ≤ findSeq τ 0 m.reverse := by
      show decide (e ≤ (MaxSet.from_event (findSeq τ 0 m.reverse)).max)
        = true ↔ _
      rw [MaxSet.from_event_max, decide_eq_true_eq]
    rw [hie, findSeq_spec τ m.reverse 0 hdesc (by omega) e he,
      Nat.zero_add, posGe_reverse, hchar e, countP_contains]
    have hinst : (cs.filterMap (alookup a)).countP
        (fun v => EventSet.is_event v e) =
        (cs.filterMap (alookup a)).countP
          (fun v => decide (e ≤ v.max)) := rfl
    rw [hinst]

end TClock

/-- C1: for clocks `C₁..Cₙ` (key-sorted; for `BelowExSet` with
well-formed per-actor values, as every clock built by the public
operations is) added to a fresh `TClock`, and `1 ≤ τ ≤ n`: an event
`e ≥ 1` is in the threshold union at actor `a` iff at least `τ` of the
added clocks contain `(a, e)` — for both the `MaxSet` and the
`BelowExSet` variant. -/
theorem claim_C1_threshold_union (τ : ℕ) (hτ1 : 1 ≤ τ) :
    (∀ cs : List (Clock MaxSet), τ ≤ cs.length →
      (∀ c ∈ cs, AKeysSorted c) → ∀ a e, 1 ≤ e →
      (Clock.contains ((TClock.ofList cs).threshold_union_max τ).1 a e =
          true ↔
        τ ≤ cs.countP (fun c => Clock.contains c a e))) ∧
    (∀ cs : List (Clock BelowExSet), τ ≤ cs.length →
      (∀ c ∈ cs, AKeysSorted c) →
      (∀ c ∈ cs, ∀ p ∈ c, BelowExSet.WF p.2) → ∀ a e, 1 ≤ e →
      (Clock.contains ((TClock.ofList cs).threshold_union_be τ) a e =
          true ↔
        τ ≤ cs.countP (fun c => Clock.contains c a e))) :=
  ⟨fun cs _ hs a e he => TClock.max_union_contains τ hτ1 cs hs a e he,
   fun cs _ hs hwf a e he =>
     TClock.be_union_contains τ hτ1 cs hs hwf a e he⟩

theorem claim_C1_witness :
    (Clock.contains ((TClock.ofList
        [[(0, MaxSet.mk 2)], [(0, MaxSet.mk 5)]]).threshold_union_max
          2).1 0 2 = true ↔
      2 ≤ List.countP (fun c => Clock.contains c 0 2)
        [[(0, MaxSet.mk 2)], [(0, MaxSet.mk 5)]]) ∧
    (Clock.contains ((TClock.ofList
        [[(0, BelowExSet.from' 2 [])],
         [(0, BelowExSet.from' 5 [4])]]).threshold_union_be 2) 0 2 =
        true ↔
      2 ≤ List.countP (fun c => Clock.contains c 0 2)
        [[(0, BelowExSet.from' 2 [])], [(0, BelowExSet.from' 5 [4])]]) :=
  ⟨(claim_C1_threshold_union 2 (by decide)).1
      [[(0, MaxSet.mk 2)], [(0, MaxSet.mk 5)]] (by decide)
      (by
        intro c hc
        rcases List.mem_cons.1 hc with rfl | hc
        · exact List.pairwise_singleton _ _
        · rcases List.mem_cons.1 hc with rfl | hc
          · exact List.pairwise_singleton _ _
          · simp at hc)
      0 2 (by decide),
   (claim_C1_threshold_union 2 (by decide)).2
      [[(0, BelowExSet.from' 2 [])], [(0, BelowExSet.from' 5 [4])]]
      (by decide)
      (by
        intro c hc
        rcases List.mem_cons.1 hc with rfl | hc
        · exact List.pairwise_singleton _ _
        · rcases List.mem_cons.1 hc with rfl | hc
          · exact List.pairwise_singleton _ _
          · simp at hc)
      (by
        intro c hc
        rcases List.mem_cons.1 hc with rfl | hc
        · intro p hp
          rcases List.mem_cons.1 hp with rfl | hp
          · decide
          · simp at hp
        · rcases List.mem_cons.1 hc with rfl | hc
          · intro p hp
            rcases List.mem_cons.1 hp with rfl | hp
            · decide
            · simp at hp
          · simp at hc)
      0 2 (by decide)⟩

/-! ## C10: reachable clocks and the unguarded subtractions -/

theorem BelowExSet.next_event_wf {s : BelowExSet} (h : WF s) :
    WF s.next_event.1 := by
  intro x hx
  have := h x hx
  show 1 ≤ x ∧ x < s.max + 1
  omega

theorem BelowExSet.add_event_range_wf {s : BelowExSet} (h : WF s)
    (a b : ℕ) : WF (s.add_event_range a b).1 := by
  suffices h2 : ∀ (l : List ℕ) (p : BelowExSet × Bool), WF p.1 →
      WF ((l.foldl (fun p e =>
        ((p.1.add_event e).1, p.2 || (p.1.add_event e).2)) p)).1 from
    h2 _ (s, false) h
  intro l
  induction l with
  | nil => intro p hp; exact hp
  | cons e t ih =>
    intro p hp
    exact ih ((p.1.add_event e).1, p.2 || (p.1.add_event e).2)
      (BelowExSet.add_event_wf hp e)

/-- `BelowExSet` clocks reachable through the public `Clock`
operations. -/
inductive ReachClockBE : Clock BelowExSet → Prop where
  | new : ReachClockBE Clock.new
  | next (c : Clock BelowExSet) (a : ℕ) :
      ReachClockBE c → ReachClockBE (c.next a).1
  | add (c : Clock BelowExSet) (a seq : ℕ) :
      ReachClockBE c → ReachClockBE (c.add a seq).1
  | add_range (c : Clock BelowExSet) (a s f : ℕ) :
      ReachClockBE c → ReachClockBE (c.add_range a s f).1
  | join (c d : Clock BelowExSet) :
      ReachClockBE c → ReachClockBE d → ReachClockBE (c.join d)

/-- Every reachable `BelowExSet` clock is key-sorted with strictly
well-formed values. -/
theorem reachClockBE_wf {c : Clock BelowExSet} (h : ReachClockBE c) :
    AKeysSorted c ∧ ∀ p ∈ c, BelowExSet.WF p.2 := by
  induction h with
  | new =>
    refine ⟨List.Pairwise.nil, ?_⟩
    intro p hp
    simp [Clock.new] at hp
  | next c a _ ih =>
    obtain ⟨ihs, ihv⟩ := ih
    rcases hla : alookup a c with _ | es
    · have heq : (c.next a).1 =
          aupsert a id (EventSet.from_event 1) c := by
        unfold Clock.next
        rw [hla]
      rw [heq]
      refine ⟨aupsert_sorted ihs, ?_⟩
      intro p hp
      rcases TClock.aupsert_value_of_mem ihs hp with h1 | h1
      · exact ihv p h1
      · rw [hla] at h1
        rw [h1]
        show BelowExSet.WF (BelowExSet.new.add_event 1).1
        exact BelowExSet.add_event_wf BelowExSet.new_wf 1
    · have heq : (c.next a).1 =
          aupsert a (fun _ => (EventSet.next_event es).1)
            (EventSet.next_event es).1 c := by
        unfold Clock.next
        rw [hla]
      rw [heq]
      refine ⟨aupsert_sorted ihs, ?_⟩
      intro p hp
      rcases TClock.aupsert_value_of_mem ihs hp with h1 | h1
      · exact ihv p h1
      · rw [hla] at h1
        rw [h1]
        show BelowExSet.WF es.next_event.1
        exact BelowExSet.next_event_wf (ihv (a, es) (mem_of_alookup hla))
  | add c a seq _ ih =>
    obtain ⟨ihs, ihv⟩ := ih
    rcases hla : alookup a c with _ | es
    · have heq : (c.add a seq).1 =
          aupsert a id (EventSet.from_event seq) c := by
        unfold Clock.add
        rw [hla]
      rw [heq]
      refine ⟨aupsert_sorted ihs, ?_⟩
      intro p hp
      rcases TClock.aupsert_value_of_mem ihs hp with h1 | h1
      · exact ihv p h1
      · rw [hla] at h1
        rw [h1]
        show BelowExSet.WF (BelowExSet.new.add_event seq).1
        exact BelowExSet.add_event_wf BelowExSet.new_wf seq
    · have heq : (c.add a seq).1 =
          aupsert a (fun _ => (EventSet.add_event es seq).1)
            (EventSet.add_event es seq).1 c := by
        unfold Clock.add
        rw [hla]
      rw [heq]
      refine ⟨aupsert_sorted ihs, ?_⟩
      intro p hp
      rcases TClock.aupsert_value_of_mem ihs hp with h1 | h1
      · exact ihv p h1
      · rw [hla] at h1
        rw [h1]
        show BelowExSet.WF (es.add_event seq).1
        exact BelowExSet.add_event_wf (ihv (a, es) (mem_of_alookup hla))
          seq
  | add_range c a s f _ ih =>
    obtain ⟨ihs, ihv⟩ := ih
    rcases hla : alookup a c with _ | es
    · have heq : (c.add_range a s f).1 =
          aupsert a id (EventSet.from_event_range s f) c := by
        unfold Clock.add_range
        rw [hla]
      rw [heq]
      refine ⟨aupsert_sorted ihs, ?_⟩
      intro p hp
      rcases TClock.aupsert_value_of_mem ihs hp with h1 | h1
      · exact ihv p h1
      · rw [hla] at h1
        rw [h1]
        show BelowExSet.WF (BelowExSet.new.add_event_range s f).1
        exact BelowExSet.add_event_range_wf BelowExSet.new_wf s f
    · have heq : (c.add_range a s f).1 =
          aupsert a (fun _ => (EventSet.add_event_range es s f).1)
            (EventSet.add_event_range es s f).1 c := by
        unfold Clock.add_range
        rw [hla]
      rw [heq]
      refine ⟨aupsert_sorted ihs, ?_⟩
      intro p hp
      rcases TClock.aupsert_value_of_mem ihs hp with h1 | h1
      · exact ihv p h1
      · rw [hla] at h1
        rw [h1]
        show BelowExSet.WF (es.add_event_range s f).1
        exact BelowExSet.add_event_range_wf
          (ihv (a, es) (mem_of_alookup hla)) s f
  | join c d _ _ ihc ihd =>
    obtain ⟨ihcs, ihcv⟩ := ihc
    obtain ⟨_, ihdv⟩ := ihd
    suffices h2 : ∀ (l : List (ℕ × BelowExSet)),
        (∀ q ∈ l, BelowExSet.WF q.2) →
        ∀ (acc : Clock BelowExSet), AKeysSorted acc →
        (∀ q ∈ acc, BelowExSet.WF q.2) →
        AKeysSorted (l.foldl (fun acc p =>
          aupsert p.1 (fun cur => EventSet.join cur p.2) p.2 acc) acc) ∧
        ∀ q ∈ l.foldl (fun acc p =>
          aupsert p.1 (fun cur => EventSet.join cur p.2) p.2 acc) acc,
          BelowExSet.WF q.2 from
      h2 d ihdv c ihcs ihcv
    intro l
    induction l with
    | nil => intro _ acc hs hv; exact ⟨hs, hv⟩
    | cons p t ih =>
      intro hl acc hs hv
      refine ih (fun q hq => hl q (List.mem_cons_of_mem _ hq))
        (aupsert p.1 (fun cur => EventSet.join cur p.2) p.2 acc)
        (aupsert_sorted hs) ?_
      intro q hq
      rcases TClock.aupsert_value_of_mem hs hq with h1 | h1
      · exact hv q h1
      · rcases hla : alookup p.1 acc with _ | v
        · rw [hla] at h1
          rw [h1]
          exact hl p (List.mem_cons_self _ _)
        · rw [hla] at h1
          rw [h1]
          show BelowExSet.WF (v.join p.2)
          exact BelowExSet.join_wf (hv (p.1, v) (mem_of_alookup hla))
            (hl p (List.mem_cons_self _ _))

namespace TClock

/-- Instrumented mirror of `walk`: additionally checks, at every
unguarded `total_pos - neg` subtraction the source performs, that the
subtrahend does not exceed the minuend. -/
def walkChk (threshold : ℕ) : ℕ → ℕ → List (ℕ × (ℕ × ℕ)) → Bool
  | _, _, [] => true
  | total, cand, (k, c) :: rest =>
    if k = cand then
      decide (c.2 ≤ total + c.1) &&
        (if threshold ≤ u64sub (total + c.1) c.2 then true
         else walkChk threshold (total + c.1) (cand - 1) rest)
    else true

/-- Instrumented mirror of the per-actor body: checks the unguarded
subtraction of the highest-candidate test and delegates to
`walkChk`. -/
def beActorChk (threshold : ℕ) (desc : List (ℕ × (ℕ × ℕ))) : Bool :=
  let s := skipAccum threshold 0 desc
  match s.2 with
  | [] => true
  | (k, c) :: rest =>
    decide (c.2 ≤ s.1) &&
      (if threshold ≤ u64sub s.1 c.2 then true
       else walkChk threshold s.1 (k - 1) rest)

theorem walkChk_true (th : ℕ) :
    ∀ (r : List (ℕ × (ℕ × ℕ))) (t cand : ℕ),
      DescSorted r → (∀ p ∈ r, p.1 ≤ cand) →
      (∀ p ∈ r, p.2.2 ≤ t + posGe (p.1 + 1) r) → th ≤ t →
      negAt 0 r = 0 →
      walkChk th t cand r = true := by
  intro r
  induction r with
  | nil => intro t cand _ _ _ _ _; rfl
  | cons p tail ih =>
    intro t cand hd hbound hW hth hz0
    rcases p with ⟨k, c⟩
    have hd' := List.pairwise_cons.1 hd
    have hneg_head : c.2 ≤ t := by
      have h0 : c.2 ≤ t + posGe (k + 1) ((k, c) :: tail) :=
        hW (k, c) (List.mem_cons_self _ _)
      have hz : posGe (k + 1) ((k, c) :: tail) = 0 :=
        posGe_eq_zero_of_lt (by
          intro q hq
          rcases List.mem_cons.1 hq with rfl | hq
          · omega
          · have := hd'.1 q hq
            omega)
      rw [hz] at h0
      omega
    have hz0t : negAt 0 tail = 0 := by
      rw [negAt_cons] at hz0
      omega
    show (if k = cand then _ else _) = true
    by_cases hkcand : k = cand
    · rw [if_pos hkcand]
      rw [Bool.and_eq_true]
      refine ⟨decide_eq_true (by omega), ?_⟩
      by_cases hpass : th ≤ u64sub (t + c.1) c.2
      · rw [if_pos hpass]
      · rw [if_neg hpass]
        subst hkcand
        have hWt : ∀ p ∈ tail,
            p.2.2 ≤ t + c.1 + posGe (p.1 + 1) tail := by
          intro q hq
          have h1 := hW q (List.mem_cons_of_mem _ hq)
          have h2 : q.1 + 1 ≤ k := by
            have := hd'.1 q hq
            omega
          rw [posGe_cons, if_pos h2] at h1
          omega
        exact ih (t + c.1) (k - 1) hd'.2
          (fun q hq => by have := hd'.1 q hq; omega) hWt (by omega) hz0t
    · rw [if_neg hkcand]

theorem beActorChk_true (th : ℕ) (hth : 1 ≤ th)
    (L : List (ℕ × (ℕ × ℕ))) (hd : DescSorted L)
    (hW : ∀ p ∈ L, p.2.2 ≤ posGe (p.1 + 1) L)
    (hz0 : negAt 0 L = 0) : beActorChk th L = true := by
  rcases hs : skipAccum th 0 L with ⟨T, rem⟩
  cases rem with
  | nil =>
    show (match (skipAccum th 0 L).2 with
      | [] => true
      | (k, c) :: rest =>
        decide (c.2 ≤ (skipAccum th 0 L).1) &&
          (if th ≤ u64sub (skipAccum th 0 L).1 c.2 then true
           else walkChk th (skipAccum th 0 L).1 (k - 1) rest)) = true
    simp only [hs]
  | cons p rest =>
    rcases p with ⟨k, c⟩
    have hbe : beActorChk th L =
        (decide (c.2 ≤ T) &&
          (if th ≤ u64sub T c.2 then true
           else walkChk th T (k - 1) rest)) := by
      show (match (skipAccum th 0 L).2 with
        | [] => true
        | (k, c) :: rest =>
          decide (c.2 ≤ (skipAccum th 0 L).1) &&
            (if th ≤ u64sub (skipAccum th 0 L).1 c.2 then true
             else walkChk th (skipAccum th 0 L).1 (k - 1) rest)) = _
      simp only [hs]
    rw [hbe]
    obtain ⟨hT, hthT, ⟨pre, hpre, hprekeys⟩, hfail⟩ :=
      skipAccum_cons th L 0 T k c rest hd (by omega) hs
    have hkmem : (k, c) ∈ L := by
      rw [hpre]
      exact List.mem_append_right _ (List.mem_cons_self _ _)
    have hdsub : DescSorted ((k, c) :: rest) := by
      rw [hpre] at hd
      exact hd.sublist (List.sublist_append_right _ _)
    have hdrest : DescSorted rest := (List.pairwise_cons.1 hdsub).2
    have hrestkeys : ∀ p ∈ rest, p.1 < k :=
      (List.pairwise_cons.1 hdsub).1
    have hnegk : negAt k L = c.2 := negAt_of_mem hd hkmem
    have hWk : c.2 ≤ posGe (k + 1) L := by
      have := hW (k, c) hkmem
      exact this
    have hposk : posGe k L = posGe (k + 1) L + c.1 :=
      posGe_succ_of_mem hd hkmem
    have hc2T : c.2 ≤ T := by
      have := posGe_mono (Nat.le_succ k) L
      omega
    rw [Bool.and_eq_true]
    refine ⟨decide_eq_true hc2T, ?_⟩
    by_cases hguard : th ≤ u64sub T c.2
    · rw [if_pos hguard]
    · rw [if_neg hguard]
      have hsplitP : ∀ x, x ≤ k → posGe x L = T + posGe x rest := by
        intro x hx
        rw [hpre, posGe_append, posGe_cons, if_pos hx]
        have h1 : posGe x pre = posGe k pre :=
          posGe_eq_of_all_ge (fun q hq => by
            have := hprekeys q hq; omega) hx
        have h2 : posGe k L = posGe k pre + c.1 := by
          rw [hpre, posGe_append, posGe_cons, if_pos (le_refl k)]
          have h3 : posGe k rest = 0 :=
            posGe_eq_zero_of_lt hrestkeys
          omega
        omega
      have hWrest : ∀ p ∈ rest, p.2.2 ≤ T + posGe (p.1 + 1) rest := by
        intro q hq
        have h3 : q ∈ L := by
          rw [hpre]
          exact List.mem_append_right _ (List.mem_cons_of_mem _ hq)
        have h1 := hW q h3
        have h2 : q.1 + 1 ≤ k := by
          have := hrestkeys q hq
          omega
        rw [hsplitP (q.1 + 1) h2] at h1
        exact h1
      have hz0rest : negAt 0 rest = 0 := by
        rw [hpre, negAt_append, negAt_cons] at hz0
        omega
      exact walkChk_true th rest T (k - 1) hdrest
        (fun q hq => by have := hrestkeys q hq; omega) hWrest hthT
        hz0rest

/-- Packaging the per-actor hypotheses for the descending multiset of a
`TClock` built from sorted, well-formed `BelowExSet` clocks. -/
theorem be_mset_hyps (cs : List (Clock BelowExSet))
    (hs : ∀ c ∈ cs, AKeysSorted c)
    (hwf : ∀ c ∈ cs, ∀ p ∈ c, BelowExSet.WF p.2) (a : ℕ) :
    DescSorted (mOf (alookup a (TClock.ofList cs))).reverse ∧
    (∀ p ∈ (mOf (alookup a (TClock.ofList cs))).reverse,
      p.2.2 ≤ posGe (p.1 + 1)
        (mOf (alookup a (TClock.ofList cs))).reverse) ∧
    negAt 0 (mOf (alookup a (TClock.ofList cs))).reverse = 0 := by
  obtain ⟨hts, htv, htc⟩ := ofList_facts cs [] List.Pairwise.nil (by simp)
  have hvswf : ∀ v ∈ cs.filterMap (alookup a), BelowExSet.WF v := by
    intro v hv
    obtain ⟨c, hcmem, hlc⟩ := List.mem_filterMap.1 hv
    exact hwf c hcmem (a, v) (mem_of_alookup hlc)
  have hchar : ∀ x, posGe x (mOf (alookup a (TClock.ofList cs))) =
      (cs.filterMap (alookup a)).countP
        (fun v => decide (x ≤ v.max)) ∧
      negAt x (mOf (alookup a (TClock.ofList cs))) =
        (cs.filterMap (alookup a)).countP
          (fun v => decide (x ∈ v.exs)) := by
    intro x
    obtain ⟨hp2, hn2⟩ := htc hs a x
    rw [show posGe x (mOf (alookup a ([] : TClock))) = 0 from rfl,
      Nat.zero_add] at hp2
    rw [show negAt x (mOf (alookup a ([] : TClock))) = 0 from rfl,
      Nat.zero_add] at hn2
    constructor
    · rw [← be_pos_count]
      exact hp2
    · rw [← be_neg_count]
      exact hn2
  have hms : AKeysSorted (mOf (alookup a (TClock.ofList cs))) :=
    mOf_sorted htv a
  refine ⟨descSorted_reverse hms, ?_, ?_⟩
  · intro p hpm2
    rcases p with ⟨k, c2⟩
    have h1 : negAt k (mOf (alookup a (TClock.ofList cs))).reverse =
        c2.2 := negAt_of_mem (descSorted_reverse hms) hpm2
    show c2.2 ≤ posGe (k + 1) (mOf (alookup a (TClock.ofList cs))).reverse
    rw [← h1, negAt_reverse, posGe_reverse, (hchar k).2,
      (hchar (k + 1)).1]
    refine List.countP_mono_left ?_
    intro v hv hdec
    rw [decide_eq_true_eq] at hdec ⊢
    have h2 := hvswf v hv k hdec
    omega
  · rw [negAt_reverse, (hchar 0).2]
    refine List.countP_eq_zero.2 ?_
    intro v hv hc
    rw [decide_eq_true_eq] at hc
    have := (hvswf v hv 0 hc).1
    omega

end TClock

/-- C10: (a) every `BelowExSet` clock built by the public `Clock`
operations contributes, at each negative-vote key `e` (an exception),
a positive vote at a key strictly greater than `e` (its `max`), and
(b) for every `TClock` built by `add` from such clocks and every
threshold `τ ≥ 1`, the instrumented per-actor computation — which
checks, at both unguarded `total_pos - neg` subtraction sites of
`threshold_union`, that the subtrahend does not exceed the minuend —
succeeds, so the two unguarded `u64` subtractions never wrap. -/
theorem claim_C10_no_underflow :
    (∀ c : Clock BelowExSet, ReachClockBE c →
      ∀ p ∈ c, ∀ e ∈ p.2.exs, 1 ≤ e ∧ e < p.2.max) ∧
    (∀ cs : List (Clock BelowExSet), (∀ c ∈ cs, ReachClockBE c) →
      ∀ τ, 1 ≤ τ → ∀ a,
        TClock.beActorChk τ
          (TClock.mOf (alookup a (TClock.ofList cs))).reverse =
          true) := by
  constructor
  · intro c hc p hp e he
    exact (reachClockBE_wf hc).2 p hp e he
  · intro cs hcs τ hτ a
    obtain ⟨hd, hW, hz0⟩ := TClock.be_mset_hyps cs
      (fun c hc => (reachClockBE_wf (hcs c hc)).1)
      (fun c hc => (reachClockBE_wf (hcs c hc)).2) a
    exact TClock.beActorChk_true τ hτ _ hd hW hz0

theorem claim_C10_witness :
    (∀ p ∈ ((Clock.new : Clock BelowExSet).add 0 5).1,
      ∀ e ∈ p.2.exs, 1 ≤ e ∧ e < p.2.max) ∧
    TClock.beActorChk 2
      (TClock.mOf (alookup 0 (TClock.ofList
        [((Clock.new : Clock BelowExSet).add 0 5).1]))).reverse =
      true :=
  ⟨claim_C10_no_underflow.1 _ (ReachClockBE.add Clock.new 0 5
      ReachClockBE.new),
   claim_C10_no_underflow.2
     [((Clock.new : Clock BelowExSet).add 0 5).1]
     (by
       intro c hc
       rcases List.mem_cons.1 hc with rfl | hc
       · exact ReachClockBE.add Clock.new 0 5 ReachClockBE.new
       · simp at hc)
     2 (by decide) 0⟩

/-! ## C3: `frontier_threshold` -/

/-- In a `≤`-sorted list, at least `length - i` elements are `≥ l[i]`. -/
theorem sorted_countP_ge {l : List ℕ} (hs : l.Sorted (· ≤ ·)) {i : ℕ}
    (hi : i < l.length) :
    l.length - i ≤ l.countP (fun x => decide (l[i] ≤ x)) := by
  have hall : ∀ x ∈ l.drop i, (fun x => decide (l[i] ≤ x)) x = true := by
    intro x hx
    obtain ⟨j, hj, rfl⟩ := List.mem_iff_getElem.1 hx
    rw [List.getElem_drop]
    rw [decide_eq_true_eq]
    rcases Nat.eq_zero_or_pos j with rfl | hj0
    · simp
    · exact List.pairwise_iff_getElem.1 hs i (i + j) hi
        (by simp at hj; omega) (by omega)
  have h1 : (l.drop i).countP (fun x => decide (l[i] ≤ x)) =
      (l.drop i).length := List.countP_eq_length.2 hall
  have h2 := (List.drop_sublist i l).countP_le (fun x => decide (l[i] ≤ x))
  rw [h1, List.length_drop] at h2
  exact h2

/-- In a `≤`-sorted list, fewer than `length - i` elements exceed
`l[i]`. -/
theorem sorted_countP_gt {l : List ℕ} (hs : l.Sorted (· ≤ ·)) {i : ℕ}
    (hi : i < l.length) :
    l.countP (fun x => decide (l[i] + 1 ≤ x)) ≤ l.length - i - 1 := by
  obtain ⟨v, hv⟩ : ∃ v, l[i] = v := ⟨_, rfl⟩
  rw [hv]
  have hsplit : l.countP (fun x => decide (v + 1 ≤ x)) =
      (l.take (i + 1)).countP (fun x => decide (v + 1 ≤ x)) +
        (l.drop (i + 1)).countP (fun x => decide (v + 1 ≤ x)) := by
    conv_lhs => rw [← List.take_append_drop (i + 1) l]
    exact List.countP_append ..
  have htake : (l.take (i + 1)).countP (fun x => decide (v + 1 ≤ x))
      = 0 := by
    refine List.countP_eq_zero.2 ?_
    intro x hx
    obtain ⟨j, hj, rfl⟩ := List.mem_iff_getElem.1 hx
    rw [List.getElem_take]
    simp only [decide_eq_true_eq]
    have hjl : j < l.length := by
      have := hj
      simp at this
      omega
    have hji : j ≤ i := by
      have := hj
      simp at this
      omega
    rcases Nat.eq_or_lt_of_le hji with rfl | hji'
    · omega
    · have h5 := List.pairwise_iff_getElem.1 hs j i hjl hi hji'
      omega
  have hdrop := List.countP_le_length
    (p := fun x => decide (v + 1 ≤ x)) (l := l.drop (i + 1))
  rw [List.length_drop] at hdrop
  omega

/-- C3: `frontier_threshold(τ)` (for `τ ≥ 1`) returns `None` when `τ`
exceeds the number of actors, and otherwise `Some` of the element at
position `|actors| − τ` of the ascending sort of the per-actor
frontiers, which is the largest `v` such that at least `τ` actors have
frontier `≥ v`. -/
theorem claim_C3_frontier_threshold (E : Type) [EventSet E]
    (c : Clock E) (τ : ℕ) (hτ : 1 ≤ τ) :
    (c.length < τ → Clock.frontier_threshold c τ = none) ∧
    (τ ≤ c.length → ∃ v,
      Clock.frontier_threshold c τ = some v ∧
      (isort (c.map (fun p => EventSet.frontier p.2)))[c.length - τ]? =
        some v ∧
      τ ≤ (c.map (fun p => EventSet.frontier p.2)).countP
          (fun f => decide (v ≤ f)) ∧
      ∀ w, τ ≤ (c.map (fun p => EventSet.frontier p.2)).countP
          (fun f => decide (w ≤ f)) → w ≤ v) := by
  constructor
  · intro hgt
    unfold Clock.frontier_threshold
    rw [if_neg (by omega)]
  · intro hle
    have hlen : (isort (c.map (fun p => EventSet.frontier p.2))).length =
        c.length :=
      (isort_perm _).length_eq.trans (List.length_map _ _)
    have hidx : c.length - τ <
        (isort (c.map (fun p => EventSet.frontier p.2))).length := by
      omega
    refine ⟨(isort (c.map (fun p => EventSet.frontier p.2)))[c.length - τ],
      ?_, List.getElem?_eq_getElem hidx, ?_, ?_⟩
    · unfold Clock.frontier_threshold
      rw [if_pos hle]
      exact List.getElem?_eq_getElem hidx
    · have h1 := sorted_countP_ge (isort_sorted _) hidx
      rw [(isort_perm (c.map (fun p => EventSet.frontier p.2))).countP_eq]
        at h1
      rw [hlen] at h1
      have : c.length - (c.length - τ) = τ := by omega
      rw [this] at h1
      exact h1
    · intro w hw
      by_contra hvw
      have h2 := sorted_countP_gt (isort_sorted _) hidx
      rw [(isort_perm (c.map (fun p => EventSet.frontier p.2))).countP_eq]
        at h2
      rw [hlen] at h2
      have h3 := List.countP_mono_left
        (l := c.map (fun p => EventSet.frontier p.2))
        (p := fun f => decide (w ≤ f))
        (q := fun f => decide
          ((isort (c.map (fun p => EventSet.frontier p.2)))[c.length - τ]
            + 1 ≤ f))
        (by
          intro a _ ha
          rw [decide_eq_true_eq] at ha ⊢
          omega)
      omega

theorem claim_C3_witness :
    Clock.frontier_threshold ([(7, MaxSet.mk 2)] : Clock MaxSet) 2 =
        none ∧
    (∃ v, Clock.frontier_threshold
        ([(3, MaxSet.mk 2), (9, MaxSet.mk 5)] : Clock MaxSet) 1 = some v ∧
      (isort (([(3, MaxSet.mk 2), (9, MaxSet.mk 5)] : Clock MaxSet).map
          (fun p => EventSet.frontier p.2)))[
        ([(3, MaxSet.mk 2), (9, MaxSet.mk 5)] : Clock MaxSet).length - 1]? =
        some v ∧
      1 ≤ (([(3, MaxSet.mk 2), (9, MaxSet.mk 5)] : Clock MaxSet).map
          (fun p => EventSet.frontier p.2)).countP
          (fun f => decide (v ≤ f)) ∧
      ∀ w, 1 ≤ (([(3, MaxSet.mk 2), (9, MaxSet.mk 5)] : Clock MaxSet).map
          (fun p => EventSet.frontier p.2)).countP
          (fun f => decide (w ≤ f)) → w ≤ v) :=
  ⟨(claim_C3_frontier_threshold MaxSet _ 2 (by decide)).1 (by decide),
   (claim_C3_frontier_threshold MaxSet _ 1 (by decide)).2 (by decide)⟩

end Threshold
